import Mathlib

/-!
Verification development for the rukki haplo-path / superbubble core
(`src/graph_algos/superbubble.rs`, `src/trio_walk.rs`).

The bidirected-graph substrate (`graph.rs`) and the trio-group type
(`trio.rs`) are not part of the analysed sources; they are modelled from
the specification (sections 3 and 4.A).  The superbubble finder and the
haplo-path searcher are translated function by function from the Rust
sources.  Rust `usize` arithmetic is modelled by `Nat`; places where the
source could only panic (assert failures, usize underflow) are modelled
by truncated subtraction and noted in comments, and the theorems carry
the well-formedness hypotheses that make those places unreachable.
Loops that Rust runs as `while`/recursion are modelled with an explicit
fuel parameter; a `none` result of a runner means the fuel was
exhausted, and the termination theorems show a concrete fuel bound on
which this never happens.
-/

/-- Modelled from the spec (graph.rs is external): orientation of a node. -/
inductive Direction where
  | forward
  | reverse
deriving DecidableEq, Repr

/-- Modelled from the spec: a vertex is an oriented node. -/
structure Vertex where
  nodeId : Nat
  dir : Direction
deriving DecidableEq, Repr

/-- Flip of an orientation. -/
def Direction.flip : Direction → Direction
  | .forward => .reverse
  | .reverse => .forward

/-- Reverse complement of a vertex: same node, flipped direction. -/
def Vertex.rc (v : Vertex) : Vertex := ⟨v.nodeId, v.dir.flip⟩

/-- The forward vertex of a node. -/
def Vertex.fwd (n : Nat) : Vertex := ⟨n, .forward⟩

/-- Modelled from the spec: a node carries a length (≥ 1) and a coverage.
Coverage is only ever compared, so it is modelled by `Nat`. -/
structure Node where
  length : Nat
  coverage : Nat
deriving DecidableEq, Repr

/-- Modelled from the spec: a link is a directed edge between vertices with
an overlap. -/
structure Link where
  startV : Vertex
  endV : Vertex
  overlap : Nat
deriving DecidableEq, Repr

/-- Reverse-complement twin of a link. -/
def Link.rc (l : Link) : Link := ⟨l.endV.rc, l.startV.rc, l.overlap⟩

/-- Modelled from the spec: the graph stores its nodes (ids are list
positions) and all its links, both twins included.  Incidence queries
filter the stored link list, so incidence order is the stored order. -/
structure Graph where
  nodes : List Node
  links : List Link
deriving DecidableEq, Repr

namespace Graph

def nodeCnt (g : Graph) : Nat := g.nodes.length

/-- `node(n)`; out-of-range ids (unreachable on well-formed input) give a
dummy node. -/
def node (g : Graph) (n : Nat) : Node := g.nodes.getD n ⟨0, 0⟩

def outgoing_edges (g : Graph) (v : Vertex) : List Link :=
  g.links.filter (fun l => l.startV = v)

def incoming_edges (g : Graph) (v : Vertex) : List Link :=
  g.links.filter (fun l => l.endV = v)

def outgoing_edge_cnt (g : Graph) (v : Vertex) : Nat := (g.outgoing_edges v).length

def incoming_edge_cnt (g : Graph) (v : Vertex) : Nat := (g.incoming_edges v).length

/-- `connector(u, v)`: the first outgoing link of `u` ending at `v`. -/
def connector (g : Graph) (u v : Vertex) : Option Link :=
  (g.outgoing_edges u).find? (fun l => l.endV = v)

/-- All vertices, forward then reverse per node in id order. -/
def all_vertices (g : Graph) : List Vertex :=
  (List.range g.nodeCnt).flatMap (fun i => [⟨i, .forward⟩, ⟨i, .reverse⟩])

/-- Well-formedness consumed from the external graph module: every stored
link mentions valid node ids. -/
def WfIds (g : Graph) : Prop :=
  ∀ l ∈ g.links, l.startV.nodeId < g.nodeCnt ∧ l.endV.nodeId < g.nodeCnt

/-- Well-formedness consumed from the external graph module: on every
link the end node is at least as long as the overlap. -/
def WfOverlap (g : Graph) : Prop :=
  ∀ l ∈ g.links, l.overlap ≤ (g.node l.endV.nodeId).length

end Graph

/-- Modelled from the spec (trio.rs is external): a haplotype group. -/
inductive TrioGroup where
  | PATERNAL
  | MATERNAL
  | HOMOZYGOUS
  | ISSUE
deriving DecidableEq, Repr

namespace TrioGroup

/-- Modelled from the spec: `blend` of two groups. -/
def blend (a b : TrioGroup) : TrioGroup :=
  if a = b then a
  else if a = HOMOZYGOUS then b
  else if b = HOMOZYGOUS then a
  else ISSUE

/-- Modelled from the spec: two groups are incompatible iff they are the
paternal/maternal pair. -/
def incompatible (a b : TrioGroup) : Bool :=
  (a = PATERNAL ∧ b = MATERNAL) ∨ (a = MATERNAL ∧ b = PATERNAL)

/-- Modelled from the spec: a definite group is paternal or maternal. -/
def definite (a : TrioGroup) : Bool := a = PATERNAL ∨ a = MATERNAL

end TrioGroup

/-- Modelled from the spec (trio.rs is external): the assignment oracle,
a read-only map from node id to group. -/
def AssignmentStorage := Nat → Option TrioGroup

namespace AssignmentStorage

def get (a : AssignmentStorage) (n : Nat) : Option TrioGroup := a n

def is_definite (a : AssignmentStorage) (n : Nat) : Bool :=
  match a n with
  | some g => g.definite
  | none => false

end AssignmentStorage

/-! ## Superbubble finder (src/graph_algos/superbubble.rs) -/

/-- `shift_range` from the source. -/
def shift_range (r : Nat × Nat) (s : Nat) : Nat × Nat := (r.1 + s, r.2 + s)

/-- `merge_range` from the source. -/
def merge_range (r1 r2 : Nat × Nat) : Nat × Nat :=
  (min r1.1 r2.1, max r1.2 r2.2)

/-- Association-list lookup (model of `HashMap::get`). -/
def alookup {α β : Type} [DecidableEq α] : List (α × β) → α → Option β
  | [], _ => none
  | (a, b) :: t, k => if a = k then some b else alookup t k

/-- Association-list insert-or-replace (model of `HashMap::insert`). -/
def ainsert {α β : Type} [DecidableEq α] : List (α × β) → α → β → List (α × β)
  | [], k, v => [(k, v)]
  | (a, b) :: t, k, v => if a = k then (k, v) :: t else (a, b) :: ainsert t k v

/-- Association-list removal (model of `HashMap::remove`). -/
def aremove {α β : Type} [DecidableEq α] : List (α × β) → α → List (α × β)
  | [], _ => []
  | (a, b) :: t, k => if a = k then t else (a, b) :: aremove t k

/-- Pointwise update of a function (model of a `HashMap` whose entries are
created before they are read). -/
def updFn {α β : Type} [DecidableEq α] (f : α → β) (k : α) (v : β) : α → β :=
  fun x => if x = k then v else f x

/-- A discovered superbubble.  The source keeps `end_vertex` as an `Option`
that is filled just before a successful return; only completed bubbles
escape the finder, so the model stores the end vertex directly. -/
structure Superbubble where
  start_vertex : Vertex
  end_vertex : Vertex
  reached_vertices : List (Vertex × (Nat × Nat))
deriving DecidableEq, Repr

/-- `Superbubble::link_dist_range`, over an explicit reached map so the
search loop can use it too.  The source unwraps `reached[l.start]` (the
start of a relaxed link is always reached) and asserts
`length ≥ overlap`; the model defaults the lookup and truncates. -/
def link_dist_range (g : Graph) (reached : List (Vertex × (Nat × Nat))) (l : Link) :
    Nat × Nat :=
  let r := (alookup reached l.startV).getD (0, 0)
  let enodeLen := (g.node l.endV.nodeId).length
  shift_range r (enodeLen - l.overlap)

namespace Superbubble

def vertices (b : Superbubble) : List Vertex := b.reached_vertices.map (·.1)

def inner_vertices (b : Superbubble) : List Vertex :=
  b.vertices.filter (fun v => v ≠ b.start_vertex ∧ v ≠ b.end_vertex)

/-- `Superbubble::length_range`. -/
def length_range (b : Superbubble) (g : Graph) : Nat × Nat :=
  let r := (alookup b.reached_vertices b.end_vertex).getD (0, 0)
  if b.start_vertex ≠ b.end_vertex then
    shift_range r (g.node b.start_vertex.nodeId).length
  else r

end Superbubble

/-- `SbSearchParams`; `usize` is modelled by `Nat`, "unrestricted" means
values at least as large as any quantity the search can produce. -/
structure SbSearchParams where
  max_length : Nat
  max_diff : Nat
  max_count : Nat
deriving DecidableEq, Repr

/-- State of the `find_superbubble` loop.  `processed` is ghost
bookkeeping recording the pop order; it never influences the computed
values. -/
structure SbSt where
  reached : List (Vertex × (Nat × Nat))
  stack : List Vertex
  nr : Nat
  rem : Vertex → Nat
  processed : List Vertex

/-- The unconditional tail of one relaxation: decrement the remaining
count of `l.end`, merge its range, and move it to the stack if it became
ready. -/
def relaxFin (g : Graph) (l : Link) (st1 : SbSt) : SbSt :=
  let w := l.endV
  let st2 := { st1 with rem := updFn st1.rem w (st1.rem w - 1) }
  let merged := merge_range ((alookup st2.reached w).getD (0, 0))
    (link_dist_range g st2.reached l)
  let st3 := { st2 with reached := ainsert st2.reached w merged }
  if st3.rem w = 0 then
    { st3 with stack := w :: st3.stack, nr := st3.nr - 1 }
  else st3

/-- Relaxation of one outgoing link (the body of the `for` loop in
`find_superbubble`); `none` aborts the whole search. -/
def relaxOne (g : Graph) (s : Vertex) (st : SbSt) (l : Link) : Option SbSt :=
  let w := l.endV
  if w = s then none
  else if (alookup st.reached w).isNone then
    if (alookup st.reached w.rc).isSome then none
    else some (relaxFin g l { st with
      nr := st.nr + 1,
      rem := updFn st.rem w (g.incoming_edge_cnt w),
      reached := ainsert st.reached w (link_dist_range g st.reached l) })
  else some (relaxFin g l st)

/-- Relaxation of a list of links in order. -/
def relaxList (g : Graph) (s : Vertex) : SbSt → List Link → Option SbSt
  | st, [] => some st
  | st, l :: t => match relaxOne g s st l with
    | none => none
    | some st1 => relaxList g s st1 t

/-- The `while` loop of `find_superbubble` with explicit fuel.  The outer
`Option` is fuel exhaustion; the inner one is the source's own result. -/
def sbLoop (g : Graph) (p : SbSearchParams) (s : Vertex) :
    Nat → SbSt → Option (Option Superbubble)
  | 0, _ => none
  | fuel + 1, st =>
    match st.stack with
    | [] => some none
    | v :: rest =>
      if st.reached.length > p.max_count then some none
      else if g.outgoing_edge_cnt v = 0 then some none
      else
        match relaxList g s { st with stack := rest } (g.outgoing_edges v) with
        | none => some none
        | some st1 =>
          let st2 := { st1 with processed := st1.processed ++ [v] }
          match st2.stack, st2.nr with
          | [t], 0 =>
            let r := (alookup st2.reached t).getD (0, 0)
            let vLen := (g.node t.nodeId).length
            if r.1 > vLen ∧ r.1 - vLen > p.max_length then some none
            else if r.2 - r.1 > p.max_diff then some none
            else some (some ⟨s, t, st2.reached⟩)
          | _, _ => sbLoop g p s fuel st2

/-- Initial loop state rooted at `s`. -/
def sbInit (s : Vertex) : SbSt :=
  { reached := [(s, (0, 0))], stack := [s], nr := 0, rem := fun _ => 0,
    processed := [] }

/-- Fuel sufficient for the search loop (each iteration processes a fresh
vertex, of which there are at most `2 * node count`). -/
def sbFuel (g : Graph) : Nat := 2 * g.nodeCnt + 2

/-- `find_superbubble`.  The guard rejects a start with fewer than two
outgoing edges or fewer than two of them non-loop; otherwise the loop
runs (the fuel bound is proved sufficient for well-formed graphs). -/
def find_superbubble (g : Graph) (v : Vertex) (p : SbSearchParams) :
    Option Superbubble :=
  if g.outgoing_edge_cnt v < 2 ∨
      ((g.outgoing_edges v).filter (fun l => ¬ l.startV = l.endV)).length < 2 then
    none
  else (sbLoop g p v (sbFuel g) (sbInit v)).join

/-- Backward walk of `Superbubble::longest_path` (`'outer` loop): scan the
incoming edges of the current vertex for the first one whose shifted max
matches the target distance; `none` models both the source's
`assert!(false)` and fuel exhaustion. -/
def longestWalk (g : Graph) (b : Superbubble) :
    Nat → Vertex → Nat → List Vertex → List Link → Option (List Vertex × List Link)
  | 0, _, _, _, _ => none
  | fuel + 1, v, dist, vs, ls =>
    if v = b.start_vertex then some (vs, ls)
    else
      match (g.incoming_edges v).find?
          (fun l => (link_dist_range g b.reached_vertices l).2 = dist) with
      | none => none
      | some l =>
        longestWalk g b fuel l.startV
          ((alookup b.reached_vertices l.startV).getD (0, 0)).2
          (vs ++ [l.rc.endV]) (ls ++ [l.rc])

/-- Backward walk of `Superbubble::shortest_path`, dual to `longestWalk`. -/
def shortestWalk (g : Graph) (b : Superbubble) :
    Nat → Vertex → Nat → List Vertex → List Link → Option (List Vertex × List Link)
  | 0, _, _, _, _ => none
  | fuel + 1, v, dist, vs, ls =>
    if v = b.start_vertex then some (vs, ls)
    else
      match (g.incoming_edges v).find?
          (fun l => (link_dist_range g b.reached_vertices l).1 = dist) with
      | none => none
      | some l =>
        shortestWalk g b fuel l.startV
          ((alookup b.reached_vertices l.startV).getD (0, 0)).1
          (vs ++ [l.rc.endV]) (ls ++ [l.rc])

/-- Modelled from the spec (graph.rs is external): the path primitive,
called `Path` in the source (that name is taken by the library here). -/
structure GraphPath where
  v_storage : List Vertex
  l_storage : List Link
deriving DecidableEq, Repr

namespace GraphPath

def new (v : Vertex) : GraphPath := ⟨[v], []⟩

def reverse_complement (p : GraphPath) : GraphPath :=
  ⟨p.v_storage.reverse.map Vertex.rc, p.l_storage.reverse.map Link.rc⟩

end GraphPath

/-- `Superbubble::longest_path`: run the backward walk from the end vertex
and reverse-complement the collected path. -/
def Superbubble.longest_path (b : Superbubble) (g : Graph) : Option GraphPath :=
  match longestWalk g b (b.reached_vertices.length + 1) b.end_vertex
      ((alookup b.reached_vertices b.end_vertex).getD (0, 0)).2
      [b.end_vertex.rc] [] with
  | none => none
  | some (vs, ls) => some (GraphPath.reverse_complement ⟨vs, ls⟩)

/-- `Superbubble::shortest_path`. -/
def Superbubble.shortest_path (b : Superbubble) (g : Graph) : Option GraphPath :=
  match shortestWalk g b (b.reached_vertices.length + 1) b.end_vertex
      ((alookup b.reached_vertices b.end_vertex).getD (0, 0)).1
      [b.end_vertex.rc] [] with
  | none => none
  | some (vs, ls) => some (GraphPath.reverse_complement ⟨vs, ls⟩)

/-- One step of the `find_all_outer` accumulation. -/
def outerStep (g : Graph) (p : SbSearchParams)
    (acc : List Vertex × List (Vertex × Superbubble)) (v : Vertex) :
    List Vertex × List (Vertex × Superbubble) :=
  if v ∈ acc.1 then acc
  else match find_superbubble g v p with
    | none => acc
    | some bubble =>
      let inner := bubble.inner_vertices
      let used1 := bubble.end_vertex.rc :: acc.1
      let used2 := inner.foldl (fun u w => w.rc :: w :: u) used1
      let s2b1 := inner.foldl (fun m w => aremove (aremove m w) w.rc) acc.2
      (used2, ainsert s2b1 v bubble)

/-- `find_all_outer`: iterate all vertices, keeping the surviving
non-nested bubbles. -/
def find_all_outer (g : Graph) (p : SbSearchParams) : List Superbubble :=
  ((g.all_vertices).foldl (outerStep g p) ([], [])).2.map (·.2)

/-- One bubble's contribution to the chain totals of `length_range`. -/
def chainStep (g : Graph) (acc : Nat × Nat) (bubble : Superbubble) : Nat × Nat :=
  let r := bubble.length_range g
  let s_l := (g.node bubble.start_vertex.nodeId).length
  (acc.1 + (r.1 - s_l), acc.2 + (r.2 - s_l))

/-- Module-level `length_range` for a bubble chain.  The source's
`chain.len() == 1` branch computes `chain[0].length_range(g)` and
discards the value (expression statement), so the general formula below
is the whole observable behaviour. -/
def length_range (chain : List Superbubble) (g : Graph) : Nat × Nat :=
  let tots := chain.foldl (chainStep g) (0, 0)
  match chain.head?, chain.getLast? with
  | some b0, some bl =>
    if b0.start_vertex ≠ bl.end_vertex then
      let s_l := (g.node b0.start_vertex.nodeId).length
      (tots.1 + s_l, tots.2 + s_l)
    else tots
  | _, _ => tots

/-! ## Haplo-path searcher (src/trio_walk.rs) -/

/-- `HaploPath` from trio_walk.rs. -/
structure HaploPath where
  v_storage : List Vertex
  l_storage : List Link
  initial_node : Nat
deriving DecidableEq, Repr

namespace HaploPath

def new (init_v : Vertex) : HaploPath := ⟨[init_v], [], init_v.nodeId⟩

def vertices (p : HaploPath) : List Vertex := p.v_storage

/-- `start`; a path is never empty so the default is unreachable. -/
def start (p : HaploPath) : Vertex := p.v_storage.headD ⟨0, .forward⟩

/-- `end`; the name `end` is a keyword here. -/
def end_v (p : HaploPath) : Vertex := p.v_storage.getLastD ⟨0, .forward⟩

def len (p : HaploPath) : Nat := p.v_storage.length

def links (p : HaploPath) : List Link := p.l_storage

def reverse_complement (p : HaploPath) : HaploPath :=
  ⟨p.v_storage.reverse.map Vertex.rc, p.l_storage.reverse.map Link.rc,
    p.initial_node⟩

/-- `append`; the source asserts that `l.start` is the current last vertex
and that `l.end`'s node is new, which hold at every call site reached on
well-formed input. -/
def append (p : HaploPath) (l : Link) : HaploPath :=
  ⟨p.v_storage ++ [l.endV], p.l_storage ++ [l], p.initial_node⟩

def in_path (p : HaploPath) (node_id : Nat) : Bool :=
  p.v_storage.any (fun v => v.nodeId = node_id)

/-- `trim_to`: pop the tail until the last vertex is `v`; `none` models the
`false` return (the path is left untouched by the source in that case). -/
def trim_to (p : HaploPath) (v : Vertex) : Option HaploPath :=
  if v ∈ p.v_storage then
    let vs := (p.v_storage.reverse.dropWhile (fun x => ¬ x = v)).reverse
    some ⟨vs, p.l_storage.take (vs.length - 1), p.initial_node⟩
  else none

/-- `can_merge_in`: no node of `path` beyond the shared junction may
already be on `p`. -/
def can_merge_in (p : HaploPath) (path : HaploPath) : Bool :=
  ¬ path.v_storage.tail.any (fun v => p.in_path v.nodeId)

def merge_in (p : HaploPath) (path : HaploPath) : HaploPath :=
  path.l_storage.foldl append p

end HaploPath

/-- The `used` map of the searcher. -/
def UsedMap := Nat → Option TrioGroup

/-- `long_node`. -/
def long_node (g : Graph) (thr : Nat) (node_id : Nat) : Bool :=
  (g.node node_id).length ≥ thr

/-- `incompatible_assignment`. -/
def incompatible_assignment (a : AssignmentStorage) (node_id : Nat)
    (target_group : TrioGroup) : Bool :=
  match a.get node_id with
  | some assign => TrioGroup.incompatible assign target_group
  | none => false

/-- `check_assignment`. -/
def check_assignment (a : AssignmentStorage) (node_id : Nat)
    (target_group : TrioGroup) : Bool :=
  match a.get node_id with
  | some assign => assign = target_group
  | none => false

/-- `check_available`.  The source also asserts that the stored group is
never `ISSUE` when this runs; see the C2 analysis. -/
def check_available (used : UsedMap) (g : Graph) (thr : Nat) (node_id : Nat)
    (target_group : TrioGroup) : Bool :=
  match used node_id with
  | some group =>
    if TrioGroup.incompatible group target_group then
      if long_node g thr node_id then false else true
    else false
  | none => true

/-- `update_used`: blend every path vertex into the used map. -/
def update_used (used : UsedMap) (path : HaploPath) (group : TrioGroup) :
    UsedMap :=
  path.v_storage.foldl
    (fun u v =>
      let blended := match u v.nodeId with
        | some exist_group => TrioGroup.blend exist_group group
        | none => group
      updFn u v.nodeId (some blended)) used

/-- `unambiguous_extension`. -/
def unambiguous_extension (g : Graph) (v : Vertex) : Option Link :=
  match g.outgoing_edges v with
  | [l] => some l
  | _ => none

/-- The scan part of `group_extension` (the `for` loop with its early
`return None`). -/
def groupExtScan (a : AssignmentStorage) (group : TrioGroup) :
    List Link → Option Link → Option Link
  | [], suitable => suitable
  | l :: t, suitable =>
    if a.is_definite l.endV.nodeId then
      if a.get l.endV.nodeId = some group then
        match suitable with
        | none => groupExtScan a group t (some l)
        | some _ => none
      else groupExtScan a group t suitable
    else none

/-- `group_extension`. -/
def group_extension (g : Graph) (a : AssignmentStorage) (v : Vertex)
    (group : TrioGroup) : Option Link :=
  match unambiguous_extension g v with
  | some l =>
    if ¬ incompatible_assignment a l.endV.nodeId group then some l
    else groupExtScan a group (g.outgoing_edges v) none
  | none => groupExtScan a group (g.outgoing_edges v) none

/-- The `while let` loop of `grow_forward`, with fuel. -/
def growForwardAux (g : Graph) (a : AssignmentStorage) (used : UsedMap)
    (thr : Nat) (group : TrioGroup) (check_avail : Bool) :
    Nat → HaploPath → Vertex → Nat → Option (HaploPath × Nat)
  | 0, _, _, _ => none
  | fuel + 1, path, v, steps =>
    match group_extension g a v group with
    | none => some (path, steps)
    | some l =>
      let w := l.endV
      if path.in_path w.nodeId ∨
          (check_avail ∧ ¬ check_available used g thr w.nodeId group) then
        some (path, steps)
      else growForwardAux g a used thr group check_avail fuel
        (path.append l) w (steps + 1)

/-- `grow_forward`: returns the grown path and the step count; the fuel
bound is proved sufficient for well-formed inputs. -/
def grow_forward (g : Graph) (a : AssignmentStorage) (used : UsedMap)
    (thr : Nat) (path : HaploPath) (group : TrioGroup) (check_avail : Bool) :
    Option (HaploPath × Nat) :=
  growForwardAux g a used thr group check_avail (g.nodeCnt + 1) path
    path.end_v 0

/-- `inner_dfs` and its successor `for` loop, merged into one
fuel-structural function so that it reduces inside the kernel: an `inl`
argument is a vertex visit, an `inr` argument is the list of remaining
successor links of the vertex being expanded.  Fuel is consumed on every
call; the bound used by `bounded_dfs` is proved sufficient. -/
def dfsGo (g : Graph) (thr : Nat) :
    Nat → Vertex ⊕ List Link → List Vertex × List Vertex →
    Option (List Vertex × List Vertex)
  | 0, _, _ => none
  | fuel + 1, .inl v, st =>
    let visited := st.1 ++ [v]
    if visited.length > 1 ∧ long_node g thr v.nodeId then
      some (visited, st.2 ++ [v])
    else dfsGo g thr fuel (.inr (g.outgoing_edges v)) (visited, st.2)
  | _ + 1, .inr [], st => some st
  | fuel + 1, .inr (l :: t), st =>
    if l.endV ∈ st.1 then dfsGo g thr fuel (.inr t) st
    else match dfsGo g thr fuel (.inl l.endV) st with
      | none => none
      | some st1 => dfsGo g thr fuel (.inr t) st1

/-- The recursive `inner_dfs` entry point. -/
def inner_dfs (g : Graph) (thr : Nat) (fuel : Nat) (v : Vertex)
    (st : List Vertex × List Vertex) : Option (List Vertex × List Vertex) :=
  dfsGo g thr fuel (.inl v) st

/-- Fuel sufficient for the DFS: one unit per visited vertex plus one per
examined link plus the root call. -/
def dfsFuel (g : Graph) : Nat := 2 * g.nodeCnt + g.links.length + 2

/-- `bounded_dfs` with its proved-sufficient fuel. -/
def bounded_dfs (g : Graph) (thr : Nat) (v : Vertex) : Option (List Vertex) :=
  (inner_dfs g thr (dfsFuel g) v ([], [])).map (·.2)

/-- `try_link`: append the first outgoing edge of the path end that lands
on `v`. -/
def try_link (g : Graph) (path : HaploPath) (v : Vertex) : HaploPath :=
  match (g.outgoing_edges path.end_v).find? (fun l => l.endV = v) with
  | some l => path.append l
  | none => path

/-- The `long_node_ahead` closure of `link_vertex_check`; the source
asserts a unique outgoing edge (guaranteed at both call sites on
rc-closed graphs), modelled by `false` otherwise. -/
def long_node_ahead (g : Graph) (thr : Nat) (v : Vertex) : Bool :=
  match g.outgoing_edges v with
  | [l] => long_node g thr l.endV.nodeId
  | _ => false

/-- `link_vertex_check`. -/
def link_vertex_check (g : Graph) (a : AssignmentStorage) (thr : Nat)
    (w : Vertex) (group : TrioGroup) : Bool :=
  ¬ long_node g thr w.nodeId
    ∧ ¬ incompatible_assignment a w.nodeId group
    ∧ g.incoming_edge_cnt w = 1
    ∧ g.outgoing_edge_cnt w = 1
    ∧ (long_node_ahead g thr w
      ∨ long_node_ahead g thr w.rc
      ∨ check_assignment a w.nodeId group)

/-- Stable insertion step for the descending-coverage sort of
`try_link_with_vertex`. -/
def insertByCovDesc (g : Graph) (x : Link) : List Link → List Link
  | [] => [x]
  | y :: t =>
    if (g.node x.endV.nodeId).coverage ≤ (g.node y.endV.nodeId).coverage then
      y :: insertByCovDesc g x t
    else x :: y :: t

/-- Stable sort by descending end-node coverage (`sort_by` in the source
is stable, and coverage values are only ever compared). -/
def sortByCovDesc (g : Graph) (ls : List Link) : List Link :=
  ls.foldr (insertByCovDesc g) []

/-- `try_link_with_vertex`. -/
def try_link_with_vertex (g : Graph) (a : AssignmentStorage) (thr : Nat)
    (path : HaploPath) (v : Vertex) (group : TrioGroup) : HaploPath :=
  let sorted := sortByCovDesc g (g.outgoing_edges path.end_v)
  match sorted.find? (fun l =>
      ¬ path.in_path l.endV.nodeId
        ∧ link_vertex_check g a thr l.endV group
        ∧ (g.connector l.endV v).isSome) with
  | some l =>
    match g.connector l.endV v with
    | some l2 => (path.append l).append l2
    | none => path
  | none => path

/-- `find_jump_ahead`; outer `Option` is fuel exhaustion of the nested
bounded DFS / growth, inner `Option` the source's result. -/
def find_jump_ahead (g : Graph) (a : AssignmentStorage) (used : UsedMap)
    (thr : Nat) (v : Vertex) (group : TrioGroup) :
    Option (Option HaploPath) :=
  match bounded_dfs g thr v with
  | none => none
  | some long_ahead =>
    if long_ahead.all (fun x => a.is_definite x.nodeId) then
      match long_ahead.filter (fun x => a.get x.nodeId = some group) with
      | [t] =>
        match grow_forward g a used thr (HaploPath.new t.rc) group false with
        | none => none
        | some (p1, _) =>
          let p2 := if ¬ p1.in_path v.nodeId then
              try_link_with_vertex g a thr p1 v.rc group
            else p1
          let p3 := if ¬ p2.in_path v.nodeId then try_link g p2 v.rc else p2
          match p3.trim_to v.rc with
          | some p4 => some (some p4.reverse_complement)
          | none => some none
      | _ => some none
    else some none

/-- `jump_forward`. -/
def jump_forward (g : Graph) (a : AssignmentStorage) (used : UsedMap)
    (thr : Nat) (sccs : List Nat) (path : HaploPath) (group : TrioGroup) :
    Option (HaploPath × Nat) :=
  match find_jump_ahead g a used thr path.end_v group with
  | none => none
  | some none => some (path, 0)
  | some (some jump) =>
    if path.can_merge_in jump
        ∧ jump.l_storage.all (fun l => l.startV.nodeId ∉ sccs)
        ∧ jump.v_storage.all
          (fun w => check_available used g thr w.nodeId group) then
      some (path.merge_in jump, jump.len - 1)
    else some (path, 0)

/-- The `loop` of `grow_jump_forward`, with fuel. -/
def growJumpAux (g : Graph) (a : AssignmentStorage) (used : UsedMap)
    (thr : Nat) (sccs : List Nat) (group : TrioGroup) :
    Nat → HaploPath → Nat → Option (HaploPath × Nat)
  | 0, _, _ => none
  | fuel + 1, path, tot =>
    match grow_forward g a used thr path group true with
    | none => none
    | some (p1, s1) =>
      match jump_forward g a used thr sccs p1 group with
      | none => none
      | some (p2, s2) =>
        if s1 + s2 = 0 then some (p2, tot)
        else growJumpAux g a used thr sccs group fuel p2 (tot + s1 + s2)

/-- `grow_jump_forward` with its proved-sufficient fuel. -/
def grow_jump_forward (g : Graph) (a : AssignmentStorage) (used : UsedMap)
    (thr : Nat) (sccs : List Nat) (path : HaploPath) (group : TrioGroup) :
    Option (HaploPath × Nat) :=
  growJumpAux g a used thr sccs group (g.nodeCnt + 2) path 0

/-- `haplo_path`: bidirectional growth centred on the anchor. -/
def haplo_path (g : Graph) (a : AssignmentStorage) (used : UsedMap)
    (thr : Nat) (sccs : List Nat) (node_id : Nat) (group : TrioGroup) :
    Option HaploPath :=
  match grow_jump_forward g a used thr sccs (HaploPath.new (Vertex.fwd node_id))
      group with
  | none => none
  | some (p1, _) =>
    match grow_jump_forward g a used thr sccs p1.reverse_complement group with
    | none => none
    | some (p2, _) => some p2.reverse_complement

/-- The node loop of `find_all`. -/
def findAllAux (g : Graph) (a : AssignmentStorage) (thr : Nat)
    (sccs : List Nat) :
    List Nat → UsedMap → List (HaploPath × TrioGroup) →
    Option (UsedMap × List (HaploPath × TrioGroup))
  | [], used, answer => some (used, answer)
  | n :: t, used, answer =>
    if (used n).isSome then findAllAux g a thr sccs t used answer
    else match a.get n with
      | some group =>
        if (g.node n).length ≥ thr ∧ group.definite then
          match haplo_path g a used thr sccs n group with
          | none => none
          | some path =>
            findAllAux g a thr sccs t (update_used used path group)
              (answer ++ [(path, group)])
        else findAllAux g a thr sccs t used answer
      | none => findAllAux g a thr sccs t used answer

/-- `find_all`: iterate nodes in id order; `in_sccs` is the externally
computed SCC node set (the SCC module is outside the analysed sources). -/
def find_all (g : Graph) (a : AssignmentStorage) (thr : Nat)
    (sccs : List Nat) : Option (UsedMap × List (HaploPath × TrioGroup)) :=
  findAllAux g a thr sccs (List.range g.nodeCnt) (fun _ => none) []

/-! ## Concrete instances used by counterexamples and witnesses -/

/-- Add the reverse-complement twin of every link (the graph stores both). -/
def mkTwins (ls : List Link) : List Link := ls ++ ls.map Link.rc

/-- Shorthand for a forward vertex. -/
def vf (n : Nat) : Vertex := ⟨n, .forward⟩

/-- Shorthand for a reverse vertex. -/
def vr (n : Nat) : Vertex := ⟨n, .reverse⟩

/-- Two nodes joined by two parallel links with different overlaps. -/
def exGraphPar : Graph :=
  { nodes := [⟨5, 0⟩, ⟨5, 0⟩],
    links := mkTwins [⟨vf 0, vf 1, 0⟩, ⟨vf 0, vf 1, 1⟩] }

/-- A diamond: A → {B, C} → D, all lengths 10, overlaps 0. -/
def exGraphDia : Graph :=
  { nodes := [⟨10, 0⟩, ⟨10, 0⟩, ⟨10, 0⟩, ⟨10, 0⟩],
    links := mkTwins [⟨vf 0, vf 1, 0⟩, ⟨vf 0, vf 2, 0⟩, ⟨vf 1, vf 3, 0⟩,
      ⟨vf 2, vf 3, 0⟩] }

/-- Two long anchors 0 and 1 both linking into the short unassigned node 2. -/
def exGraphTrio : Graph :=
  { nodes := [⟨10, 0⟩, ⟨10, 0⟩, ⟨1, 0⟩],
    links := mkTwins [⟨vf 0, vf 2, 0⟩, ⟨vf 1, vf 2, 0⟩] }

/-- Assignments for `exGraphTrio`: node 0 maternal, node 1 paternal. -/
def exOracleTrio : AssignmentStorage := fun n =>
  if n = 0 then some .MATERNAL else if n = 1 then some .PATERNAL else none

/-- Generous search parameters. -/
def exParams : SbSearchParams := ⟨1000, 1000, 1000⟩

/-- A single short node, used by the `check_available` counterexample. -/
def exGraphOne : Graph := { nodes := [⟨1, 0⟩], links := [] }

/-- A used map marking node 0 paternal. -/
def exUsedOne : UsedMap := fun n => if n = 0 then some .PATERNAL else none

/-- The chain-length formula in the words of the specification: sum each
bubble's `length_range` minus its start-node length, then add back the
first start-node length when the chain is not closed. -/
def length_range_spec (chain : List Superbubble) (g : Graph) : Nat × Nat :=
  let tmin := (chain.map (fun b =>
    (b.length_range g).1 - (g.node b.start_vertex.nodeId).length)).sum
  let tmax := (chain.map (fun b =>
    (b.length_range g).2 - (g.node b.start_vertex.nodeId).length)).sum
  match chain.head?, chain.getLast? with
  | some b0, some bl =>
    if b0.start_vertex ≠ bl.end_vertex then
      let s_l := (g.node b0.start_vertex.nodeId).length
      (tmin + s_l, tmax + s_l)
    else (tmin, tmax)
  | _, _ => (tmin, tmax)

/-! ## Claims C1, C2, C6, C7 -/

/-- C1 counterexample: with node 0 short and already used by the very group
asked for (a compatible group), the claim predicts `check_available` is
true, but the source refuses to revisit a node inside the same
haplotype and returns false. -/
theorem c1_counterexample :
    check_available exUsedOne exGraphOne 10 0 TrioGroup.PATERNAL = false
      ∧ exUsedOne 0 = some TrioGroup.PATERNAL
      ∧ TrioGroup.incompatible TrioGroup.PATERNAL TrioGroup.PATERNAL = false
      ∧ long_node exGraphOne 10 0 = false := by decide

/-- C1 amended: `check_available(n, g)` is true iff `n` is absent from the
used map, or the stored group is incompatible with `g` and `n` is not
long.  (The claim said "compatible"; the code forbids any same-haplotype
reuse and only lets an incompatible haplotype reuse short nodes.) -/
theorem c1_check_available_amended (used : UsedMap) (g : Graph) (thr : Nat)
    (n : Nat) (tg : TrioGroup) :
    check_available used g thr n tg = true ↔
      (used n = none ∨ ∃ gr, used n = some gr
        ∧ TrioGroup.incompatible gr tg = true ∧ long_node g thr n = false) := by
  unfold check_available
  cases h : used n with
  | none => simp
  | some gr =>
    cases hic : TrioGroup.incompatible gr tg with
    | false => simp [hic]
    | true =>
      cases hl : long_node g thr n with
      | false => simp [hic, hl]
      | true => simp [hic, hl]

/-- C2: the claim (and the source's own `assert!(group != ISSUE)`) says the
used map never holds `ISSUE`, but running `find_all` on two long
anchors of opposite haplotypes that both extend over the same short
unassigned node stores `blend(MATERNAL, PATERNAL) = ISSUE` for it. -/
theorem c2_used_issue_eval :
    (find_all exGraphTrio exOracleTrio 5 []).map (fun r => r.1 2)
      = some (some TrioGroup.ISSUE) := by decide

/-- C6 counterexample: vertex 0+ of `exGraphPar` has two parallel non-loop
outgoing edges onto a single distinct target, yet `find_superbubble`
returns a bubble; the guard counts edges, not distinct targets. -/
theorem c6_counterexample :
    ((((exGraphPar.outgoing_edges (vf 0)).filter
        (fun l => ¬ l.startV = l.endV)).map (fun l => l.endV)).dedup.length = 1)
      ∧ (find_superbubble exGraphPar (vf 0) exParams).isSome = true := by decide

/-- C6 amended: a start vertex with fewer than two outgoing edges, or fewer
than two non-loop outgoing edges (edges counted with multiplicity, not
distinct targets), yields no bubble. -/
theorem c6_guard_amended (g : Graph) (v : Vertex) (p : SbSearchParams)
    (h : g.outgoing_edge_cnt v < 2 ∨
      ((g.outgoing_edges v).filter (fun l => ¬ l.startV = l.endV)).length < 2) :
    find_superbubble g v p = none := by
  unfold find_superbubble
  rw [if_pos h]

/-- C6 witness: vertex 0+ of the trio example has a single outgoing edge
and indeed yields no bubble. -/
theorem c6_guard_amended_witness :
    (exGraphTrio.outgoing_edge_cnt (vf 0) < 2 ∨
      ((exGraphTrio.outgoing_edges (vf 0)).filter
        (fun l => ¬ l.startV = l.endV)).length < 2)
      ∧ find_superbubble exGraphTrio (vf 0) exParams = none :=
  ⟨by decide, c6_guard_amended exGraphTrio (vf 0) exParams (by decide)⟩

/-- Folding the per-bubble contributions equals summing them. -/
theorem length_range_foldl_sum (g : Graph) (chain : List Superbubble)
    (acc : Nat × Nat) :
    chain.foldl (chainStep g) acc
    = (acc.1 + (chain.map (fun b =>
          (b.length_range g).1 - (g.node b.start_vertex.nodeId).length)).sum,
       acc.2 + (chain.map (fun b =>
          (b.length_range g).2 - (g.node b.start_vertex.nodeId).length)).sum) := by
  induction chain generalizing acc with
  | nil => simp
  | cons b t ih =>
    rw [List.foldl_cons, ih]
    unfold chainStep
    simp
    omega

/-- C7: the chain `length_range` equals the general formula of the
specification for every non-empty chain, and on a single-bubble chain
whose bubble is not closed it returns exactly that bubble's own
`length_range` (the dead `chain.len() == 1` statement has no effect). -/
theorem c7_chain_length_range (g : Graph) :
    (∀ chain : List Superbubble, chain ≠ [] →
      length_range chain g = length_range_spec chain g)
    ∧ ∀ b : Superbubble, b.start_vertex ≠ b.end_vertex →
        length_range [b] g = b.length_range g := by
  constructor
  · intro chain _
    unfold length_range length_range_spec
    rw [length_range_foldl_sum]
    simp
  · intro b hne
    unfold length_range
    rw [length_range_foldl_sum]
    simp only [List.head?_cons, List.getLast?_singleton, List.map_cons,
      List.map_nil, List.sum_cons, List.sum_nil]
    rw [if_pos hne]
    unfold Superbubble.length_range
    rw [if_pos hne]
    unfold shift_range
    simp

/-- The bubble that `find_superbubble` discovers on `exGraphPar`. -/
def exBubblePar : Superbubble := ⟨vf 0, vf 1, [(vf 0, (0, 0)), (vf 1, (4, 5))]⟩

/-- C7 witness: a one-bubble chain over the parallel-edge example. -/
theorem c7_chain_length_range_witness :
    length_range [exBubblePar] exGraphPar = length_range_spec [exBubblePar] exGraphPar
      ∧ length_range [exBubblePar] exGraphPar
        = exBubblePar.length_range exGraphPar :=
  ⟨(c7_chain_length_range exGraphPar).1 [exBubblePar] (by decide),
   (c7_chain_length_range exGraphPar).2 exBubblePar (by decide)⟩

/-! ## C8: a refused jump leaves the path untouched -/

/-- `rc` is an involution. -/
theorem Vertex.rc_rc (v : Vertex) : v.rc.rc = v := by
  cases v with
  | mk n d => cases d <;> rfl

/-- `rc` is injective. -/
theorem Vertex.rc_inj {u v : Vertex} (h : u.rc = v.rc) : u = v := by
  have := congrArg Vertex.rc h
  rwa [Vertex.rc_rc, Vertex.rc_rc] at this

/-- Dropping the tail after the last occurrence of `v` (through the
reversed list) keeps the head, ends at `v`, and stays non-empty. -/
theorem dropWhile_rev_facts {α : Type} [DecidableEq α] (l : List α) (v : α)
    (hmem : v ∈ l) :
    ((l.reverse.dropWhile (fun x => ¬ x = v)).reverse) ≠ []
      ∧ ((l.reverse.dropWhile (fun x => ¬ x = v)).reverse).head? = l.head?
      ∧ ((l.reverse.dropWhile (fun x => ¬ x = v)).reverse).getLast? = some v := by
  have hmemr : v ∈ l.reverse := List.mem_reverse.mpr hmem
  have hne : l.reverse.dropWhile (fun x => ¬ x = v) ≠ [] := by
    intro h
    have := List.dropWhile_eq_nil_iff.mp h v hmemr
    simp at this
  have hhead : (l.reverse.dropWhile (fun x => ¬ x = v)).head? = some v := by
    have hh := List.head?_dropWhile_not (fun x : α => (¬ x = v : Bool)) l.reverse
    match hm : (l.reverse.dropWhile (fun x => ¬ x = v)).head? with
    | none => exact absurd (List.head?_eq_none_iff.mp hm) hne
    | some x =>
      rw [hm] at hh
      simp only [decide_not] at hh
      simp at hh
      rw [hh]
  have hlast : (l.reverse.dropWhile (fun x => ¬ x = v)).getLast? = l.head? := by
    obtain ⟨pre, hpre⟩ := List.dropWhile_suffix
      (l := l.reverse) (fun x : α => (¬ x = v : Bool))
    calc (l.reverse.dropWhile (fun x => ¬ x = v)).getLast?
        = (pre ++ l.reverse.dropWhile (fun x => ¬ x = v)).getLast? := by
          rw [List.getLast?_append]
          match hm : (l.reverse.dropWhile (fun x => ¬ x = v)).getLast? with
          | some x => rfl
          | none => exact absurd (List.getLast?_eq_none_iff.mp hm) hne
      _ = l.reverse.getLast? := by rw [hpre]
      _ = l.head? := List.getLast?_reverse l
  refine ⟨by simpa using hne, ?_, ?_⟩
  · rw [List.head?_reverse]
    exact hlast
  · rw [List.getLast?_reverse]
    exact hhead

/-- What `trim_to` guarantees on success. -/
theorem trim_to_facts (p : HaploPath) (v : Vertex) (p4 : HaploPath)
    (h : p.trim_to v = some p4) :
    p4.v_storage ≠ [] ∧ p4.v_storage.head? = p.v_storage.head?
      ∧ p4.v_storage.getLast? = some v := by
  unfold HaploPath.trim_to at h
  split at h
  case isTrue hmem =>
    obtain ⟨h1, h2, h3⟩ := dropWhile_rev_facts p.v_storage v hmem
    injection h with h
    subst h
    exact ⟨h1, h2, h3⟩
  case isFalse => exact absurd h (by simp)

/-- Appending keeps a non-empty storage non-empty. -/
theorem append_ne_nil (p : HaploPath) (l : Link) :
    (p.append l).v_storage ≠ [] := by
  unfold HaploPath.append
  simp

/-- Appending keeps the head of a non-empty storage. -/
theorem append_head? (p : HaploPath) (l : Link) (h : p.v_storage ≠ []) :
    (p.append l).v_storage.head? = p.v_storage.head? := by
  unfold HaploPath.append
  cases hv : p.v_storage with
  | nil => exact absurd hv h
  | cons a t => simp

/-- The growth loop only appends, so the head survives. -/
theorem growForwardAux_head (g : Graph) (a : AssignmentStorage)
    (used : UsedMap) (thr : Nat) (group : TrioGroup) (ca : Bool) :
    ∀ fuel path v steps out,
      growForwardAux g a used thr group ca fuel path v steps = some out →
      path.v_storage ≠ [] →
      out.1.v_storage ≠ [] ∧ out.1.v_storage.head? = path.v_storage.head? := by
  intro fuel
  induction fuel with
  | zero => intro path v steps out h _; simp [growForwardAux] at h
  | succ n ih =>
    intro path v steps out h hne
    rw [growForwardAux] at h
    cases hge : group_extension g a v group with
    | none =>
      rw [hge] at h
      injection h with h
      subst h
      exact ⟨hne, rfl⟩
    | some l =>
      rw [hge] at h
      dsimp only at h
      split at h
      · injection h with h
        subst h
        exact ⟨hne, rfl⟩
      · have hrec := ih (path.append l) l.endV (steps + 1) out h (append_ne_nil path l)
        exact ⟨hrec.1, hrec.2.trans (append_head? path l hne)⟩

/-- `grow_forward` keeps the head. -/
theorem grow_forward_head (g : Graph) (a : AssignmentStorage) (used : UsedMap)
    (thr : Nat) (path : HaploPath) (group : TrioGroup) (ca : Bool)
    (out : HaploPath × Nat)
    (h : grow_forward g a used thr path group ca = some out)
    (hne : path.v_storage ≠ []) :
    out.1.v_storage ≠ [] ∧ out.1.v_storage.head? = path.v_storage.head? :=
  growForwardAux_head g a used thr group ca (g.nodeCnt + 1) path path.end_v 0
    out h hne

/-- `try_link` keeps the head. -/
theorem try_link_head (g : Graph) (p : HaploPath) (v : Vertex)
    (hne : p.v_storage ≠ []) :
    (try_link g p v).v_storage ≠ []
      ∧ (try_link g p v).v_storage.head? = p.v_storage.head? := by
  unfold try_link
  split
  · exact ⟨append_ne_nil p _, append_head? p _ hne⟩
  · exact ⟨hne, rfl⟩

/-- `try_link_with_vertex` keeps the head. -/
theorem try_link_with_vertex_head (g : Graph) (a : AssignmentStorage)
    (thr : Nat) (p : HaploPath) (v : Vertex) (group : TrioGroup)
    (hne : p.v_storage ≠ []) :
    (try_link_with_vertex g a thr p v group).v_storage ≠ []
      ∧ (try_link_with_vertex g a thr p v group).v_storage.head?
        = p.v_storage.head? := by
  unfold try_link_with_vertex
  dsimp only
  split
  · split
    · exact ⟨append_ne_nil _ _,
        (append_head? _ _ (append_ne_nil p _)).trans (append_head? p _ hne)⟩
    · exact ⟨hne, rfl⟩
  · exact ⟨hne, rfl⟩

/-- Monotone-visited and no-relisting-of-an-already-visited root for the
DFS: anything pushed onto `long_ext` is either old or differs from any
`r` already visited before the call (when the call itself is not on `r`). -/
theorem dfsGo_facts (g : Graph) (thr : Nat) :
    ∀ fuel (arg : Vertex ⊕ List Link) (st out : List Vertex × List Vertex),
      dfsGo g thr fuel arg st = some out →
      (∀ x ∈ st.1, x ∈ out.1)
      ∧ (∀ r ∈ st.1, (∀ v, arg = .inl v → v ≠ r) →
          ∀ x ∈ out.2, x ∈ st.2 ∨ x ≠ r) := by
  intro fuel
  induction fuel with
  | zero => intro arg st out h; simp [dfsGo] at h
  | succ n ih =>
    intro arg st out h
    match arg with
    | .inl v =>
      rw [dfsGo] at h
      split at h
      · injection h with h
        subst h
        constructor
        · intro x hx; exact List.mem_append_left _ hx
        · intro r hr hv x hx
          rcases List.mem_append.mp hx with h1 | h2
          · exact .inl h1
          · right
            simp at h2
            subst h2
            exact hv x rfl
      · have hf := ih (.inr (g.outgoing_edges v)) (st.1 ++ [v], st.2) out h
        constructor
        · intro x hx; exact hf.1 x (List.mem_append_left _ hx)
        · intro r hr hv x hx
          exact hf.2 r (List.mem_append_left _ hr) (by intro v' hv'; cases hv') x hx
    | .inr [] =>
      rw [dfsGo] at h
      injection h with h
      subst h
      exact ⟨fun x hx => hx, fun r _ _ x hx => .inl hx⟩
    | .inr (l :: t) =>
      rw [dfsGo] at h
      split at h
      case isTrue hmem =>
        have hf := ih (.inr t) st out h
        exact ⟨hf.1, fun r hr _ x hx => hf.2 r hr (by intro v' hv'; cases hv') x hx⟩
      case isFalse hmem =>
        cases hinner : dfsGo g thr n (.inl l.endV) st with
        | none => rw [hinner] at h; simp at h
        | some st1 =>
          rw [hinner] at h
          have f1 := ih (.inl l.endV) st st1 hinner
          have f2 := ih (.inr t) st1 out h
          constructor
          · intro x hx; exact f2.1 x (f1.1 x hx)
          · intro r hr _ x hx
            have hend : l.endV ≠ r := by
              intro he
              exact hmem (he ▸ hr)
            rcases f2.2 r (f1.1 r hr) (by intro v' hv'; cases hv') x hx with h1 | h2
            · exact f1.2 r hr
                (by intro v' hv'; injection hv' with hv'; subst hv'; exact hend) x h1
            · exact .inr h2

/-- The DFS never reports its own root as a long frontier vertex. -/
theorem bounded_dfs_not_root (g : Graph) (thr : Nat) (v : Vertex)
    (out : List Vertex) (h : bounded_dfs g thr v = some out) :
    ∀ x ∈ out, x ≠ v := by
  unfold bounded_dfs inner_dfs at h
  cases hst : dfsGo g thr (dfsFuel g) (.inl v) ([], []) with
  | none => rw [hst] at h; simp at h
  | some st1 =>
    rw [hst] at h
    simp at h
    have hfuel : dfsFuel g = (2 * g.nodeCnt + g.links.length + 1) + 1 := rfl
    rw [hfuel] at hst
    rw [dfsGo] at hst
    simp only [List.nil_append, List.length_singleton] at hst
    rw [if_neg (by simp)] at hst
    have hf := dfsGo_facts g thr (2 * g.nodeCnt + g.links.length + 1)
      (.inr (g.outgoing_edges v)) ([v], []) st1 hst
    intro x hx
    rcases hf.2 v (by simp) (by intro v' hv'; cases hv') x (by rw [h]; exact hx)
      with h1 | h2
    · simp at h1
    · exact h2

/-- A list whose head and last differ has at least two elements. -/
theorem two_le_length_of_head_last {α : Type} (l : List α) (a b : α)
    (h1 : l.head? = some a) (h2 : l.getLast? = some b) (hne : a ≠ b) :
    2 ≤ l.length := by
  match l with
  | [] => simp at h1
  | [x] =>
    simp only [List.head?_cons, Option.some.injEq] at h1
    simp only [List.getLast?_singleton, Option.some.injEq] at h2
    cases h1
    cases h2
    exact absurd rfl hne
  | x :: y :: t => simp

/-- A successful jump path always has at least two vertices (it runs from
the query vertex to a distinct long frontier vertex). -/
theorem find_jump_ahead_len (g : Graph) (a : AssignmentStorage)
    (used : UsedMap) (thr : Nat) (v : Vertex) (group : TrioGroup)
    (j : HaploPath)
    (h : find_jump_ahead g a used thr v group = some (some j)) :
    2 ≤ j.v_storage.length := by
  unfold find_jump_ahead at h
  cases hdfs : bounded_dfs g thr v with
  | none => rw [hdfs] at h; simp at h
  | some long_ahead =>
    rw [hdfs] at h
    dsimp only at h
    cases hall : long_ahead.all (fun x => a.is_definite x.nodeId) with
    | false => rw [hall] at h; simp at h
    | true =>
      rw [hall] at h
      simp only [if_true] at h
      cases hfilt : long_ahead.filter (fun x => a.get x.nodeId = some group) with
      | nil => rw [hfilt] at h; simp at h
      | cons t rest =>
        cases rest with
        | cons t2 rest2 => rw [hfilt] at h; simp at h
        | nil =>
          rw [hfilt] at h
          dsimp only at h
          cases hg : grow_forward g a used thr (HaploPath.new t.rc) group false with
          | none => rw [hg] at h; simp at h
          | some pr =>
            rw [hg] at h
            dsimp only at h
            have hp1 := grow_forward_head g a used thr (HaploPath.new t.rc)
              group false pr hg (by simp [HaploPath.new])
            have hstart : pr.1.v_storage.head? = some t.rc := by
              rw [hp1.2]; rfl
            have hp2 : ∀ q : HaploPath, q = (if ¬ pr.1.in_path v.nodeId then
                  try_link_with_vertex g a thr pr.1 v.rc group
                else pr.1) →
                q.v_storage ≠ [] ∧ q.v_storage.head? = some t.rc := by
              intro q hq
              rw [hq]
              split
              · have := try_link_with_vertex_head g a thr pr.1 v.rc group hp1.1
                exact ⟨this.1, this.2.trans hstart⟩
              · exact ⟨hp1.1, hstart⟩
            have hp3 : ∀ q2 q : HaploPath, q = (if ¬ q2.in_path v.nodeId then
                  try_link g q2 v.rc else q2) →
                q2.v_storage ≠ [] ∧ q2.v_storage.head? = some t.rc →
                q.v_storage ≠ [] ∧ q.v_storage.head? = some t.rc := by
              intro q2 q hq hq2
              rw [hq]
              split
              · have := try_link_head g q2 v.rc hq2.1
                exact ⟨this.1, this.2.trans hq2.2⟩
              · exact hq2
            have hkey : ∀ q : HaploPath,
                q.v_storage ≠ [] ∧ q.v_storage.head? = some t.rc →
                ∀ p4 : HaploPath, q.trim_to v.rc = some p4 →
                some (some p4.reverse_complement) = some (some j) →
                2 ≤ j.v_storage.length := by
              intro q hq p4 htr hj
              have htf := trim_to_facts q v.rc p4 htr
              have htne : t ≠ v := by
                have htmem : t ∈ long_ahead := by
                  have ht : t ∈ long_ahead.filter
                      (fun x => a.get x.nodeId = some group) := by
                    rw [hfilt]; simp
                  exact List.mem_of_mem_filter ht
                exact bounded_dfs_not_root g thr v long_ahead hdfs t htmem
              have hlen : 2 ≤ p4.v_storage.length :=
                two_le_length_of_head_last p4.v_storage t.rc v.rc
                  (htf.2.1.trans hq.2) htf.2.2
                  (fun he => htne (Vertex.rc_inj he))
              injection hj with hj
              injection hj with hj
              rw [← hj]
              unfold HaploPath.reverse_complement
              simpa using hlen
            revert h
            generalize hq2 : (if ¬ pr.1.in_path v.nodeId then
                try_link_with_vertex g a thr pr.1 v.rc group
              else pr.1) = q2
            generalize hq3 : (if ¬ q2.in_path v.nodeId then
                try_link g q2 v.rc else q2) = q3
            intro h
            cases htr : q3.trim_to v.rc with
            | none => rw [htr] at h; simp at h
            | some p4 =>
              rw [htr] at h
              dsimp only at h
              exact hkey q3
                (hp3 q2 q3 hq3.symm (hp2 q2 hq2.symm)) p4 htr h

/-- C8: when `jump_forward` returns 0 (no jump was merged), the path's
vertex and link sequences are unchanged. -/
theorem c8_jump_zero_unchanged (g : Graph) (a : AssignmentStorage)
    (used : UsedMap) (thr : Nat) (sccs : List Nat) (path : HaploPath)
    (group : TrioGroup) (p1 : HaploPath)
    (h : jump_forward g a used thr sccs path group = some (p1, 0)) :
    p1.v_storage = path.v_storage ∧ p1.l_storage = path.l_storage := by
  unfold jump_forward at h
  cases hf : find_jump_ahead g a used thr path.end_v group with
  | none => rw [hf] at h; simp at h
  | some o =>
    rw [hf] at h
    cases o with
    | none =>
      simp at h
      rw [← h]
      exact ⟨rfl, rfl⟩
    | some jump =>
      dsimp only at h
      split at h
      · exfalso
        have hlen := find_jump_ahead_len g a used thr path.end_v group jump hf
        simp at h
        have h2 : jump.len - 1 = 0 := h.2
        unfold HaploPath.len at h2
        omega
      · simp at h
        rw [← h]
        exact ⟨rfl, rfl⟩

/-- C8 witness: jumping from a dead-end vertex returns 0 and leaves the
single-vertex path unchanged. -/
theorem c8_jump_zero_unchanged_witness :
    jump_forward exGraphTrio exOracleTrio (fun _ => none) 5 []
        (HaploPath.new (vr 0)) TrioGroup.MATERNAL
      = some (HaploPath.new (vr 0), 0)
    ∧ (HaploPath.new (vr 0)).v_storage = (HaploPath.new (vr 0)).v_storage :=
  ⟨by decide,
    (c8_jump_zero_unchanged exGraphTrio exOracleTrio (fun _ => none) 5 []
      (HaploPath.new (vr 0)) TrioGroup.MATERNAL (HaploPath.new (vr 0))
      (by decide)).1⟩

/-! ## C10: a returned bubble's end differs from the start and its rc -/

/-- No vertex equals its own reverse complement. -/
theorem Vertex.rc_ne_self (v : Vertex) : v.rc ≠ v := by
  cases v with
  | mk n d => cases d <;> simp [Vertex.rc, Direction.flip]

/-- A lookup succeeds exactly on stored keys. -/
theorem alookup_isSome_mem {α β : Type} [DecidableEq α]
    (m : List (α × β)) (k : α) :
    (alookup m k).isSome ↔ k ∈ m.map (·.1) := by
  induction m with
  | nil => simp [alookup]
  | cons p t ih =>
    obtain ⟨a, b⟩ := p
    by_cases h : a = k
    · subst h
      simp [alookup]
    · simp [alookup, h, ih]
      intro he
      exact absurd he.symm h

/-- Keys after an insert-or-replace. -/
theorem ainsert_keys {α β : Type} [DecidableEq α]
    (m : List (α × β)) (k : α) (v : β) :
    (ainsert m k v).map (·.1)
      = if k ∈ m.map (·.1) then m.map (·.1) else m.map (·.1) ++ [k] := by
  induction m with
  | nil => simp [ainsert]
  | cons p t ih =>
    obtain ⟨a, b⟩ := p
    by_cases h : a = k
    · subst h
      simp [ainsert]
    · simp only [ainsert, if_neg h, List.map_cons]
      rw [ih]
      by_cases hk : k ∈ t.map (·.1)
      · rw [if_pos hk, if_pos (by simp [hk])]
      · rw [if_neg hk, if_neg (by
          simp only [List.map_cons, List.mem_cons]
          rintro (he | hm)
          · exact h he.symm
          · exact hk hm)]
        simp

/-- Membership in the keys after an insert-or-replace. -/
theorem mem_ainsert_keys {α β : Type} [DecidableEq α]
    (m : List (α × β)) (k k' : α) (v : β) :
    k' ∈ (ainsert m k v).map (·.1) ↔ k' ∈ m.map (·.1) ∨ k' = k := by
  rw [ainsert_keys]
  split
  case isTrue h =>
    constructor
    · exact fun hm => .inl hm
    · rintro (hm | rfl)
      · exact hm
      · exact h
  case isFalse h => simp

/-- The key list of a search state. -/
def sbKeys (st : SbSt) : List Vertex := st.reached.map (·.1)

/-- Key and stack effects of `relaxFin` when the relaxed target is already
a key: keys are unchanged and at most `l.end` joins the stack. -/
theorem relaxFin_facts (g : Graph) (l : Link) (st1 : SbSt)
    (hw : l.endV ∈ sbKeys st1) :
    sbKeys (relaxFin g l st1) = sbKeys st1
      ∧ (∀ w ∈ (relaxFin g l st1).stack, w ∈ st1.stack ∨ w = l.endV) := by
  simp only [sbKeys] at hw
  unfold relaxFin
  dsimp only
  split
  · constructor
    · simp only [sbKeys]
      rw [ainsert_keys, if_pos hw]
    · intro w hw'
      rcases List.mem_cons.mp hw' with h | h
      · exact .inr h
      · exact .inl h
  · constructor
    · simp only [sbKeys]
      rw [ainsert_keys, if_pos hw]
    · intro w hw'
      exact .inl hw'

/-- Invariant-transfer of one relaxation. -/
theorem relaxOne_facts (g : Graph) (s : Vertex) (st st' : SbSt) (l : Link)
    (h : relaxOne g s st l = some st')
    (hs : s ∈ sbKeys st) (hrc : s.rc ∉ sbKeys st) :
    s ∈ sbKeys st' ∧ s.rc ∉ sbKeys st'
      ∧ (∀ w ∈ st'.stack, w ∈ st.stack ∨ (w ≠ s ∧ w ≠ s.rc)) := by
  unfold relaxOne at h
  dsimp only at h
  split at h
  · exact absurd h (by simp)
  case isFalse hws =>
    split at h
    case isTrue hnew =>
      split at h
      case isTrue hpal => exact absurd h (by simp)
      case isFalse hpal =>
        injection h with h
        have hwrc : l.endV ≠ s.rc := by
          intro he
          apply hpal
          rw [alookup_isSome_mem, he, Vertex.rc_rc]
          exact hs
        have hnotmem : ¬ l.endV ∈ st.reached.map (·.1) := by
          rw [← alookup_isSome_mem]
          simp [Option.isNone_iff_eq_none.mp hnew]
        have hkIns : sbKeys { st with
            nr := st.nr + 1,
            rem := updFn st.rem l.endV (g.incoming_edge_cnt l.endV),
            reached := ainsert st.reached l.endV (link_dist_range g st.reached l) }
            = sbKeys st ++ [l.endV] := by
          simp only [sbKeys]
          rw [ainsert_keys, if_neg hnotmem]
        obtain ⟨hk, hstk⟩ := relaxFin_facts g l { st with
            nr := st.nr + 1,
            rem := updFn st.rem l.endV (g.incoming_edge_cnt l.endV),
            reached := ainsert st.reached l.endV (link_dist_range g st.reached l) }
          (by rw [hkIns]; exact List.mem_append_right _ (by simp))
        rw [← h]
        refine ⟨?_, ?_, ?_⟩
        · rw [hk, hkIns]
          exact List.mem_append_left _ hs
        · rw [hk, hkIns]
          intro hmm
          rcases List.mem_append.mp hmm with h1 | h2
          · exact hrc h1
          · simp at h2
            exact hwrc h2.symm
        · intro w hw'
          rcases hstk w hw' with h1 | h2
          · exact .inl h1
          · subst h2
            exact .inr ⟨hws, hwrc⟩
    case isFalse hold =>
      injection h with h
      rw [← h]
      have hwmem : l.endV ∈ sbKeys st := by
        simp only [sbKeys]
        rw [← alookup_isSome_mem]
        cases halk : alookup st.reached l.endV with
        | none => rw [halk] at hold; simp at hold
        | some r => simp [halk]
      obtain ⟨hk, hstk⟩ := relaxFin_facts g l st hwmem
      refine ⟨by rw [hk]; exact hs, by rw [hk]; exact hrc, ?_⟩
      intro w hw'
      rcases hstk w hw' with h1 | h2
      · exact .inl h1
      · subst h2
        refine .inr ⟨hws, ?_⟩
        intro he
        rw [he] at hwmem
        exact hrc hwmem

/-- Invariant-transfer of a full edge list. -/
theorem relaxList_facts (g : Graph) (s : Vertex) :
    ∀ (ls : List Link) (st st' : SbSt),
      relaxList g s st ls = some st' →
      s ∈ sbKeys st → s.rc ∉ sbKeys st →
      s ∈ sbKeys st' ∧ s.rc ∉ sbKeys st'
        ∧ (∀ w ∈ st'.stack, w ∈ st.stack ∨ (w ≠ s ∧ w ≠ s.rc)) := by
  intro ls
  induction ls with
  | nil =>
    intro st st' h hs hrc
    unfold relaxList at h
    injection h with h
    subst h
    exact ⟨hs, hrc, fun w hw => .inl hw⟩
  | cons l t ih =>
    intro st st' h hs hrc
    unfold relaxList at h
    cases h1 : relaxOne g s st l with
    | none => rw [h1] at h; simp at h
    | some st1 =>
      rw [h1] at h
      obtain ⟨hs1, hrc1, hstk1⟩ := relaxOne_facts g s st st1 l h1 hs hrc
      obtain ⟨hs2, hrc2, hstk2⟩ := ih st1 st' h hs1 hrc1
      refine ⟨hs2, hrc2, ?_⟩
      intro w hw
      rcases hstk2 w hw with h2 | h2
      · exact hstk1 w h2
      · exact .inr h2

/-- Loop invariant for the C10 argument: the start is reached, its rc is
not, nothing on the stack is the start's rc, and the start itself is on
the stack only in the initial state. -/
def SbInvTen (s : Vertex) (st : SbSt) : Prop :=
  s ∈ sbKeys st ∧ s.rc ∉ sbKeys st
    ∧ (∀ w ∈ st.stack, w ≠ s.rc)
    ∧ (s ∈ st.stack → st.stack = [s])

/-- Through the search loop, a returned bubble starts at `s` and ends at
a vertex different from `s` and from `rc(s)`. -/
theorem sbLoop_end_ne (g : Graph) (p : SbSearchParams) (s : Vertex) :
    ∀ fuel (st : SbSt) (b : Superbubble),
      sbLoop g p s fuel st = some (some b) →
      SbInvTen s st →
      b.start_vertex = s ∧ b.end_vertex ≠ s ∧ b.end_vertex ≠ s.rc := by
  intro fuel
  induction fuel with
  | zero => intro st b h _; simp [sbLoop] at h
  | succ n ih =>
    intro st b h hinv
    obtain ⟨hs, hrc, hstkrc, hstks⟩ := hinv
    rw [sbLoop] at h
    cases hstack : st.stack with
    | nil => rw [hstack] at h; simp at h
    | cons v rest =>
      rw [hstack] at h
      dsimp only at h
      split at h
      · simp at h
      · split at h
        · simp at h
        · cases hrl : relaxList g s { st with stack := rest }
              (g.outgoing_edges v) with
          | none => rw [hrl] at h; simp at h
          | some st1 =>
            rw [hrl] at h
            dsimp only at h
            have hsrest : s ∉ rest := by
              intro hsr
              have := hstks (by rw [hstack]; exact List.mem_cons_of_mem v hsr)
              rw [hstack] at this
              injection this with h1 h2
              rw [h2] at hsr
              exact absurd hsr (by simp)
            obtain ⟨hs1, hrc1, hstk1⟩ := relaxList_facts g s
              (g.outgoing_edges v) { st with stack := rest } st1 hrl hs hrc
            have hstk1' : ∀ w ∈ st1.stack, w ≠ s ∧ w ≠ s.rc := by
              intro w hw
              rcases hstk1 w hw with h1 | h1
              · refine ⟨fun he => hsrest (he ▸ h1), ?_⟩
                exact hstkrc w (by rw [hstack]; exact List.mem_cons_of_mem v h1)
              · exact h1
            cases hstk2 : st1.stack with
            | nil =>
              rw [hstk2] at h
              dsimp only at h
              exact ih _ b h ⟨hs1, hrc1, by simp [hstk2], by simp [hstk2]⟩
            | cons t rest2 =>
              rw [hstk2] at h
              cases rest2 with
              | cons t2 rest3 =>
                dsimp only at h
                refine ih _ b h ⟨hs1, hrc1, ?_, ?_⟩
                · intro w hw
                  exact (hstk1' w (by rw [hstk2]; exact hw)).2
                · intro hsmem
                  exact absurd rfl (hstk1' s (by rw [hstk2]; exact hsmem)).1
              | nil =>
                cases hnr : st1.nr with
                | succ m =>
                  rw [hnr] at h
                  refine ih _ b h ⟨hs1, hrc1, ?_, ?_⟩
                  · intro w hw
                    exact (hstk1' w (by rw [hstk2]; exact hw)).2
                  · intro hsmem
                    exact absurd rfl (hstk1' s (by rw [hstk2]; exact hsmem)).1
                | zero =>
                  rw [hnr] at h
                  dsimp only at h
                  split at h
                  · simp at h
                  · split at h
                    · simp at h
                    · injection h with h
                      injection h with h
                      rw [← h]
                      have ht := hstk1' t (by rw [hstk2]; simp)
                      exact ⟨rfl, ht.1, ht.2⟩

/-- C10: a bubble returned by `find_superbubble` starts at the query
vertex, its end is neither the start nor the start's reverse complement,
and consequently `length_range` always takes the shifted branch. -/
theorem c10_end_distinct (g : Graph) (v : Vertex) (p : SbSearchParams)
    (b : Superbubble) (h : find_superbubble g v p = some b) :
    b.start_vertex = v ∧ b.end_vertex ≠ v ∧ b.end_vertex ≠ v.rc
      ∧ b.length_range g
        = shift_range ((alookup b.reached_vertices b.end_vertex).getD (0, 0))
          (g.node b.start_vertex.nodeId).length := by
  unfold find_superbubble at h
  split at h
  · simp at h
  · have hj : sbLoop g p v (sbFuel g) (sbInit v) = some (some b) := by
      cases hl : sbLoop g p v (sbFuel g) (sbInit v) with
      | none => rw [hl] at h; simp [Option.join] at h
      | some o =>
        rw [hl] at h
        cases o with
        | none => simp [Option.join] at h
        | some b' => simp [Option.join] at h; rw [h]
    have hinv : SbInvTen v (sbInit v) := by
      refine ⟨by simp [sbInit, sbKeys], ?_, ?_, ?_⟩
      · simp [sbInit, sbKeys]
        exact Vertex.rc_ne_self v
      · intro w hw
        simp [sbInit] at hw
        rw [hw]
        intro he
        exact Vertex.rc_ne_self v he.symm
      · intro _
        simp [sbInit]
    obtain ⟨h1, h2, h3⟩ := sbLoop_end_ne g p v (sbFuel g) (sbInit v) b hj hinv
    refine ⟨h1, h2, h3, ?_⟩
    unfold Superbubble.length_range
    rw [if_pos (by rw [h1]; exact fun he => h2 he.symm)]

/-- C10 witness: the diamond bubble from A+ ends at D+, distinct from A+
and A-, and its length range is the shifted end range. -/
theorem c10_end_distinct_witness :
    find_superbubble exGraphDia (vf 0) exParams
        = some ⟨vf 0, vf 3,
            [(vf 0, (0, 0)), (vf 1, (10, 10)), (vf 2, (10, 10)),
              (vf 3, (20, 20))]⟩
      ∧ ((⟨vf 0, vf 3,
            [(vf 0, (0, 0)), (vf 1, (10, 10)), (vf 2, (10, 10)),
              (vf 3, (20, 20))]⟩ : Superbubble).start_vertex = vf 0
          ∧ (⟨vf 0, vf 3,
            [(vf 0, (0, 0)), (vf 1, (10, 10)), (vf 2, (10, 10)),
              (vf 3, (20, 20))]⟩ : Superbubble).end_vertex ≠ vf 0
          ∧ (⟨vf 0, vf 3,
            [(vf 0, (0, 0)), (vf 1, (10, 10)), (vf 2, (10, 10)),
              (vf 3, (20, 20))]⟩ : Superbubble).end_vertex ≠ (vf 0).rc
          ∧ (⟨vf 0, vf 3,
            [(vf 0, (0, 0)), (vf 1, (10, 10)), (vf 2, (10, 10)),
              (vf 3, (20, 20))]⟩ : Superbubble).length_range exGraphDia
            = shift_range ((alookup (⟨vf 0, vf 3,
              [(vf 0, (0, 0)), (vf 1, (10, 10)), (vf 2, (10, 10)),
                (vf 3, (20, 20))]⟩ : Superbubble).reached_vertices
              (vf 3)).getD (0, 0)) 10) :=
  ⟨by decide,
    c10_end_distinct exGraphDia (vf 0) exParams _ (by decide)⟩

/-! ## The search-loop invariant package (used by C9, C5 and C3) -/

/-- The links already relaxed from a list of processed vertices into `w`,
in processing order. -/
def relaxedEdges (g : Graph) (P : List Vertex) (w : Vertex) : List Link :=
  (P.flatMap g.outgoing_edges).filter (fun l => l.endV = w)

/-- `relaxedEdges` over an extended processed list. -/
theorem relaxedEdges_append (g : Graph) (P Q : List Vertex) (w : Vertex) :
    relaxedEdges g (P ++ Q) w = relaxedEdges g P w ++ relaxedEdges g Q w := by
  unfold relaxedEdges
  rw [List.flatMap_append, List.filter_append]

/-- Every relaxed edge into `w` is an incoming edge of `w`. -/
theorem relaxedEdges_sub_incoming (g : Graph) (P : List Vertex) (w : Vertex) :
    ∀ l ∈ relaxedEdges g P w, l ∈ g.incoming_edges w := by
  intro l hl
  unfold relaxedEdges at hl
  have h1 := List.of_mem_filter hl
  have h2 := List.mem_of_mem_filter hl
  rcases List.mem_flatMap.mp h2 with ⟨u, _, hu2⟩
  unfold Graph.incoming_edges
  exact List.mem_filter.mpr ⟨List.mem_of_mem_filter hu2, h1⟩

/-- A single processed vertex contributes its outgoing links into `w`. -/
theorem relaxedEdges_singleton (g : Graph) (u w : Vertex) :
    relaxedEdges g [u] w = (g.outgoing_edges u).filter (fun l => l.endV = w) := by
  unfold relaxedEdges
  simp

/-- Sum of a pointwise sum of maps. -/
theorem sum_map_add_split {α : Type} (P : List α) (A B : α → Nat) :
    (P.map (fun u => A u + B u)).sum = (P.map A).sum + (P.map B).sum := by
  induction P with
  | nil => simp
  | cons u t ih => simp [ih]; omega

/-- An indicator sum over a list not containing the tested element is 0. -/
theorem sum_indicator_zero {α : Type} [DecidableEq α] (P : List α) (x : α)
    (hx : x ∉ P) :
    (P.map (fun u => if x = u then 1 else 0)).sum = 0 := by
  induction P with
  | nil => simp
  | cons u t ih =>
    simp only [List.map_cons, List.sum_cons]
    rw [if_neg (fun he : x = u => hx (he ▸ List.mem_cons_self u t)), ih
      (fun hm => hx (List.mem_cons_of_mem u hm))]

/-- An indicator sum over a duplicate-free list is at most 1. -/
theorem sum_indicator_le_one {α : Type} [DecidableEq α] (P : List α) (x : α)
    (hP : P.Nodup) :
    (P.map (fun u => if x = u then 1 else 0)).sum ≤ 1 := by
  induction P with
  | nil => simp
  | cons u t ih =>
    simp only [List.map_cons, List.sum_cons]
    rcases List.nodup_cons.mp hP with ⟨hu, ht⟩
    by_cases hx : x = u
    · rw [if_pos hx, sum_indicator_zero t x (hx ▸ hu)]
    · rw [if_neg hx]
      simpa using ih ht

/-- Distinct sources relax at most `incoming_edge_cnt w` links into `w`:
the per-source link lists are disjoint sub-lists of the full link list. -/
theorem sources_filter_sum_le (w : Vertex) :
    ∀ (L : List Link) (P : List Vertex), P.Nodup →
      (P.map (fun u =>
        (L.filter (fun l => l.startV = u ∧ l.endV = w)).length)).sum
      ≤ (L.filter (fun l => l.endV = w)).length := by
  intro L
  induction L with
  | nil => intro P _; simp
  | cons l t ih =>
    intro P hP
    have hstep : ∀ u : Vertex,
        ((l :: t).filter (fun l' => l'.startV = u ∧ l'.endV = w)).length
        = (if l.startV = u ∧ l.endV = w then 1 else 0)
          + (t.filter (fun l' => l'.startV = u ∧ l'.endV = w)).length := by
      intro u
      rw [List.filter_cons]
      by_cases h : l.startV = u ∧ l.endV = w
      · simp [h]
        omega
      · simp [h]
    calc (P.map (fun u =>
            ((l :: t).filter (fun l' => l'.startV = u ∧ l'.endV = w)).length)).sum
        = (P.map (fun u => (if l.startV = u ∧ l.endV = w then 1 else 0)
            + (t.filter (fun l' => l'.startV = u ∧ l'.endV = w)).length)).sum := by
          congr 1
          exact List.map_congr_left (fun u _ => hstep u)
      _ = (P.map (fun u => if l.startV = u ∧ l.endV = w then 1 else 0)).sum
          + (P.map (fun u =>
              (t.filter (fun l' => l'.startV = u ∧ l'.endV = w)).length)).sum :=
          sum_map_add_split P _ _
      _ ≤ (if l.endV = w then 1 else 0)
          + (t.filter (fun l' => l'.endV = w)).length := by
          have h2 := ih P hP
          have h1 : (P.map (fun u =>
              if l.startV = u ∧ l.endV = w then 1 else 0)).sum
              ≤ (if l.endV = w then 1 else 0) := by
            by_cases hw : l.endV = w
            · rw [if_pos hw]
              calc (P.map (fun u =>
                    if l.startV = u ∧ l.endV = w then 1 else 0)).sum
                  = (P.map (fun u => if l.startV = u then 1 else 0)).sum := by
                    congr 1
                    apply List.map_congr_left
                    intro u _
                    by_cases hs : l.startV = u
                    · rw [if_pos hs, if_pos ⟨hs, hw⟩]
                    · rw [if_neg hs, if_neg (fun hc => hs hc.1)]
                _ ≤ 1 := sum_indicator_le_one P l.startV hP
            · rw [if_neg hw]
              rw [show (P.map (fun u =>
                  if l.startV = u ∧ l.endV = w then 1 else 0)).sum = 0 from ?_]
              · calc (P.map (fun u =>
                    if l.startV = u ∧ l.endV = w then 1 else 0)).sum
                    = (P.map (fun _ => 0)).sum := by
                      congr 1
                      apply List.map_congr_left
                      intro u _
                      rw [if_neg (fun hc => hw hc.2)]
                  _ = 0 := by simp
          omega
      _ = ((l :: t).filter (fun l' => l'.endV = w)).length := by
          rw [List.filter_cons]
          by_cases h : l.endV = w
          · simp [h]
            omega
          · simp [h]

/-- The relaxed-edge list decomposes as a per-source sum. -/
theorem relaxedEdges_length_sum (g : Graph) (P : List Vertex) (w : Vertex) :
    (relaxedEdges g P w).length
      = (P.map (fun u =>
          ((g.outgoing_edges u).filter (fun l => l.endV = w)).length)).sum := by
  induction P with
  | nil => simp [relaxedEdges]
  | cons u t ih =>
    unfold relaxedEdges at ih ⊢
    simp only [List.flatMap_cons, List.filter_append, List.length_append,
      List.map_cons, List.sum_cons]
    rw [ih]

/-- Per-source outgoing-into-`w` links equal the combined filter. -/
theorem outgoing_filter_eq (g : Graph) (u w : Vertex) :
    (g.outgoing_edges u).filter (fun l => l.endV = w)
      = g.links.filter (fun l => l.startV = u ∧ l.endV = w) := by
  unfold Graph.outgoing_edges
  induction g.links with
  | nil => simp
  | cons l t ih =>
    rw [List.filter_cons, List.filter_cons]
    by_cases h1 : l.startV = u
    · rw [if_pos (by simpa using h1)]
      rw [List.filter_cons]
      by_cases h2 : l.endV = w
      · rw [if_pos (by simpa using h2), if_pos (by simp [h1, h2]), ih]
      · rw [if_neg (by simpa using h2), if_neg (by simp [h2]), ih]
    · rw [if_neg (by simpa using h1), if_neg (by simp [h1]), ih]

/-- Counting bound: distinct processed sources cannot relax more links
into `w` than `w` has incoming links. -/
theorem relaxedEdges_length_le (g : Graph) (P : List Vertex) (hP : P.Nodup)
    (w : Vertex) :
    (relaxedEdges g P w).length ≤ g.incoming_edge_cnt w := by
  rw [relaxedEdges_length_sum]
  unfold Graph.incoming_edge_cnt Graph.incoming_edges
  calc (P.map (fun u =>
        ((g.outgoing_edges u).filter (fun l => l.endV = w)).length)).sum
      = (P.map (fun u =>
          (g.links.filter (fun l => l.startV = u ∧ l.endV = w)).length)).sum := by
        congr 1
        exact List.map_congr_left (fun u _ => by rw [outgoing_filter_eq])
    _ ≤ (g.links.filter (fun l => l.endV = w)).length :=
        sources_filter_sum_le w g.links P hP

/-- Merging fold of a relaxation history, seeded with its first element. -/
def mergeFoldOpt : List (Nat × Nat) → Option (Nat × Nat)
  | [] => none
  | x :: t => some (t.foldl merge_range x)

/-- `merge_range` is idempotent. -/
theorem merge_range_self (x : Nat × Nat) : merge_range x x = x := by
  unfold merge_range
  simp

/-- Fold over an extended history merges the new element last. -/
theorem mergeFoldOpt_concat (xs : List (Nat × Nat)) (x r : Nat × Nat)
    (h : mergeFoldOpt xs = some r) :
    mergeFoldOpt (xs ++ [x]) = some (merge_range r x) := by
  match xs with
  | [] => simp [mergeFoldOpt] at h
  | y :: t =>
    unfold mergeFoldOpt at h ⊢
    injection h with h
    simp only [List.cons_append, Option.some.injEq]
    rw [List.foldl_concat]
    rw [h]

/-- Lookup after inserting a different key. -/
theorem alookup_ainsert_ne {α β : Type} [DecidableEq α]
    (m : List (α × β)) (k k' : α) (v : β) (h : k' ≠ k) :
    alookup (ainsert m k v) k' = alookup m k' := by
  induction m with
  | nil =>
    simp only [ainsert, alookup]
    rw [if_neg (fun he : k = k' => h he.symm)]
  | cons p t ih =>
    obtain ⟨a, b⟩ := p
    by_cases ha : a = k
    · subst ha
      simp only [ainsert, if_pos rfl, alookup]
      rw [if_neg (fun he : a = k' => h he.symm),
        if_neg (fun he : a = k' => h he.symm)]
    · simp only [ainsert, if_neg ha, alookup]
      split
      · rfl
      · exact ih

/-- Lookup after inserting the same key. -/
theorem alookup_ainsert_self {α β : Type} [DecidableEq α]
    (m : List (α × β)) (k : α) (v : β) :
    alookup (ainsert m k v) k = some v := by
  induction m with
  | nil => simp [ainsert, alookup]
  | cons p t ih =>
    obtain ⟨a, b⟩ := p
    by_cases ha : a = k
    · subst ha
      simp [ainsert, alookup]
    · simp [ainsert, alookup, ha]
      exact ih

/-- A lookup on a stored key is `some`. -/
theorem alookup_isSome_of_mem {α β : Type} [DecidableEq α]
    (m : List (α × β)) (k : α) (h : k ∈ m.map (·.1)) :
    (alookup m k).isSome := (alookup_isSome_mem m k).mpr h

/-- Sources of relaxed edges lie in the processed list. -/
theorem relaxedEdges_sources (g : Graph) (P : List Vertex) (w : Vertex) :
    ∀ l ∈ relaxedEdges g P w, l.startV ∈ P := by
  intro l hl
  unfold relaxedEdges at hl
  rcases List.mem_flatMap.mp (List.mem_of_mem_filter hl) with ⟨u, hu1, hu2⟩
  unfold Graph.outgoing_edges at hu2
  have := List.of_mem_filter hu2
  simp at this
  rw [this]
  exact hu1

/-- Relaxed edges are graph links. -/
theorem relaxedEdges_links (g : Graph) (P : List Vertex) (w : Vertex) :
    ∀ l ∈ relaxedEdges g P w, l ∈ g.links := by
  intro l hl
  rcases List.mem_flatMap.mp (List.mem_of_mem_filter hl) with ⟨u, _, hu2⟩
  exact List.mem_of_mem_filter hu2

/-- The start of an outgoing link is the queried vertex. -/
theorem outgoing_start (g : Graph) (v : Vertex) :
    ∀ l ∈ g.outgoing_edges v, l.startV = v := by
  intro l hl
  have := List.of_mem_filter hl
  simpa using this

/-- An outgoing link is a graph link. -/
theorem outgoing_mem_links (g : Graph) (v : Vertex) :
    ∀ l ∈ g.outgoing_edges v, l ∈ g.links :=
  fun _ hl => List.mem_of_mem_filter hl

/-- Nothing is relaxed into a vertex no processed source can see when all
processed targets are stored keys and the vertex is not one of them. -/
theorem relaxedEdges_nil_of_not_key (g : Graph) (P : List Vertex)
    (keys : List Vertex) (w : Vertex)
    (hPE : ∀ u ∈ P, ∀ l ∈ g.outgoing_edges u, l.endV ∈ keys)
    (hw : w ∉ keys) :
    relaxedEdges g P w = [] := by
  rw [List.eq_nil_iff_forall_not_mem]
  intro l hl
  have hsrc := relaxedEdges_sources g P w l hl
  have hend := List.of_mem_filter hl
  simp at hend
  rcases List.mem_flatMap.mp (List.mem_of_mem_filter hl) with ⟨u, hu1, hu2⟩
  exact hw (hend ▸ hPE u hu1 l hu2)

/-- An equal-length sub-collection of incoming links drawn from distinct
sources covers every incoming link's source. -/
theorem ready_sources (g : Graph) (P : List Vertex) (hP : P.Nodup)
    (w : Vertex)
    (hfull : (relaxedEdges g P w).length = g.incoming_edge_cnt w) :
    ∀ l ∈ g.links, l.endV = w → l.startV ∈ P := by
  by_contra hcon
  push_neg at hcon
  obtain ⟨l, hl, hlw, hls⟩ := hcon
  have key : ∀ (L : List Link) (Q : List Vertex), Q.Nodup → l.startV ∉ Q →
      l ∈ L →
      (Q.map (fun u =>
        (L.filter (fun l' => l'.startV = u ∧ l'.endV = w)).length)).sum + 1
      ≤ (L.filter (fun l' => l'.endV = w)).length := by
    intro L
    induction L with
    | nil => intro Q _ _ hmem; simp at hmem
    | cons l0 t ih =>
      intro Q hQ hQs hmem
      have hstep : ∀ u : Vertex,
          ((l0 :: t).filter (fun l' => l'.startV = u ∧ l'.endV = w)).length
          = (if l0.startV = u ∧ l0.endV = w then 1 else 0)
            + (t.filter (fun l' => l'.startV = u ∧ l'.endV = w)).length := by
        intro u
        rw [List.filter_cons]
        by_cases h : l0.startV = u ∧ l0.endV = w
        · simp [h]
          omega
        · simp [h]
      rw [show (Q.map (fun u =>
          ((l0 :: t).filter (fun l' => l'.startV = u ∧ l'.endV = w)).length)).sum
          = (Q.map (fun u => if l0.startV = u ∧ l0.endV = w then 1 else 0)).sum
            + (Q.map (fun u =>
              (t.filter (fun l' => l'.startV = u ∧ l'.endV = w)).length)).sum from by
        rw [← sum_map_add_split]
        congr 1
        exact List.map_congr_left (fun u _ => hstep u)]
      rcases List.mem_cons.mp hmem with heq | hmem'
      · subst heq
        have hind : (Q.map (fun u =>
            if l.startV = u ∧ l.endV = w then 1 else 0)).sum = 0 := by
          rw [show (Q.map (fun u =>
              if l.startV = u ∧ l.endV = w then 1 else 0)) = Q.map (fun _ => 0) from ?_]
          · simp
          · apply List.map_congr_left
            intro u hu
            rw [if_neg (fun hc : l.startV = u ∧ l.endV = w =>
              hQs (by rw [hc.1]; exact hu))]
        rw [hind, List.filter_cons, if_pos (by simpa using hlw)]
        have := sources_filter_sum_le w t Q hQ
        simp only [List.length_cons]
        omega
      · have hind : (Q.map (fun u =>
            if l0.startV = u ∧ l0.endV = w then 1 else 0)).sum
            ≤ (if l0.endV = w then 1 else 0) := by
          by_cases hw0 : l0.endV = w
          · rw [if_pos hw0]
            calc (Q.map (fun u =>
                  if l0.startV = u ∧ l0.endV = w then 1 else 0)).sum
                = (Q.map (fun u => if l0.startV = u then 1 else 0)).sum := by
                  congr 1
                  apply List.map_congr_left
                  intro u _
                  by_cases hs : l0.startV = u
                  · rw [if_pos hs, if_pos ⟨hs, hw0⟩]
                  · rw [if_neg hs, if_neg (fun hc => hs hc.1)]
              _ ≤ 1 := sum_indicator_le_one Q l0.startV hQ
          · rw [if_neg hw0]
            rw [show (Q.map (fun u =>
                if l0.startV = u ∧ l0.endV = w then 1 else 0)) = Q.map (fun _ => 0) from ?_]
            · simp
            · apply List.map_congr_left
              intro u _
              rw [if_neg (fun hc => hw0 hc.2)]
        have := ih Q hQ hQs hmem'
        rw [List.filter_cons]
        by_cases hw0 : l0.endV = w
        · rw [if_pos (by simpa using hw0)]
          rw [if_pos hw0] at hind
          simp only [List.length_cons]
          omega
        · rw [if_neg (by simpa using hw0)]
          rw [if_neg hw0] at hind
          omega
  have hsum := key g.links P hP hls hl
  rw [relaxedEdges_length_sum] at hfull
  rw [show (P.map (fun u =>
      ((g.outgoing_edges u).filter (fun l => l.endV = w)).length)).sum
      = (P.map (fun u =>
        (g.links.filter (fun l' => l'.startV = u ∧ l'.endV = w)).length)).sum from by
    congr 1
    exact List.map_congr_left (fun u _ => by rw [outgoing_filter_eq])] at hfull
  unfold Graph.incoming_edge_cnt Graph.incoming_edges at hfull
  omega

/-- Mid-iteration invariant of the search loop: `v` is the vertex being
expanded, `D` the prefix of its outgoing links already relaxed, and the
ghost `processed` still excludes `v`. -/
structure SbIMid (g : Graph) (s v : Vertex) (D : List Link) (st : SbSt) :
    Prop where
  keysND : (sbKeys st).Nodup
  sMem : s ∈ sbKeys st
  sVal : alookup st.reached s = some (0, 0)
  rcFree : ∀ w ∈ sbKeys st, w.rc ∉ sbKeys st
  stackKeys : ∀ w ∈ st.stack, w ∈ sbKeys st
  stackND : st.stack.Nodup
  sNotStack : s ∉ st.stack
  vKey : v ∈ sbKeys st
  vNotProc : v ∉ st.processed
  vNotStack : v ∉ st.stack
  vFull : v ≠ s → ∀ l ∈ g.links, l.endV = v → l.startV ∈ st.processed
  procND : st.processed.Nodup
  procOut : ∀ u ∈ st.processed, g.outgoing_edge_cnt u ≠ 0
  procKeys : ∀ u ∈ st.processed, u ∈ sbKeys st
  disj : ∀ w ∈ st.stack, w ∉ st.processed
  sLoc : s = v ∨ s ∈ st.processed
  remSpec : ∀ w ∈ sbKeys st, w ≠ s →
    st.rem w + ((relaxedEdges g st.processed w).length
      + (D.filter (fun l => l.endV = w)).length) = g.incoming_edge_cnt w
  ready : ∀ w ∈ sbKeys st, w ≠ s →
    (st.rem w = 0 ↔ (w ∈ st.stack ∨ w ∈ st.processed ∨ w = v))
  nrSpec : st.nr = ((sbKeys st).filter
    (fun w => w ≠ s ∧ w ∉ st.stack ∧ w ∉ st.processed ∧ w ≠ v)).length
  procEdges : ∀ u ∈ st.processed, ∀ l ∈ g.outgoing_edges u,
    l.endV ∈ sbKeys st ∧ l.endV ≠ s
  dEdges : ∀ l ∈ D, l.endV ∈ sbKeys st ∧ l.endV ≠ s
  topo : ∀ j, (hj : j < st.processed.length) →
    st.processed.get ⟨j, hj⟩ ≠ s →
    ∀ l ∈ g.links, l.endV = st.processed.get ⟨j, hj⟩ →
    l.startV ∈ st.processed.take j
  keysInc : ∀ w ∈ sbKeys st, w ≠ s → 1 ≤ g.incoming_edge_cnt w
  keysWf : ∀ w ∈ sbKeys st, w = s ∨ w.nodeId < g.nodeCnt
  valSpec : ∀ w ∈ sbKeys st, w ≠ s →
    alookup st.reached w = mergeFoldOpt
      ((relaxedEdges g st.processed w ++ D.filter (fun l => l.endV = w)).map
        (link_dist_range g st.reached))

/-- Boundary invariant of the search loop, holding between iterations. -/
structure SbI (g : Graph) (s : Vertex) (st : SbSt) : Prop where
  keysND : (sbKeys st).Nodup
  sMem : s ∈ sbKeys st
  sVal : alookup st.reached s = some (0, 0)
  rcFree : ∀ w ∈ sbKeys st, w.rc ∉ sbKeys st
  stackKeys : ∀ w ∈ st.stack, w ∈ sbKeys st
  stackND : st.stack.Nodup
  procND : st.processed.Nodup
  procOut : ∀ u ∈ st.processed, g.outgoing_edge_cnt u ≠ 0
  procKeys : ∀ u ∈ st.processed, u ∈ sbKeys st
  disj : ∀ w ∈ st.stack, w ∉ st.processed
  sStack : s ∈ st.stack → st.stack = [s] ∧ st.processed = []
  sLoc : s ∈ st.stack ∨ s ∈ st.processed
  remSpec : ∀ w ∈ sbKeys st, w ≠ s →
    st.rem w + (relaxedEdges g st.processed w).length
      = g.incoming_edge_cnt w
  ready : ∀ w ∈ sbKeys st, w ≠ s →
    (st.rem w = 0 ↔ (w ∈ st.stack ∨ w ∈ st.processed))
  nrSpec : st.nr = ((sbKeys st).filter
    (fun w => w ≠ s ∧ w ∉ st.stack ∧ w ∉ st.processed)).length
  procEdges : ∀ u ∈ st.processed, ∀ l ∈ g.outgoing_edges u,
    l.endV ∈ sbKeys st ∧ l.endV ≠ s
  topo : ∀ j, (hj : j < st.processed.length) →
    st.processed.get ⟨j, hj⟩ ≠ s →
    ∀ l ∈ g.links, l.endV = st.processed.get ⟨j, hj⟩ →
    l.startV ∈ st.processed.take j
  keysInc : ∀ w ∈ sbKeys st, w ≠ s → 1 ≤ g.incoming_edge_cnt w
  keysWf : ∀ w ∈ sbKeys st, w = s ∨ w.nodeId < g.nodeCnt
  valSpec : ∀ w ∈ sbKeys st, w ≠ s →
    alookup st.reached w = mergeFoldOpt
      ((relaxedEdges g st.processed w).map (link_dist_range g st.reached))

/-- The initial state satisfies the boundary invariant. -/
theorem sbInit_inv (g : Graph) (s : Vertex) : SbI g s (sbInit s) := by
  refine {
    keysND := by simp [sbInit, sbKeys]
    sMem := by simp [sbInit, sbKeys]
    sVal := by simp [sbInit, alookup]
    rcFree := ?_
    stackKeys := by simp [sbInit, sbKeys]
    stackND := by simp [sbInit]
    procND := by simp [sbInit]
    procOut := by simp [sbInit]
    procKeys := by simp [sbInit]
    disj := by simp [sbInit]
    sStack := by simp [sbInit]
    sLoc := by simp [sbInit]
    remSpec := ?_
    ready := ?_
    nrSpec := ?_
    procEdges := by simp [sbInit]
    topo := by simp [sbInit]
    keysInc := ?_
    keysWf := ?_
    valSpec := ?_ }
  · intro w hw
    simp [sbInit, sbKeys] at hw ⊢
    rw [hw]
    exact fun he => Vertex.rc_ne_self s he
  · intro w hw hws
    simp [sbInit, sbKeys] at hw
    exact absurd hw hws
  · intro w hw hws
    simp [sbInit, sbKeys] at hw
    exact absurd hw hws
  · simp [sbInit, sbKeys]
  · intro w hw hws
    simp [sbInit, sbKeys] at hw
    exact absurd hw hws
  · intro w hw
    simp [sbInit, sbKeys] at hw
    exact .inl hw
  · intro w hw hws
    simp [sbInit, sbKeys] at hw
    exact absurd hw hws

/-- `updFn` at the updated key. -/
theorem updFn_self {α β : Type} [DecidableEq α] (f : α → β) (k : α) (x : β) :
    updFn f k x k = x := by simp [updFn]

/-- `updFn` away from the updated key. -/
theorem updFn_ne {α β : Type} [DecidableEq α] (f : α → β) (k k' : α) (x : β)
    (h : k' ≠ k) : updFn f k x k' = f k' := by simp [updFn, h]

/-- `link_dist_range` only looks at the link's start, so inserting at a
different key leaves it unchanged. -/
theorem link_dist_range_ainsert_ne (g : Graph)
    (m : List (Vertex × (Nat × Nat))) (k : Vertex) (x : Nat × Nat) (l : Link)
    (h : l.startV ≠ k) :
    link_dist_range g (ainsert m k x) l = link_dist_range g m l := by
  unfold link_dist_range
  rw [alookup_ainsert_ne m k l.startV x h]

/-- Removing one satisfied element from a filter of a duplicate-free list
drops its length by one. -/
theorem filter_length_drop_one {α : Type} [DecidableEq α] (L : List α)
    (hnd : L.Nodup) (p q : α → Bool) (w : α) (hw : w ∈ L)
    (hpw : p w = true) (hqw : q w = false)
    (hagree : ∀ x ∈ L, x ≠ w → p x = q x) :
    (L.filter p).length = (L.filter q).length + 1 := by
  induction L with
  | nil => simp at hw
  | cons x t ih =>
    rcases List.nodup_cons.mp hnd with ⟨hxt, hnt⟩
    by_cases hxw : x = w
    · subst hxw
      rw [List.filter_cons, List.filter_cons, if_pos (by simpa using hpw),
        if_neg (by simp [hqw])]
      have hft : t.filter p = t.filter q := by
        apply List.filter_congr
        intro y hy
        exact hagree y (List.mem_cons_of_mem x hy)
          (fun he => hxt (he ▸ hy))
      rw [hft]
      simp
    · rcases List.mem_cons.mp hw with he | hw'
      · exact absurd he.symm hxw
      · have hx := hagree x (List.mem_cons_self x t) hxw
        rw [List.filter_cons, List.filter_cons]
        by_cases hpx : p x = true
        · rw [if_pos (by simpa using hpx), if_pos (by simp [← hx, hpx])]
          simp only [List.length_cons]
          rw [ih hnt hw' (fun y hy hyw => hagree y (List.mem_cons_of_mem x hy) hyw)]
        · rw [if_neg (by simpa using hpx), if_neg (by
            simp only [← hx]
            simpa using hpx)]
          exact ih hnt hw' (fun y hy hyw => hagree y (List.mem_cons_of_mem x hy) hyw)

/-- Appending a fresh element keeps a list duplicate-free. -/
theorem nodup_append_single {α : Type} (P : List α) (v : α)
    (hP : P.Nodup) (hv : v ∉ P) : (P ++ [v]).Nodup := by
  rw [List.nodup_append]
  exact ⟨hP, by simp, by
    intro a ha hb
    simp at hb
    rw [hb] at ha
    exact hv ha⟩

/-- Relaxing a link onto an already-reached target preserves the
mid-iteration invariant, extending the done prefix by that link. -/
theorem relaxFin_inv_existing (g : Graph) (s v : Vertex)
    (D rest : List Link) (l : Link)
    (houtv : g.outgoing_edges v = D ++ l :: rest)
    (st : SbSt) (hi : SbIMid g s v D st)
    (hw : l.endV ∈ sbKeys st) (hws : l.endV ≠ s) :
    SbIMid g s v (D ++ [l]) (relaxFin g l st) := by
  have hlout : l ∈ g.outgoing_edges v := by
    rw [houtv]
    exact List.mem_append_right _ (List.mem_cons_self l rest)
  have hlv : l.startV = v := outgoing_start g v l hlout
  have hllink : l ∈ g.links := outgoing_mem_links g v l hlout
  have hwK : l.endV ∈ List.map (fun x => x.1) st.reached := hw
  have hPv : (st.processed ++ [v]).Nodup :=
    nodup_append_single _ _ hi.procND hi.vNotProc
  have hspec := hi.remSpec l.endV hw hws
  have hrem1 : 1 ≤ st.rem l.endV := by
    by_contra hc
    push_neg at hc
    have hc0 : st.rem l.endV = 0 := by omega
    have hlen := relaxedEdges_length_le g (st.processed ++ [v]) hPv l.endV
    rw [relaxedEdges_append, relaxedEdges_singleton, houtv,
      List.filter_append, List.length_append, List.length_append] at hlen
    have hone : 1 ≤ ((l :: rest).filter (fun l' => l'.endV = l.endV)).length := by
      rw [List.filter_cons, if_pos (by simp)]
      simp
    omega
  have hnr3 := hi.ready l.endV hw hws
  have hNor : ¬ (l.endV ∈ st.stack ∨ l.endV ∈ st.processed ∨ l.endV = v) := by
    intro hor
    have := hnr3.mpr hor
    omega
  have hwSt : l.endV ∉ st.stack := fun h1 => hNor (.inl h1)
  have hwPr : l.endV ∉ st.processed := fun h2 => hNor (.inr (.inl h2))
  have hwV : l.endV ≠ v := fun h3 => hNor (.inr (.inr h3))
  have hval := hi.valSpec l.endV hw hws
  have hsome := alookup_isSome_of_mem st.reached l.endV hwK
  obtain ⟨r₀, hr₀⟩ := Option.isSome_iff_exists.mp hsome
  have hDfilt : ∀ w' : Vertex, ((D ++ [l]).filter (fun l' => l'.endV = w'))
      = D.filter (fun l' => l'.endV = w')
        ++ (if l.endV = w' then [l] else []) := by
    intro w'
    rw [List.filter_append]
    congr 1
    by_cases he : l.endV = w'
    · simp [he]
    · simp [he]
  have hsrcP : ∀ w', ∀ l' ∈ relaxedEdges g st.processed w',
      l'.startV ≠ l.endV := by
    intro w' l' hl'
    have hsp := relaxedEdges_sources g st.processed w' l' hl'
    intro he
    rw [he] at hsp
    exact hwPr hsp
  have hsrcD : ∀ l' ∈ D, l'.startV ≠ l.endV := by
    intro l' hl'
    have hl'o : l' ∈ g.outgoing_edges v := by
      rw [houtv]
      exact List.mem_append_left _ hl'
    rw [outgoing_start g v l' hl'o]
    exact fun he => hwV he.symm
  unfold relaxFin
  dsimp only
  rw [updFn_self]
  set M := merge_range ((alookup st.reached l.endV).getD (0, 0))
    (link_dist_range g st.reached l) with hMdef
  have hM : M = merge_range r₀ (link_dist_range g st.reached l) := by
    rw [hMdef, hr₀]
    rfl
  have hkeys : List.map (fun x => x.1) (ainsert st.reached l.endV M)
      = List.map (fun x => x.1) st.reached := by
    rw [ainsert_keys, if_pos hwK]
  have hvalW : alookup (ainsert st.reached l.endV M) l.endV = some M :=
    alookup_ainsert_self _ _ _
  have hvalNe : ∀ w', w' ≠ l.endV →
      alookup (ainsert st.reached l.endV M) w' = alookup st.reached w' :=
    fun w' hne => alookup_ainsert_ne _ _ _ _ hne
  have hldrStable : ∀ l' : Link, l'.startV ≠ l.endV →
      link_dist_range g (ainsert st.reached l.endV M) l'
        = link_dist_range g st.reached l' :=
    fun l' h => link_dist_range_ainsert_ne g _ _ _ _ h
  have hvalSpecNew : ∀ w', w' ∈ sbKeys st → w' ≠ s →
      alookup (ainsert st.reached l.endV M) w' = mergeFoldOpt
        ((relaxedEdges g st.processed w'
          ++ (D ++ [l]).filter (fun l' => l'.endV = w')).map
          (link_dist_range g (ainsert st.reached l.endV M))) := by
    intro w' hw' hw's
    have hstable : (relaxedEdges g st.processed w'
        ++ D.filter (fun l' => l'.endV = w')).map
          (link_dist_range g (ainsert st.reached l.endV M))
        = (relaxedEdges g st.processed w'
          ++ D.filter (fun l' => l'.endV = w')).map
          (link_dist_range g st.reached) := by
      apply List.map_congr_left
      intro l' hl'
      rcases List.mem_append.mp hl' with h1 | h1
      · exact hldrStable l' (hsrcP w' l' h1)
      · exact hldrStable l' (hsrcD l' (List.mem_of_mem_filter h1))
    by_cases hew : w' = l.endV
    · subst hew
      rw [hvalW, hDfilt, if_pos rfl, ← List.append_assoc, List.map_append,
        hstable]
      have hfold : mergeFoldOpt ((relaxedEdges g st.processed l.endV
          ++ D.filter (fun l' => l'.endV = l.endV)).map
          (link_dist_range g st.reached)) = some r₀ := by
        rw [← hval, hr₀]
      simp only [List.map_cons, List.map_nil]
      rw [hldrStable l (by rw [hlv]; exact fun he => hwV he.symm)]
      rw [mergeFoldOpt_concat _ _ _ hfold]
      rw [hM]
    · rw [hvalNe w' hew, hDfilt, if_neg (fun he => hew he.symm)]
      rw [List.append_nil, hstable]
      exact hi.valSpec w' hw' hw's
  by_cases hpush : st.rem l.endV - 1 = 0
  · rw [if_pos hpush]
    refine {
      keysND := by
        simp only [sbKeys]
        rw [hkeys]
        exact hi.keysND
      sMem := by
        simp only [sbKeys]
        rw [hkeys]
        exact hi.sMem
      sVal := by
        dsimp only
        rw [hvalNe s (fun he => hws he.symm)]
        exact hi.sVal
      rcFree := ?_
      stackKeys := ?_
      stackND := by
        dsimp only
        exact List.nodup_cons.mpr ⟨hwSt, hi.stackND⟩
      sNotStack := by
        dsimp only
        intro hc
        rcases List.mem_cons.mp hc with he | hm
        · exact hws he.symm
        · exact hi.sNotStack hm
      vKey := by
        simp only [sbKeys]
        rw [hkeys]
        exact hi.vKey
      vNotProc := hi.vNotProc
      vNotStack := by
        dsimp only
        intro hc
        rcases List.mem_cons.mp hc with he | hm
        · exact hwV he.symm
        · exact hi.vNotStack hm
      vFull := hi.vFull
      procND := hi.procND
      procOut := hi.procOut
      procKeys := ?_
      disj := ?_
      sLoc := hi.sLoc
      remSpec := ?_
      ready := ?_
      nrSpec := ?_
      procEdges := ?_
      dEdges := ?_
      topo := hi.topo
      keysInc := ?_
      keysWf := ?_
      valSpec := ?_ }
    · intro w' hw'
      simp only [sbKeys] at hw' ⊢
      rw [hkeys] at hw' ⊢
      exact hi.rcFree w' hw'
    · intro w' hw'
      simp only [sbKeys]
      rw [hkeys]
      dsimp only at hw'
      rcases List.mem_cons.mp hw' with he | hm
      · rw [he]
        exact hwK
      · exact hi.stackKeys w' hm
    · intro w' hw'
      simp only [sbKeys]
      rw [hkeys]
      exact hi.procKeys w' hw'
    · intro w' hw'
      dsimp only at hw'
      rcases List.mem_cons.mp hw' with he | hm
      · rw [he]
        exact hwPr
      · exact hi.disj w' hm
    · intro w' hw' hw's
      simp only [sbKeys] at hw'
      rw [hkeys] at hw'
      dsimp only
      rw [hDfilt]
      by_cases hew : w' = l.endV
      · subst hew
        rw [updFn_self, if_pos rfl]
        simp only [List.length_append, List.length_singleton]
        omega
      · rw [updFn_ne _ _ _ _ hew, if_neg (fun he => hew he.symm)]
        simp only [List.append_nil]
        exact hi.remSpec w' hw' hw's
    · intro w' hw' hw's
      simp only [sbKeys] at hw'
      rw [hkeys] at hw'
      dsimp only
      by_cases hew : w' = l.endV
      · subst hew
        rw [updFn_self]
        exact iff_of_true hpush (.inl (List.mem_cons_self _ _))
      · rw [updFn_ne _ _ _ _ hew]
        have := hi.ready w' hw' hw's
        constructor
        · intro h0
          rcases this.mp h0 with h1 | h1 | h1
          · exact .inl (List.mem_cons_of_mem _ h1)
          · exact .inr (.inl h1)
          · exact .inr (.inr h1)
        · intro hor
          apply this.mpr
          rcases hor with h1 | h1 | h1
          · rcases List.mem_cons.mp h1 with he | hm
            · exact absurd he hew
            · exact .inl hm
          · exact .inr (.inl h1)
          · exact .inr (.inr h1)
    · dsimp only
      simp only [sbKeys]
      rw [hkeys]
      have hND : (List.map (fun x => x.1) st.reached).Nodup := hi.keysND
      have hdrop := filter_length_drop_one (List.map (fun x => x.1) st.reached)
        hND
        (fun w' => decide (w' ≠ s ∧ w' ∉ st.stack ∧ w' ∉ st.processed ∧ w' ≠ v))
        (fun w' => decide (w' ≠ s ∧ w' ∉ l.endV :: st.stack
          ∧ w' ∉ st.processed ∧ w' ≠ v))
        l.endV hwK
        (by simp [hws, hwSt, hwPr, hwV])
        (by simp)
        ?_
      · have := hi.nrSpec
        simp only [sbKeys] at this
        omega
      · intro x hx hxw
        simp only [decide_eq_decide]
        constructor
        · rintro ⟨a1, a2, a3, a4⟩
          exact ⟨a1, by
            intro hc
            rcases List.mem_cons.mp hc with he | hm
            · exact hxw he
            · exact a2 hm, a3, a4⟩
        · rintro ⟨a1, a2, a3, a4⟩
          exact ⟨a1, fun hm => a2 (List.mem_cons_of_mem _ hm), a3, a4⟩
    · intro u hu l' hl'
      simp only [sbKeys]
      rw [hkeys]
      exact hi.procEdges u hu l' hl'
    · intro l' hl'
      simp only [sbKeys]
      rw [hkeys]
      rcases List.mem_append.mp hl' with h1 | h1
      · exact hi.dEdges l' h1
      · simp at h1
        rw [h1]
        exact ⟨hwK, hws⟩
    · intro w' hw' hw's
      simp only [sbKeys] at hw'
      rw [hkeys] at hw'
      exact hi.keysInc w' hw' hw's
    · intro w' hw'
      simp only [sbKeys] at hw'
      rw [hkeys] at hw'
      exact hi.keysWf w' hw'
    · intro w' hw' hw's
      simp only [sbKeys] at hw' ⊢
      rw [hkeys] at hw'
      exact hvalSpecNew w' hw' hw's
  · rw [if_neg hpush]
    refine {
      keysND := by
        simp only [sbKeys]
        rw [hkeys]
        exact hi.keysND
      sMem := by
        simp only [sbKeys]
        rw [hkeys]
        exact hi.sMem
      sVal := by
        dsimp only
        rw [hvalNe s (fun he => hws he.symm)]
        exact hi.sVal
      rcFree := ?_
      stackKeys := ?_
      stackND := hi.stackND
      sNotStack := hi.sNotStack
      vKey := by
        simp only [sbKeys]
        rw [hkeys]
        exact hi.vKey
      vNotProc := hi.vNotProc
      vNotStack := hi.vNotStack
      vFull := hi.vFull
      procND := hi.procND
      procOut := hi.procOut
      procKeys := ?_
      disj := hi.disj
      sLoc := hi.sLoc
      remSpec := ?_
      ready := ?_
      nrSpec := ?_
      procEdges := ?_
      dEdges := ?_
      topo := hi.topo
      keysInc := ?_
      keysWf := ?_
      valSpec := ?_ }
    · intro w' hw'
      simp only [sbKeys] at hw' ⊢
      rw [hkeys] at hw' ⊢
      exact hi.rcFree w' hw'
    · intro w' hw'
      simp only [sbKeys]
      rw [hkeys]
      exact hi.stackKeys w' hw'
    · intro w' hw'
      simp only [sbKeys]
      rw [hkeys]
      exact hi.procKeys w' hw'
    · intro w' hw' hw's
      simp only [sbKeys] at hw'
      rw [hkeys] at hw'
      dsimp only
      rw [hDfilt]
      by_cases hew : w' = l.endV
      · subst hew
        rw [updFn_self, if_pos rfl]
        simp only [List.length_append, List.length_singleton]
        omega
      · rw [updFn_ne _ _ _ _ hew, if_neg (fun he => hew he.symm)]
        simp only [List.append_nil]
        exact hi.remSpec w' hw' hw's
    · intro w' hw' hw's
      simp only [sbKeys] at hw'
      rw [hkeys] at hw'
      dsimp only
      by_cases hew : w' = l.endV
      · subst hew
        rw [updFn_self]
        exact iff_of_false hpush (fun hor => hNor hor)
      · rw [updFn_ne _ _ _ _ hew]
        exact hi.ready w' hw' hw's
    · dsimp only
      simp only [sbKeys]
      rw [hkeys]
      have := hi.nrSpec
      simp only [sbKeys] at this
      exact this
    · intro u hu l' hl'
      simp only [sbKeys]
      rw [hkeys]
      exact hi.procEdges u hu l' hl'
    · intro l' hl'
      simp only [sbKeys]
      rw [hkeys]
      rcases List.mem_append.mp hl' with h1 | h1
      · exact hi.dEdges l' h1
      · simp at h1
        rw [h1]
        exact ⟨hwK, hws⟩
    · intro w' hw' hw's
      simp only [sbKeys] at hw'
      rw [hkeys] at hw'
      exact hi.keysInc w' hw' hw's
    · intro w' hw'
      simp only [sbKeys] at hw'
      rw [hkeys] at hw'
      exact hi.keysWf w' hw'
    · intro w' hw' hw's
      simp only [sbKeys] at hw' ⊢
      rw [hkeys] at hw'
      exact hvalSpecNew w' hw' hw's

/-- Overwriting a function update at the same key collapses. -/
theorem updFn_updFn {α β : Type} [DecidableEq α] (f : α → β) (k : α)
    (a b : β) : updFn (updFn f k a) k b = updFn f k b := by
  funext x
  by_cases h : x = k <;> simp [updFn, h]

/-- Re-inserting at the same key collapses. -/
theorem ainsert_ainsert {α β : Type} [DecidableEq α]
    (m : List (α × β)) (k : α) (a b : β) :
    ainsert (ainsert m k a) k b = ainsert m k b := by
  induction m with
  | nil => simp [ainsert]
  | cons p t ih =>
    obtain ⟨x, y⟩ := p
    by_cases hx : x = k
    · subst hx
      simp [ainsert]
    · simp [ainsert, hx]
      exact ih

/-- Relaxing a link onto a fresh target (as the discovery branch of the
relaxation does, after seeding its entries) preserves the mid-iteration
invariant, extending the done prefix by that link. -/
theorem relaxFin_inv_fresh (g : Graph) (s v : Vertex) (hwf : g.WfIds)
    (D rest : List Link) (l : Link)
    (houtv : g.outgoing_edges v = D ++ l :: rest)
    (st : SbSt) (hi : SbIMid g s v D st)
    (hw : l.endV ∉ sbKeys st) (hws : l.endV ≠ s)
    (hrc : l.endV.rc ∉ sbKeys st) :
    SbIMid g s v (D ++ [l]) (relaxFin g l { st with
      nr := st.nr + 1,
      rem := updFn st.rem l.endV (g.incoming_edge_cnt l.endV),
      reached := ainsert st.reached l.endV (link_dist_range g st.reached l) }) := by
  have hlout : l ∈ g.outgoing_edges v := by
    rw [houtv]
    exact List.mem_append_right _ (List.mem_cons_self l rest)
  have hlv : l.startV = v := outgoing_start g v l hlout
  have hllink : l ∈ g.links := outgoing_mem_links g v l hlout
  have hwK : l.endV ∉ List.map (fun x => x.1) st.reached := hw
  have hrcK : l.endV.rc ∉ List.map (fun x => x.1) st.reached := hrc
  have hvw : v ≠ l.endV := fun he => hw (he ▸ hi.vKey)
  have hwSt : l.endV ∉ st.stack := fun h1 => hw (hi.stackKeys _ h1)
  have hwPr : l.endV ∉ st.processed := fun h2 => hw (hi.procKeys _ h2)
  have hlsw : l.startV ≠ l.endV := by
    rw [hlv]
    exact hvw
  have hrelnil : relaxedEdges g st.processed l.endV = [] :=
    relaxedEdges_nil_of_not_key g st.processed (sbKeys st) l.endV
      (fun u hu l' hl' => (hi.procEdges u hu l' hl').1) hw
  have hDnil : D.filter (fun l' => l'.endV = l.endV) = [] := by
    rw [List.eq_nil_iff_forall_not_mem]
    intro l' hl'
    have h1 := (hi.dEdges l' (List.mem_of_mem_filter hl')).1
    have h2 := List.of_mem_filter hl'
    simp only [decide_eq_true_eq] at h2
    exact hw (h2 ▸ h1)
  have hInc1 : 1 ≤ g.incoming_edge_cnt l.endV := by
    unfold Graph.incoming_edge_cnt
    have : l ∈ g.incoming_edges l.endV := by
      unfold Graph.incoming_edges
      exact List.mem_filter.mpr ⟨hllink, by simp⟩
    exact List.length_pos.mpr (fun he => by rw [he] at this; simp at this)
  have hwNd : l.endV.nodeId < g.nodeCnt := (hwf l hllink).2
  have hDfilt : ∀ w' : Vertex, ((D ++ [l]).filter (fun l' => l'.endV = w'))
      = D.filter (fun l' => l'.endV = w')
        ++ (if l.endV = w' then [l] else []) := by
    intro w'
    rw [List.filter_append]
    congr 1
    by_cases he : l.endV = w'
    · simp [he]
    · simp [he]
  have hsrcP : ∀ w', ∀ l' ∈ relaxedEdges g st.processed w',
      l'.startV ≠ l.endV := by
    intro w' l' hl'
    have hsp := relaxedEdges_sources g st.processed w' l' hl'
    intro he
    rw [he] at hsp
    exact hwPr hsp
  have hsrcD : ∀ l' ∈ D, l'.startV ≠ l.endV := by
    intro l' hl'
    have hl'o : l' ∈ g.outgoing_edges v := by
      rw [houtv]
      exact List.mem_append_left _ hl'
    rw [outgoing_start g v l' hl'o]
    exact hvw
  unfold relaxFin
  dsimp only
  simp only [updFn_self]
  rw [updFn_updFn, alookup_ainsert_self]
  simp only [Option.getD_some]
  rw [link_dist_range_ainsert_ne g st.reached l.endV _ l hlsw,
    merge_range_self, ainsert_ainsert]
  have hkeys : List.map (fun x => x.1)
      (ainsert st.reached l.endV (link_dist_range g st.reached l))
      = List.map (fun x => x.1) st.reached ++ [l.endV] := by
    rw [ainsert_keys, if_neg hwK]
  have hmem : ∀ w' : Vertex,
      w' ∈ List.map (fun x => x.1) st.reached ++ [l.endV] →
      w' ∈ List.map (fun x => x.1) st.reached ∨ w' = l.endV := by
    intro w' hw'
    rcases List.mem_append.mp hw' with h1 | h1
    · exact .inl h1
    · simp at h1
      exact .inr h1
  have hvalW : alookup (ainsert st.reached l.endV
      (link_dist_range g st.reached l)) l.endV
      = some (link_dist_range g st.reached l) :=
    alookup_ainsert_self _ _ _
  have hvalNe : ∀ w', w' ≠ l.endV →
      alookup (ainsert st.reached l.endV (link_dist_range g st.reached l)) w'
        = alookup st.reached w' :=
    fun w' hne => alookup_ainsert_ne _ _ _ _ hne
  have hldrStable : ∀ l' : Link, l'.startV ≠ l.endV →
      link_dist_range g (ainsert st.reached l.endV
        (link_dist_range g st.reached l)) l'
        = link_dist_range g st.reached l' :=
    fun l' h => link_dist_range_ainsert_ne g _ _ _ _ h
  have hvalSpecNew : ∀ w', w' ∈ List.map (fun x => x.1) st.reached
        ++ [l.endV] → w' ≠ s →
      alookup (ainsert st.reached l.endV (link_dist_range g st.reached l)) w'
        = mergeFoldOpt
        ((relaxedEdges g st.processed w'
          ++ (D ++ [l]).filter (fun l' => l'.endV = w')).map
          (link_dist_range g (ainsert st.reached l.endV
            (link_dist_range g st.reached l)))) := by
    intro w' hw' hw's
    have hstable : (relaxedEdges g st.processed w'
        ++ D.filter (fun l' => l'.endV = w')).map
          (link_dist_range g (ainsert st.reached l.endV
            (link_dist_range g st.reached l)))
        = (relaxedEdges g st.processed w'
          ++ D.filter (fun l' => l'.endV = w')).map
          (link_dist_range g st.reached) := by
      apply List.map_congr_left
      intro l' hl'
      rcases List.mem_append.mp hl' with h1 | h1
      · exact hldrStable l' (hsrcP w' l' h1)
      · exact hldrStable l' (hsrcD l' (List.mem_of_mem_filter h1))
    by_cases hew : w' = l.endV
    · subst hew
      rw [hvalW, hrelnil, hDfilt, if_pos rfl, hDnil]
      simp only [List.nil_append, List.map_cons, List.map_nil]
      rw [hldrStable l hlsw]
      rfl
    · rcases hmem w' hw' with h1 | h1
      · rw [hvalNe w' hew, hDfilt, if_neg (fun he => hew he.symm)]
        rw [List.append_nil, hstable]
        exact hi.valSpec w' h1 hw's
      · exact absurd h1 hew
  by_cases hpush : g.incoming_edge_cnt l.endV - 1 = 0
  · rw [if_pos hpush]
    refine {
      keysND := by
        simp only [sbKeys]
        rw [hkeys]
        exact nodup_append_single _ _ hi.keysND hwK
      sMem := by
        simp only [sbKeys]
        rw [hkeys]
        exact List.mem_append_left _ hi.sMem
      sVal := by
        dsimp only
        rw [hvalNe s (fun he => hws he.symm)]
        exact hi.sVal
      rcFree := ?_
      stackKeys := ?_
      stackND := by
        dsimp only
        exact List.nodup_cons.mpr ⟨hwSt, hi.stackND⟩
      sNotStack := by
        dsimp only
        intro hc
        rcases List.mem_cons.mp hc with he | hm
        · exact hws he.symm
        · exact hi.sNotStack hm
      vKey := by
        simp only [sbKeys]
        rw [hkeys]
        exact List.mem_append_left _ hi.vKey
      vNotProc := hi.vNotProc
      vNotStack := by
        dsimp only
        intro hc
        rcases List.mem_cons.mp hc with he | hm
        · exact hvw he
        · exact hi.vNotStack hm
      vFull := hi.vFull
      procND := hi.procND
      procOut := hi.procOut
      procKeys := ?_
      disj := ?_
      sLoc := hi.sLoc
      remSpec := ?_
      ready := ?_
      nrSpec := ?_
      procEdges := ?_
      dEdges := ?_
      topo := hi.topo
      keysInc := ?_
      keysWf := ?_
      valSpec := ?_ }
    · intro w' hw'
      simp only [sbKeys] at hw' ⊢
      rw [hkeys] at hw' ⊢
      intro hcrc
      rcases hmem w' hw' with h1 | h1
      · rcases hmem _ hcrc with h2 | h2
        · exact hi.rcFree w' h1 h2
        · exact hrcK (by
            have : w' = l.endV.rc := by
              rw [← h2, Vertex.rc_rc]
            rw [← this]
            exact h1)
      · subst h1
        rcases hmem _ hcrc with h2 | h2
        · exact hrcK h2
        · exact Vertex.rc_ne_self _ h2
    · intro w' hw'
      simp only [sbKeys]
      rw [hkeys]
      dsimp only at hw'
      rcases List.mem_cons.mp hw' with he | hm
      · rw [he]
        exact List.mem_append_right _ (List.mem_singleton.mpr rfl)
      · exact List.mem_append_left _ (hi.stackKeys w' hm)
    · intro w' hw'
      simp only [sbKeys]
      rw [hkeys]
      exact List.mem_append_left _ (hi.procKeys w' hw')
    · intro w' hw'
      dsimp only at hw'
      rcases List.mem_cons.mp hw' with he | hm
      · rw [he]
        exact hwPr
      · exact hi.disj w' hm
    · intro w' hw' hw's
      simp only [sbKeys] at hw'
      rw [hkeys] at hw'
      dsimp only
      rw [hDfilt]
      by_cases hew : w' = l.endV
      · subst hew
        rw [updFn_self, if_pos rfl, hrelnil]
        simp only [List.length_nil, List.length_append,
          List.length_singleton, hDnil]
        omega
      · rw [updFn_ne _ _ _ _ hew, if_neg (fun he => hew he.symm)]
        simp only [List.append_nil]
        rcases hmem w' hw' with h1 | h1
        · exact hi.remSpec w' h1 hw's
        · exact absurd h1 hew
    · intro w' hw' hw's
      simp only [sbKeys] at hw'
      rw [hkeys] at hw'
      dsimp only
      by_cases hew : w' = l.endV
      · subst hew
        rw [updFn_self]
        exact iff_of_true hpush (.inl (List.mem_cons_self _ _))
      · rw [updFn_ne _ _ _ _ hew]
        rcases hmem w' hw' with h1 | h1
        · have := hi.ready w' h1 hw's
          constructor
          · intro h0
            rcases this.mp h0 with h2 | h2 | h2
            · exact .inl (List.mem_cons_of_mem _ h2)
            · exact .inr (.inl h2)
            · exact .inr (.inr h2)
          · intro hor
            apply this.mpr
            rcases hor with h2 | h2 | h2
            · rcases List.mem_cons.mp h2 with he | hm
              · exact absurd he hew
              · exact .inl hm
            · exact .inr (.inl h2)
            · exact .inr (.inr h2)
        · exact absurd h1 hew
    · dsimp only
      simp only [sbKeys]
      rw [hkeys, List.filter_append]
      have h1 : List.filter (fun w' => decide (w' ≠ s
          ∧ w' ∉ l.endV :: st.stack ∧ w' ∉ st.processed ∧ w' ≠ v)) [l.endV]
          = [] := by
        simp
      have h2 : (List.map (fun x => x.1) st.reached).filter
          (fun w' => decide (w' ≠ s ∧ w' ∉ l.endV :: st.stack
            ∧ w' ∉ st.processed ∧ w' ≠ v))
          = (List.map (fun x => x.1) st.reached).filter
          (fun w' => decide (w' ≠ s ∧ w' ∉ st.stack
            ∧ w' ∉ st.processed ∧ w' ≠ v)) := by
        apply List.filter_congr
        intro x hx
        have hxw : x ≠ l.endV := fun he => hwK (he ▸ hx)
        simp only [decide_eq_decide]
        constructor
        · rintro ⟨a1, a2, a3, a4⟩
          exact ⟨a1, fun hm => a2 (List.mem_cons_of_mem _ hm), a3, a4⟩
        · rintro ⟨a1, a2, a3, a4⟩
          exact ⟨a1, by
            intro hc
            rcases List.mem_cons.mp hc with he | hm
            · exact hxw he
            · exact a2 hm, a3, a4⟩
      rw [h1, h2, List.append_nil]
      have := hi.nrSpec
      simp only [sbKeys] at this
      omega
    · intro u hu l' hl'
      simp only [sbKeys]
      rw [hkeys]
      exact ⟨List.mem_append_left _ (hi.procEdges u hu l' hl').1,
        (hi.procEdges u hu l' hl').2⟩
    · intro l' hl'
      simp only [sbKeys]
      rw [hkeys]
      rcases List.mem_append.mp hl' with h1 | h1
      · exact ⟨List.mem_append_left _ (hi.dEdges l' h1).1, (hi.dEdges l' h1).2⟩
      · simp at h1
        rw [h1]
        exact ⟨List.mem_append_right _ (List.mem_singleton.mpr rfl), hws⟩
    · intro w' hw' hw's
      simp only [sbKeys] at hw'
      rw [hkeys] at hw'
      rcases hmem w' hw' with h1 | h1
      · exact hi.keysInc w' h1 hw's
      · rw [h1]
        exact hInc1
    · intro w' hw'
      simp only [sbKeys] at hw'
      rw [hkeys] at hw'
      rcases hmem w' hw' with h1 | h1
      · exact hi.keysWf w' h1
      · rw [h1]
        exact .inr hwNd
    · intro w' hw' hw's
      simp only [sbKeys] at hw' ⊢
      rw [hkeys] at hw'
      exact hvalSpecNew w' hw' hw's
  · rw [if_neg hpush]
    refine {
      keysND := by
        simp only [sbKeys]
        rw [hkeys]
        exact nodup_append_single _ _ hi.keysND hwK
      sMem := by
        simp only [sbKeys]
        rw [hkeys]
        exact List.mem_append_left _ hi.sMem
      sVal := by
        dsimp only
        rw [hvalNe s (fun he => hws he.symm)]
        exact hi.sVal
      rcFree := ?_
      stackKeys := ?_
      stackND := hi.stackND
      sNotStack := hi.sNotStack
      vKey := by
        simp only [sbKeys]
        rw [hkeys]
        exact List.mem_append_left _ hi.vKey
      vNotProc := hi.vNotProc
      vNotStack := hi.vNotStack
      vFull := hi.vFull
      procND := hi.procND
      procOut := hi.procOut
      procKeys := ?_
      disj := hi.disj
      sLoc := hi.sLoc
      remSpec := ?_
      ready := ?_
      nrSpec := ?_
      procEdges := ?_
      dEdges := ?_
      topo := hi.topo
      keysInc := ?_
      keysWf := ?_
      valSpec := ?_ }
    · intro w' hw'
      simp only [sbKeys] at hw' ⊢
      rw [hkeys] at hw' ⊢
      intro hcrc
      rcases hmem w' hw' with h1 | h1
      · rcases hmem _ hcrc with h2 | h2
        · exact hi.rcFree w' h1 h2
        · exact hrcK (by
            have : w' = l.endV.rc := by
              rw [← h2, Vertex.rc_rc]
            rw [← this]
            exact h1)
      · subst h1
        rcases hmem _ hcrc with h2 | h2
        · exact hrcK h2
        · exact Vertex.rc_ne_self _ h2
    · intro w' hw'
      simp only [sbKeys]
      rw [hkeys]
      exact List.mem_append_left _ (hi.stackKeys w' hw')
    · intro w' hw'
      simp only [sbKeys]
      rw [hkeys]
      exact List.mem_append_left _ (hi.procKeys w' hw')
    · intro w' hw' hw's
      simp only [sbKeys] at hw'
      rw [hkeys] at hw'
      dsimp only
      rw [hDfilt]
      by_cases hew : w' = l.endV
      · subst hew
        rw [updFn_self, if_pos rfl, hrelnil]
        simp only [List.length_nil, List.length_append,
          List.length_singleton, hDnil]
        omega
      · rw [updFn_ne _ _ _ _ hew, if_neg (fun he => hew he.symm)]
        simp only [List.append_nil]
        rcases hmem w' hw' with h1 | h1
        · exact hi.remSpec w' h1 hw's
        · exact absurd h1 hew
    · intro w' hw' hw's
      simp only [sbKeys] at hw'
      rw [hkeys] at hw'
      dsimp only
      by_cases hew : w' = l.endV
      · subst hew
        rw [updFn_self]
        refine iff_of_false hpush ?_
        intro hor
        rcases hor with h1 | h1 | h1
        · exact hwSt h1
        · exact hwPr h1
        · exact hvw h1.symm
      · rw [updFn_ne _ _ _ _ hew]
        rcases hmem w' hw' with h1 | h1
        · exact hi.ready w' h1 hw's
        · exact absurd h1 hew
    · dsimp only
      simp only [sbKeys]
      rw [hkeys, List.filter_append]
      have h1 : List.filter (fun w' => decide (w' ≠ s
          ∧ w' ∉ st.stack ∧ w' ∉ st.processed ∧ w' ≠ v)) [l.endV]
          = [l.endV] := by
        simp only [List.filter_singleton]
        have hd : decide (l.endV ≠ s ∧ l.endV ∉ st.stack
            ∧ l.endV ∉ st.processed ∧ l.endV ≠ v) = true := by
          simp only [decide_eq_true_eq]
          exact ⟨hws, hwSt, hwPr, fun he => hvw he.symm⟩
        rw [hd]
        rfl
      rw [h1]
      have := hi.nrSpec
      simp only [sbKeys] at this
      rw [List.length_append, ← this]
      simp
    · intro u hu l' hl'
      simp only [sbKeys]
      rw [hkeys]
      exact ⟨List.mem_append_left _ (hi.procEdges u hu l' hl').1,
        (hi.procEdges u hu l' hl').2⟩
    · intro l' hl'
      simp only [sbKeys]
      rw [hkeys]
      rcases List.mem_append.mp hl' with h1 | h1
      · exact ⟨List.mem_append_left _ (hi.dEdges l' h1).1, (hi.dEdges l' h1).2⟩
      · simp at h1
        rw [h1]
        exact ⟨List.mem_append_right _ (List.mem_singleton.mpr rfl), hws⟩
    · intro w' hw' hw's
      simp only [sbKeys] at hw'
      rw [hkeys] at hw'
      rcases hmem w' hw' with h1 | h1
      · exact hi.keysInc w' h1 hw's
      · rw [h1]
        exact hInc1
    · intro w' hw'
      simp only [sbKeys] at hw'
      rw [hkeys] at hw'
      rcases hmem w' hw' with h1 | h1
      · exact hi.keysWf w' h1
      · rw [h1]
        exact .inr hwNd
    · intro w' hw' hw's
      simp only [sbKeys] at hw' ⊢
      rw [hkeys] at hw'
      exact hvalSpecNew w' hw' hw's

/-- A successful single relaxation preserves the mid-iteration invariant,
whichever of its branches ran. -/
theorem relaxOne_inv (g : Graph) (s v : Vertex) (hwf : g.WfIds)
    (D rest : List Link) (l : Link)
    (houtv : g.outgoing_edges v = D ++ l :: rest)
    (st : SbSt) (hi : SbIMid g s v D st)
    (st1 : SbSt) (h : relaxOne g s st l = some st1) :
    SbIMid g s v (D ++ [l]) st1 := by
  unfold relaxOne at h
  dsimp only at h
  by_cases hes : l.endV = s
  · rw [if_pos hes] at h
    exact absurd h (by simp)
  · rw [if_neg hes] at h
    by_cases hfresh : (alookup st.reached l.endV).isNone
    · rw [if_pos hfresh] at h
      by_cases hrcs : (alookup st.reached l.endV.rc).isSome
      · rw [if_pos hrcs] at h
        exact absurd h (by simp)
      · rw [if_neg hrcs] at h
        injection h with h
        rw [← h]
        have hwmem : l.endV ∉ sbKeys st := by
          intro hm
          have hs := alookup_isSome_of_mem st.reached l.endV hm
          rw [Option.isNone_iff_eq_none.mp hfresh] at hs
          simp at hs
        have hrcmem : l.endV.rc ∉ sbKeys st :=
          fun hm => hrcs (alookup_isSome_of_mem st.reached l.endV.rc hm)
        exact relaxFin_inv_fresh g s v hwf D rest l houtv st hi hwmem hes hrcmem
    · rw [if_neg hfresh] at h
      injection h with h
      rw [← h]
      have hwmem : l.endV ∈ sbKeys st := by
        have hs : (alookup st.reached l.endV).isSome := by
          cases ho : alookup st.reached l.endV with
          | none => rw [ho] at hfresh; simp at hfresh
          | some x => simp
        exact (alookup_isSome_mem st.reached l.endV).mp hs
      exact relaxFin_inv_existing g s v D rest l houtv st hi hwmem hes

/-- Relaxing the remaining links of the expanded vertex carries the
mid-iteration invariant to the full outgoing list. -/
theorem relaxList_inv (g : Graph) (s v : Vertex) (hwf : g.WfIds) :
    ∀ (L D : List Link) (st : SbSt),
    g.outgoing_edges v = D ++ L → SbIMid g s v D st →
    ∀ st1, relaxList g s st L = some st1 →
    SbIMid g s v (g.outgoing_edges v) st1 := by
  intro L
  induction L with
  | nil =>
    intro D st houtv hi st1 h
    unfold relaxList at h
    injection h with h
    rw [← h, houtv, List.append_nil]
    exact hi
  | cons l t ih =>
    intro D st houtv hi st1 h
    unfold relaxList at h
    cases ho : relaxOne g s st l with
    | none => rw [ho] at h; exact absurd h (by simp)
    | some st' =>
      rw [ho] at h
      dsimp only at h
      exact ih (D ++ [l]) st' (by rw [houtv]; simp) 
        (relaxOne_inv g s v hwf D t l houtv st hi st' ho) st1 h

/-- Popping the stack turns the boundary invariant into the mid-iteration
invariant with an empty done prefix. -/
theorem sbPop_inv (g : Graph) (s v : Vertex) (rest : List Vertex)
    (st : SbSt) (hi : SbI g s st) (hstack : st.stack = v :: rest) :
    SbIMid g s v [] { st with stack := rest } := by
  have hvmem : v ∈ st.stack := by rw [hstack]; exact List.mem_cons_self v rest
  have hvkey : v ∈ sbKeys st := hi.stackKeys v hvmem
  have hvnp : v ∉ st.processed := hi.disj v hvmem
  have hnd : v ∉ rest ∧ rest.Nodup := by
    have := hi.stackND
    rw [hstack] at this
    exact List.nodup_cons.mp this
  refine {
    keysND := hi.keysND
    sMem := hi.sMem
    sVal := hi.sVal
    rcFree := hi.rcFree
    stackKeys := ?_
    stackND := hnd.2
    sNotStack := ?_
    vKey := hvkey
    vNotProc := hvnp
    vNotStack := hnd.1
    vFull := ?_
    procND := hi.procND
    procOut := hi.procOut
    procKeys := hi.procKeys
    disj := ?_
    sLoc := ?_
    remSpec := ?_
    ready := ?_
    nrSpec := ?_
    procEdges := hi.procEdges
    dEdges := by
      intro l hl
      simp at hl
    topo := hi.topo
    keysInc := hi.keysInc
    keysWf := hi.keysWf
    valSpec := ?_ }
  · intro w hw
    dsimp only at hw
    exact hi.stackKeys w (by rw [hstack]; exact List.mem_cons_of_mem v hw)
  · dsimp only
    intro hc
    have hsmem : s ∈ st.stack := by
      rw [hstack]
      exact List.mem_cons_of_mem v hc
    have := (hi.sStack hsmem).1
    rw [hstack] at this
    injection this with h1 h2
    rw [h2] at hc
    simp at hc
  · intro hvs l hl hle
    have h0 : st.rem v = 0 := (hi.ready v hvkey hvs).mpr (.inl hvmem)
    have hfull : (relaxedEdges g st.processed v).length
        = g.incoming_edge_cnt v := by
      have := hi.remSpec v hvkey hvs
      omega
    exact ready_sources g st.processed hi.procND v hfull l hl hle
  · intro w hw
    dsimp only at hw
    exact hi.disj w (by rw [hstack]; exact List.mem_cons_of_mem v hw)
  · rcases hi.sLoc with h1 | h1
    · have := (hi.sStack h1).1
      rw [hstack] at this
      injection this with h2 _
      exact .inl h2.symm
    · exact .inr h1
  · intro w hw hws
    simp only [List.filter_nil, List.length_nil]
    have := hi.remSpec w hw hws
    omega
  · intro w hw hws
    dsimp only
    have := hi.ready w hw hws
    rw [hstack] at this
    constructor
    · intro h0
      rcases this.mp h0 with h1 | h1
      · rcases List.mem_cons.mp h1 with he | hm
        · exact .inr (.inr he)
        · exact .inl hm
      · exact .inr (.inl h1)
    · intro hor
      apply this.mpr
      rcases hor with h1 | h1 | h1
      · exact .inl (List.mem_cons_of_mem v h1)
      · exact .inr h1
      · exact .inl (by rw [h1]; exact List.mem_cons_self v rest)
  · dsimp only
    have := hi.nrSpec
    rw [this]
    congr 1
    apply List.filter_congr
    intro x hx
    simp only [decide_eq_decide]
    rw [hstack]
    constructor
    · rintro ⟨a1, a2, a3⟩
      exact ⟨a1, fun hm => a2 (List.mem_cons_of_mem v hm), a3,
        fun he => a2 (by rw [he]; exact List.mem_cons_self v rest)⟩
    · rintro ⟨a1, a2, a3, a4⟩
      refine ⟨a1, ?_, a3⟩
      intro hc
      rcases List.mem_cons.mp hc with he | hm
      · exact a4 he
      · exact a2 hm
  · intro w hw hws
    simp only [List.filter_nil, List.append_nil]
    exact hi.valSpec w hw hws

/-- Appending the expanded vertex to the ghost processed list restores
the boundary invariant. -/
theorem sbAppend_inv (g : Graph) (s v : Vertex) (st : SbSt)
    (hi : SbIMid g s v (g.outgoing_edges v) st)
    (hvout : g.outgoing_edge_cnt v ≠ 0) :
    SbI g s { st with processed := st.processed ++ [v] } := by
  have hPv : (st.processed ++ [v]).Nodup :=
    nodup_append_single _ _ hi.procND hi.vNotProc
  refine {
    keysND := hi.keysND
    sMem := hi.sMem
    sVal := hi.sVal
    rcFree := hi.rcFree
    stackKeys := hi.stackKeys
    stackND := hi.stackND
    procND := hPv
    procOut := ?_
    procKeys := ?_
    disj := ?_
    sStack := ?_
    sLoc := ?_
    remSpec := ?_
    ready := ?_
    nrSpec := ?_
    procEdges := ?_
    topo := ?_
    keysInc := hi.keysInc
    keysWf := hi.keysWf
    valSpec := ?_ }
  · intro u hu
    dsimp only at hu
    rcases List.mem_append.mp hu with h1 | h1
    · exact hi.procOut u h1
    · simp at h1
      rw [h1]
      exact hvout
  · intro u hu
    dsimp only at hu
    rcases List.mem_append.mp hu with h1 | h1
    · exact hi.procKeys u h1
    · simp at h1
      rw [h1]
      exact hi.vKey
  · intro w hw
    dsimp only
    intro hc
    rcases List.mem_append.mp hc with h1 | h1
    · exact hi.disj w hw h1
    · simp at h1
      rw [h1] at hw
      exact hi.vNotStack hw
  · intro hc
    exact absurd hc hi.sNotStack
  · dsimp only
    rcases hi.sLoc with h1 | h1
    · exact .inr (List.mem_append_right _ (by rw [h1]; simp))
    · exact .inr (List.mem_append_left _ h1)
  · intro w hw hws
    dsimp only
    rw [relaxedEdges_append, List.length_append, relaxedEdges_singleton]
    exact hi.remSpec w hw hws
  · intro w hw hws
    dsimp only
    have := hi.ready w hw hws
    constructor
    · intro h0
      rcases this.mp h0 with h1 | h1 | h1
      · exact .inl h1
      · exact .inr (List.mem_append_left _ h1)
      · exact .inr (List.mem_append_right _ (by rw [h1]; simp))
    · intro hor
      apply this.mpr
      rcases hor with h1 | h1
      · exact .inl h1
      · rcases List.mem_append.mp h1 with h2 | h2
        · exact .inr (.inl h2)
        · simp at h2
          exact .inr (.inr h2)
  · dsimp only
    have := hi.nrSpec
    rw [this]
    congr 1
    apply List.filter_congr
    intro x hx
    simp only [decide_eq_decide]
    constructor
    · rintro ⟨a1, a2, a3, a4⟩
      refine ⟨a1, a2, ?_⟩
      intro hc
      rcases List.mem_append.mp hc with h1 | h1
      · exact a3 h1
      · simp at h1
        exact a4 h1
    · rintro ⟨a1, a2, a3⟩
      exact ⟨a1, a2, fun hm => a3 (List.mem_append_left _ hm),
        fun he => a3 (List.mem_append_right _ (by rw [he]; simp))⟩
  · intro u hu l hl
    dsimp only at hu
    rcases List.mem_append.mp hu with h1 | h1
    · exact hi.procEdges u h1 l hl
    · simp at h1
      rw [h1] at hl
      exact hi.dEdges l hl
  · dsimp only
    intro j hj hgs l hl hle
    by_cases hjp : j < st.processed.length
    · have hget : (st.processed ++ [v]).get ⟨j, hj⟩
          = st.processed.get ⟨j, hjp⟩ := by
        simp [List.get_eq_getElem, List.getElem_append_left hjp]
      have htake : (st.processed ++ [v]).take j = st.processed.take j :=
        List.take_append_of_le_length (le_of_lt hjp)
      rw [htake]
      rw [hget] at hgs hle
      exact hi.topo j hjp hgs l hl hle
    · have hjeq : j = st.processed.length := by
        simp only [List.length_append, List.length_singleton] at hj
        omega
      subst hjeq
      have hget : (st.processed ++ [v]).get ⟨st.processed.length, hj⟩ = v := by
        simp
      rw [hget] at hgs hle
      have htake : (st.processed ++ [v]).take st.processed.length
          = st.processed := by
        simp
      rw [htake]
      exact hi.vFull hgs l hl hle
  · intro w hw hws
    dsimp only
    rw [relaxedEdges_append, relaxedEdges_singleton]
    exact hi.valSpec w hw hws

/-- A list splits into the satisfying and failing parts of any filter. -/
theorem length_filter_split {α : Type} (L : List α) (p : α → Bool) :
    L.length = (L.filter p).length + (L.filter (fun x => ! p x)).length := by
  induction L with
  | nil => simp
  | cons a t ih =>
    rw [List.filter_cons, List.filter_cons]
    by_cases hp : p a
    · rw [if_pos (by simpa using hp), if_neg (by simp [hp])]
      simp only [List.length_cons]
      omega
    · rw [if_neg (by simpa using hp), if_pos (by simp [hp])]
      simp only [List.length_cons]
      omega

/-- A duplicate-free list is no longer than a duplicate-free list
containing it. -/
theorem nodup_subset_length_le {α : Type} [DecidableEq α] (P K : List α)
    (hP : P.Nodup) (hK : K.Nodup) (hsub : ∀ x ∈ P, x ∈ K) :
    P.length ≤ K.length := by
  have hsub' : P.toFinset ⊆ K.toFinset := fun x hx =>
    List.mem_toFinset.mpr (hsub x (List.mem_toFinset.mp hx))
  have := Finset.card_le_card hsub'
  rwa [List.toFinset_card_of_nodup hP, List.toFinset_card_of_nodup hK] at this

/-- A duplicate-free, rc-free vertex list whose members other than `s`
have node ids below `n` has at most `n + 1` members. -/
theorem keys_length_le (s : Vertex) (n : Nat) (K : List Vertex)
    (hnd : K.Nodup) (hrc : ∀ w ∈ K, w.rc ∉ K)
    (hwfk : ∀ w ∈ K, w = s ∨ w.nodeId < n) :
    K.length ≤ n + 1 := by
  have h1 : (K.filter (fun x => x = s)).length ≤ 1 := by
    cases hf : K.filter (fun x => decide (x = s)) with
    | nil => simp [hf]
    | cons a t =>
      cases t with
      | nil => simp [hf]
      | cons b t2 =>
        exfalso
        have hnf : (a :: b :: t2).Nodup := hf ▸ hnd.filter _
        have ha : a = s := by
          have : a ∈ K.filter (fun x => decide (x = s)) := by
            rw [hf]
            exact List.mem_cons_self _ _
          simpa using List.of_mem_filter this
        have hb : b = s := by
          have : b ∈ K.filter (fun x => decide (x = s)) := by
            rw [hf]
            exact List.mem_cons_of_mem _ (List.mem_cons_self _ _)
          simpa using List.of_mem_filter this
        rcases List.nodup_cons.mp hnf with ⟨hna, _⟩
        have hab : a = b := ha.trans hb.symm
        exact hna (by rw [hab]; exact List.mem_cons_self b t2)
  have hmapnd : ((K.filter (fun x => ! decide (x = s))).map
      Vertex.nodeId).Nodup := by
    refine (hnd.filter _).map_on ?_
    intro x hx y hy hxy
    by_contra hne
    have hxk : x ∈ K := List.mem_of_mem_filter hx
    have hyk : y ∈ K := List.mem_of_mem_filter hy
    have hyrc : y = x.rc := by
      obtain ⟨xi, xd⟩ := x
      obtain ⟨yi, yd⟩ := y
      simp only [Vertex.nodeId] at hxy
      simp only [Vertex.rc, Direction.flip]
      cases xd <;> cases yd <;> simp_all [Vertex.nodeId, Direction.flip]
    exact hrc x hxk (hyrc ▸ hyk)
  have hlt : ∀ m ∈ (K.filter (fun x => ! decide (x = s))).map Vertex.nodeId,
      m < n := by
    intro m hm
    rcases List.mem_map.mp hm with ⟨w, hw, hwm⟩
    have h2 : ¬ w = s := by simpa using List.of_mem_filter hw
    rcases hwfk w (List.mem_of_mem_filter hw) with h3 | h3
    · exact absurd h3 h2
    · rw [← hwm]
      exact h3
  have hcard : ((K.filter (fun x => ! decide (x = s))).map
      Vertex.nodeId).length ≤ n := by
    have hsub : ((K.filter (fun x => ! decide (x = s))).map
        Vertex.nodeId).toFinset ⊆ Finset.range n := by
      intro m hm
      rw [List.mem_toFinset] at hm
      exact Finset.mem_range.mpr (hlt m hm)
    have := Finset.card_le_card hsub
    rwa [List.toFinset_card_of_nodup hmapnd, Finset.card_range] at this
  rw [List.length_map] at hcard
  have hsplit := length_filter_split K (fun x => decide (x = s))
  omega

/-- `relaxFin` never touches the ghost processed list. -/
theorem relaxFin_processed (g : Graph) (l : Link) (st : SbSt) :
    (relaxFin g l st).processed = st.processed := by
  unfold relaxFin
  dsimp only
  split <;> rfl

/-- `relaxOne` never touches the ghost processed list. -/
theorem relaxOne_processed (g : Graph) (s : Vertex) (st : SbSt) (l : Link)
    (st1 : SbSt) (h : relaxOne g s st l = some st1) :
    st1.processed = st.processed := by
  unfold relaxOne at h
  dsimp only at h
  split at h
  · simp at h
  · split at h
    · split at h
      · simp at h
      · injection h with h
        rw [← h, relaxFin_processed]
    · injection h with h
      rw [← h, relaxFin_processed]

/-- `relaxList` never touches the ghost processed list. -/
theorem relaxList_processed (g : Graph) (s : Vertex) :
    ∀ (L : List Link) (st st1 : SbSt),
    relaxList g s st L = some st1 → st1.processed = st.processed := by
  intro L
  induction L with
  | nil =>
    intro st st1 h
    unfold relaxList at h
    injection h with h
    rw [← h]
  | cons l t ih =>
    intro st st1 h
    unfold relaxList at h
    cases ho : relaxOne g s st l with
    | none => rw [ho] at h; simp at h
    | some st' =>
      rw [ho] at h
      dsimp only at h
      rw [ih st' st1 h, relaxOne_processed g s st l st' ho]

/-- The search loop cannot exhaust its fuel: every iteration processes a
vertex never processed before, and at most `node count + 1` distinct
vertices are ever reached. -/
theorem sbLoop_total (g : Graph) (p : SbSearchParams) (s : Vertex)
    (hwf : g.WfIds) :
    ∀ fuel (st : SbSt), SbI g s st →
    g.nodeCnt + 2 ≤ fuel + st.processed.length →
    (sbLoop g p s fuel st).isSome := by
  intro fuel
  induction fuel with
  | zero =>
    intro st hi hbound
    exfalso
    have h1 : st.processed.length ≤ (sbKeys st).length :=
      nodup_subset_length_le _ _ hi.procND hi.keysND hi.procKeys
    have h2 : (sbKeys st).length ≤ g.nodeCnt + 1 :=
      keys_length_le s g.nodeCnt (sbKeys st) hi.keysND hi.rcFree hi.keysWf
    omega
  | succ fuel ih =>
    intro st hi hbound
    rw [sbLoop]
    cases hstack : st.stack with
    | nil => simp
    | cons v rest =>
      dsimp only
      by_cases hmc : st.reached.length > p.max_count
      · rw [if_pos hmc]
        simp
      · rw [if_neg hmc]
        by_cases hout : g.outgoing_edge_cnt v = 0
        · rw [if_pos hout]
          simp
        · rw [if_neg hout]
          cases hrel : relaxList g s { st with stack := rest }
              (g.outgoing_edges v) with
          | none => simp
          | some st1 =>
            dsimp only
            have hmid0 := sbPop_inv g s v rest st hi hstack
            have hmid := relaxList_inv g s v hwf (g.outgoing_edges v) [] _
              (by simp) hmid0 st1 hrel
            have hb := sbAppend_inv g s v st1 hmid hout
            have hproc : st1.processed = st.processed := by
              have := relaxList_processed g s _ _ _ hrel
              simpa using this
            have hbound2 : g.nodeCnt + 2
                ≤ fuel + (st1.processed ++ [v]).length := by
              rw [List.length_append, List.length_singleton, hproc]
              omega
            cases hs2 : st1.stack with
            | nil =>
              rw [hs2] at hb
              dsimp only
              exact ih _ hb hbound2
            | cons t rest2 =>
              cases rest2 with
              | cons t2 rest3 =>
                rw [hs2] at hb
                dsimp only
                exact ih _ hb hbound2
              | nil =>
                cases hnr : st1.nr with
                | succ m =>
                  rw [hs2, hnr] at hb
                  exact ih _ hb hbound2
                | zero =>
                  split
                  · split
                    · simp
                    · split
                      · simp
                      · simp
                  · split
                    · simp
                    · split
                      · simp
                      · simp

/-- Remaining DFS work: one unit per unvisited vertex plus one per link
out of it. -/
def dfsPot (g : Graph) (vis : List Vertex) : Nat :=
  ((g.all_vertices.filter (fun x => ¬ x ∈ vis)).map
    (fun v => 1 + (g.outgoing_edges v).length)).sum

/-- The enumeration of all vertices has no duplicates. -/
theorem all_vertices_nodup (g : Graph) : g.all_vertices.Nodup := by
  unfold Graph.all_vertices
  apply List.nodup_flatMap.mpr
  constructor
  · intro i _
    simp
  · apply List.Pairwise.imp ?_ (List.nodup_range (n := g.nodeCnt))
    intro i j hij
    simp only [List.Disjoint]
    intro x hx hy
    simp only [List.mem_cons, List.not_mem_nil, or_false] at hx hy
    apply hij
    rcases hx with h1 | h1 <;> rcases hy with h2 | h2 <;>
      (rw [h1] at h2; exact congrArg Vertex.nodeId h2)

/-- A vertex with a valid node id is enumerated. -/
theorem mem_all_vertices (g : Graph) (v : Vertex) (h : v.nodeId < g.nodeCnt) :
    v ∈ g.all_vertices := by
  unfold Graph.all_vertices
  apply List.mem_flatMap.mpr
  refine ⟨v.nodeId, List.mem_range.mpr h, ?_⟩
  obtain ⟨i, d⟩ := v
  cases d <;> simp

/-- Removing one satisfied element from a filtered sum. -/
theorem sum_filter_drop {α : Type} [DecidableEq α] (A : List α)
    (hA : A.Nodup) (v : α) (hv : v ∈ A) (p q : α → Bool)
    (hpv : p v = true) (hqv : q v = false)
    (hagree : ∀ x ∈ A, x ≠ v → p x = q x) (f : α → Nat) :
    ((A.filter q).map f).sum + f v = ((A.filter p).map f).sum := by
  induction A with
  | nil => simp at hv
  | cons a t ih =>
    rcases List.nodup_cons.mp hA with ⟨hat, hnt⟩
    rw [List.filter_cons, List.filter_cons]
    by_cases hav : a = v
    · subst hav
      rw [if_neg (by simp [hqv]), if_pos (by simpa using hpv)]
      have hft : t.filter p = t.filter q := by
        apply List.filter_congr
        intro y hy
        exact hagree y (List.mem_cons_of_mem a hy) (fun he => hat (he ▸ hy))
      rw [hft]
      simp only [List.map_cons, List.sum_cons]
      omega
    · rcases List.mem_cons.mp hv with he | hv'
      · exact absurd he.symm hav
      · have hx := hagree a (List.mem_cons_self a t) hav
        have iht := ih hnt hv' (fun y hy hyv =>
          hagree y (List.mem_cons_of_mem a hy) hyv)
        by_cases hpa : p a = true
        · rw [if_pos (by simp [← hx, hpa]), if_pos (by simpa using hpa)]
          simp only [List.map_cons, List.sum_cons]
          omega
        · rw [if_neg (by
            simp only [← hx]
            simpa using hpa), if_neg (by simpa using hpa)]
          exact iht

/-- A pointwise-stronger filter gives a smaller sum. -/
theorem sum_filter_mono {α : Type} (A : List α) (p q : α → Bool)
    (h : ∀ x ∈ A, q x = true → p x = true) (f : α → Nat) :
    ((A.filter q).map f).sum ≤ ((A.filter p).map f).sum := by
  induction A with
  | nil => simp
  | cons a t ih =>
    have iht := ih (fun x hx => h x (List.mem_cons_of_mem a hx))
    rw [List.filter_cons, List.filter_cons]
    by_cases hqa : q a = true
    · rw [if_pos (by simpa using hqa),
        if_pos (by simpa using h a (List.mem_cons_self a t) hqa)]
      simp only [List.map_cons, List.sum_cons]
      omega
    · rw [if_neg (by simpa using hqa)]
      by_cases hpa : p a = true
      · rw [if_pos (by simpa using hpa)]
        simp only [List.map_cons, List.sum_cons]
        omega
      · rw [if_neg (by simpa using hpa)]
        exact iht

/-- Visiting a fresh valid vertex removes its work from the potential. -/
theorem dfsPot_cons (g : Graph) (vis : List Vertex) (v : Vertex)
    (hvall : v ∈ g.all_vertices) (hvnot : v ∉ vis) :
    dfsPot g (vis ++ [v]) + (1 + (g.outgoing_edges v).length)
      = dfsPot g vis := by
  unfold dfsPot
  exact sum_filter_drop g.all_vertices (all_vertices_nodup g) v hvall
    (fun x => ¬ x ∈ vis) (fun x => ¬ x ∈ vis ++ [v])
    (by simpa using hvnot) (by simp)
    (fun x _ hxv => by
      simp only [decide_eq_decide, List.mem_append, List.mem_singleton]
      constructor
      · intro hx
        exact fun hc => hx (hc.resolve_right hxv)
      · intro hx hc
        exact hx (.inl hc))
    (fun v => 1 + (g.outgoing_edges v).length)

/-- The potential only shrinks as the visited set grows. -/
theorem dfsPot_mono (g : Graph) (vis vis' : List Vertex)
    (h : ∀ x ∈ vis, x ∈ vis') : dfsPot g vis' ≤ dfsPot g vis := by
  unfold dfsPot
  apply sum_filter_mono
  intro x _ hx
  simp only [decide_eq_true_eq] at hx ⊢
  exact fun hc => hx (h x hc)

/-- The DFS cannot exhaust its fuel when it exceeds the potential: every
visit consumes a fresh valid vertex and every link is examined once per
expansion of its source. -/
theorem dfsGo_total (g : Graph) (thr : Nat) (hwf : g.WfIds) :
    ∀ fuel (arg : Vertex ⊕ List Link) (vis out : List Vertex),
    (∀ v, arg = .inl v → v ∈ g.all_vertices ∧ v ∉ vis ∧
      1 + dfsPot g vis ≤ fuel) →
    (∀ L, arg = .inr L → (∀ l ∈ L, l ∈ g.links) ∧
      1 + L.length + dfsPot g vis ≤ fuel) →
    (dfsGo g thr fuel arg (vis, out)).isSome := by
  intro fuel
  induction fuel with
  | zero =>
    intro arg vis out h1 h2
    exfalso
    cases arg with
    | inl v =>
      have := (h1 v rfl).2.2
      omega
    | inr L =>
      have := (h2 L rfl).2
      omega
  | succ fuel ih =>
    intro arg vis out h1 h2
    cases arg with
    | inl v =>
      obtain ⟨hvall, hvnot, hle⟩ := h1 v rfl
      rw [dfsGo]
      dsimp only
      split
      · simp
      · apply ih (.inr (g.outgoing_edges v)) (vis ++ [v]) out
        · intro v' hv'
          simp at hv'
        · intro L hL
          injection hL with hL
          refine ⟨?_, ?_⟩
          · rw [← hL]
            exact fun l hl => outgoing_mem_links g v l hl
          · have hdrop := dfsPot_cons g vis v hvall hvnot
            rw [← hL]
            omega
    | inr L =>
      obtain ⟨hLl, hle⟩ := h2 L rfl
      cases L with
      | nil =>
        rw [dfsGo]
        simp
      | cons l t =>
        rw [dfsGo]
        by_cases hmem : l.endV ∈ vis
        · rw [if_pos hmem]
          apply ih (.inr t) vis out
          · intro v' hv'
            simp at hv'
          · intro L' hL'
            injection hL' with hL'
            rw [← hL']
            refine ⟨fun l' hl' => hLl l' (List.mem_cons_of_mem l hl'), ?_⟩
            simp only [List.length_cons] at hle
            omega
        · rw [if_neg hmem]
          have hwend : l.endV ∈ g.all_vertices :=
            mem_all_vertices g l.endV
              (hwf l (hLl l (List.mem_cons_self l t))).2
          have hchild := ih (.inl l.endV) vis out
            (fun v' hv' => by
              injection hv' with hv'
              rw [← hv']
              refine ⟨hwend, hmem, ?_⟩
              simp only [List.length_cons] at hle
              omega)
            (fun L' hL' => by simp at hL')
          cases hres : dfsGo g thr fuel (.inl l.endV) (vis, out) with
          | none => rw [hres] at hchild; simp at hchild
          | some st1 =>
            dsimp only
            have hmono := (dfsGo_facts g thr fuel (.inl l.endV)
              (vis, out) st1 hres).1
            have hcall := ih (.inr t) st1.1 st1.2
              (fun v' hv' => by simp at hv')
              (fun L' hL' => by
                injection hL' with hL'
                rw [← hL']
                refine ⟨fun l' hl' => hLl l' (List.mem_cons_of_mem l hl'), ?_⟩
                have hm := dfsPot_mono g vis st1.1 hmono
                simp only [List.length_cons] at hle
                omega)
            simpa using hcall

/-- Well-formedness consumed from the external graph module: the stored
link list is closed under reverse complement (both twins are stored). -/
def Graph.WfRC (g : Graph) : Prop := ∀ l ∈ g.links, l.rc ∈ g.links

/-- A vertex list chained by a link list: consecutive vertices are the
endpoints of the corresponding link.  This is the shape invariant of
`HaploPath` maintained by the source's `append` asserts. -/
inductive Chained : List Vertex → List Link → Prop where
  | single (v : Vertex) : Chained [v] []
  | cons (v : Vertex) (l : Link) (vs : List Vertex) (ls : List Link)
      (h1 : l.startV = v) (h2 : Chained vs ls)
      (h3 : vs.head? = some l.endV) : Chained (v :: vs) (l :: ls)

/-- A chained vertex list is non-empty. -/
theorem Chained.ne_nil {vs : List Vertex} {ls : List Link}
    (h : Chained vs ls) : vs ≠ [] := by
  cases h <;> simp

/-- A chained pair has one more vertex than links. -/
theorem Chained.length_eq {vs : List Vertex} {ls : List Link}
    (h : Chained vs ls) : vs.length = ls.length + 1 := by
  induction h with
  | single v => simp
  | cons v l vs ls h1 h2 h3 ih => simp [ih]

/-- The vertices after the head are the link ends, in order. -/
theorem Chained.decomp {vs : List Vertex} {ls : List Link}
    (h : Chained vs ls) : vs.tail = ls.map Link.endV := by
  induction h with
  | single v => simp
  | cons v l vs ls h1 h2 h3 ih =>
    simp only [List.tail_cons, List.map_cons]
    cases h2 with
    | single w =>
      simp at h3
      rw [h3]
      simp
    | cons w l' vs' ls' g1 g2 g3 =>
      simp at h3
      rw [h3] at ih ⊢
      simp at ih
      simp [ih]

/-- `getLast?` of a cons with non-empty tail. -/
theorem getLast?_cons_ne {α : Type} (a : α) (t : List α) (h : t ≠ []) :
    (a :: t).getLast? = t.getLast? := by
  cases t with
  | nil => exact absurd rfl h
  | cons b t2 => simp [List.getLast?_cons_cons]

/-- `head?` of a take of a positive count. -/
theorem head?_take_succ {α : Type} (l : List α) (n : Nat) :
    (l.take (n + 1)).head? = l.head? := by
  cases l <;> simp

/-- Extending a chain by a link starting at its last vertex. -/
theorem Chained.append_link {vs : List Vertex} {ls : List Link}
    (h : Chained vs ls) (l : Link) (hlast : vs.getLast? = some l.startV) :
    Chained (vs ++ [l.endV]) (ls ++ [l]) := by
  induction h with
  | single v =>
    simp at hlast
    exact Chained.cons v l [l.endV] [] (by rw [hlast]) (Chained.single _)
      (by simp)
  | cons v l0 vs0 ls0 h1 h2 h3 ih =>
    have hlast' : vs0.getLast? = some l.startV := by
      rwa [getLast?_cons_ne v vs0 h2.ne_nil] at hlast
    have hch := ih hlast'
    refine Chained.cons v l0 (vs0 ++ [l.endV]) (ls0 ++ [l]) h1 hch ?_
    rw [List.head?_append_of_ne_nil]
    · exact h3
    · exact h2.ne_nil
/-- A positive-length prefix of a chain is a chain. -/
theorem Chained.take_chain {vs : List Vertex} {ls : List Link}
    (h : Chained vs ls) : ∀ k, Chained (vs.take (k + 1)) (ls.take k) := by
  induction h with
  | single v => intro k; simp [Chained.single]
  | cons v l vs0 ls0 h1 h2 h3 ih =>
    intro k
    cases k with
    | zero =>
      simp [Chained.single]
    | succ k =>
      rw [List.take_succ_cons, List.take_succ_cons]
      refine Chained.cons v l (vs0.take (k + 1)) (ls0.take k) h1 (ih k) ?_
      rw [head?_take_succ]
      exact h3

/-- The reverse-complement of a chain is a chain. -/
theorem Chained.reverse_rc {vs : List Vertex} {ls : List Link}
    (h : Chained vs ls) :
    Chained (vs.reverse.map Vertex.rc) (ls.reverse.map Link.rc) := by
  induction h with
  | single v => simpa using Chained.single v.rc
  | cons v l vs0 ls0 h1 h2 h3 ih =>
    simp only [List.reverse_cons, List.map_append, List.map_cons,
      List.map_nil]
    have hlast : (vs0.reverse.map Vertex.rc).getLast? = some l.rc.startV := by
      rw [List.getLast?_map, List.getLast?_reverse, h3]
      rfl
    have := ih.append_link l.rc hlast
    have hend : l.rc.endV = v.rc := by
      unfold Link.rc
      rw [h1]
    rw [hend] at this
    exact this

/-- The structural invariant of a haplo path: chained storages, links
drawn from the graph, valid node ids. -/
def HPInv (g : Graph) (p : HaploPath) : Prop :=
  Chained p.v_storage p.l_storage
    ∧ (∀ l ∈ p.l_storage, l ∈ g.links)
    ∧ ∀ x ∈ p.v_storage, x.nodeId < g.nodeCnt

/-- `end_v` is the last stored vertex. -/
theorem end_v_getLast? (p : HaploPath) (h : p.v_storage ≠ []) :
    p.v_storage.getLast? = some p.end_v := by
  unfold HaploPath.end_v
  rw [List.getLastD_eq_getLast?]
  cases hl : p.v_storage.getLast? with
  | none => exact absurd (List.getLast?_eq_none_iff.mp hl) h
  | some x => rfl

/-- `append` moves the end to the link's end. -/
theorem append_end_v (p : HaploPath) (l : Link) :
    (p.append l).end_v = l.endV := by
  unfold HaploPath.append HaploPath.end_v
  simp

/-- A single-vertex path with a valid id satisfies the invariant. -/
theorem hp_new (g : Graph) (v : Vertex) (h : v.nodeId < g.nodeCnt) :
    HPInv g (HaploPath.new v) := by
  refine ⟨Chained.single v, by simp [HaploPath.new], ?_⟩
  intro x hx
  simp [HaploPath.new] at hx
  rw [hx]
  exact h

/-- Appending a graph link rooted at the end preserves the invariant. -/
theorem hp_append (g : Graph) (hwf : g.WfIds) (p : HaploPath) (l : Link)
    (hp : HPInv g p) (hl : l ∈ g.links) (hs : l.startV = p.end_v) :
    HPInv g (p.append l) := by
  obtain ⟨hc, hll, hvv⟩ := hp
  refine ⟨?_, ?_, ?_⟩
  · unfold HaploPath.append
    dsimp only
    exact hc.append_link l (by rw [hs]; exact end_v_getLast? p hc.ne_nil)
  · intro l' hl'
    unfold HaploPath.append at hl'
    dsimp only at hl'
    rcases List.mem_append.mp hl' with h1 | h1
    · exact hll l' h1
    · simp at h1
      rw [h1]
      exact hl
  · intro x hx
    unfold HaploPath.append at hx
    dsimp only at hx
    rcases List.mem_append.mp hx with h1 | h1
    · exact hvv x h1
    · simp at h1
      rw [h1]
      exact (hwf l hl).2

/-- Trimming preserves the invariant. -/
theorem hp_trim (g : Graph) (p : HaploPath) (v : Vertex) (p4 : HaploPath)
    (h : p.trim_to v = some p4) (hp : HPInv g p) : HPInv g p4 := by
  obtain ⟨hc, hll, hvv⟩ := hp
  unfold HaploPath.trim_to at h
  split at h
  case isFalse => exact absurd h (by simp)
  case isTrue hmem =>
    injection h with h
    obtain ⟨hne, _, _⟩ := dropWhile_rev_facts p.v_storage v hmem
    obtain ⟨pre, hpre⟩ := List.dropWhile_suffix
      (l := p.v_storage.reverse) (fun x : Vertex => (¬ x = v : Bool))
    have hsplit : p.v_storage
        = (p.v_storage.reverse.dropWhile (fun x => ¬ x = v)).reverse
          ++ pre.reverse := by
      calc p.v_storage = p.v_storage.reverse.reverse := by simp
        _ = (pre ++ p.v_storage.reverse.dropWhile (fun x => ¬ x = v)).reverse
            := by rw [hpre]
        _ = _ := by rw [List.reverse_append]
    set vs := (p.v_storage.reverse.dropWhile (fun x => ¬ x = v)).reverse
      with hvs
    have htake : vs = p.v_storage.take vs.length := by
      rw [hsplit, List.take_left]
    have hlen1 : 1 ≤ vs.length := by
      cases hv : vs with
      | nil => exact absurd hv hne
      | cons a t => simp
    refine ⟨?_, ?_, ?_⟩
    · rw [← h]
      dsimp only
      have h2 := hc.take_chain (vs.length - 1)
      rw [show vs.length - 1 + 1 = vs.length from by omega, ← htake] at h2
      exact h2
    · intro l' hl'
      rw [← h] at hl'
      dsimp only at hl'
      exact hll l' (List.mem_of_mem_take hl')
    · intro x hx
      rw [← h] at hx
      dsimp only at hx
      exact hvv x (by rw [hsplit]; exact List.mem_append_left _ hx)

/-- Reverse complement preserves the invariant on an rc-closed graph. -/
theorem hp_rc (g : Graph) (hrc : g.WfRC) (p : HaploPath) (hp : HPInv g p) :
    HPInv g p.reverse_complement := by
  obtain ⟨hc, hll, hvv⟩ := hp
  refine ⟨hc.reverse_rc, ?_, ?_⟩
  · intro l hl
    unfold HaploPath.reverse_complement at hl
    dsimp only at hl
    rcases List.mem_map.mp hl with ⟨l0, hl0, he⟩
    rw [← he]
    exact hrc l0 (hll l0 (List.mem_reverse.mp hl0))
  · intro x hx
    unfold HaploPath.reverse_complement at hx
    dsimp only at hx
    rcases List.mem_map.mp hx with ⟨x0, hx0, he⟩
    rw [← he]
    exact hvv x0 (List.mem_reverse.mp hx0)

/-- Folding a chain of appends onto a path whose end matches the chain
head extends the invariant and concatenates the vertex storages. -/
theorem hp_merge (g : Graph) (hwf : g.WfIds) :
    ∀ (ls : List Link) (tl : List Vertex) (p : HaploPath),
    HPInv g p → Chained (p.end_v :: tl) ls → (∀ l ∈ ls, l ∈ g.links) →
    HPInv g (ls.foldl HaploPath.append p)
      ∧ (ls.foldl HaploPath.append p).v_storage = p.v_storage ++ tl := by
  intro ls
  induction ls with
  | nil =>
    intro tl p hp hch _
    cases hch with
    | single => simp [hp]
  | cons l ls' ih =>
    intro tl p hp hch hmem
    cases hch with
    | cons _ _ _ _ h1 h2 h3 =>
      cases tl with
      | nil => simp at h3
      | cons w tl' =>
        simp only [List.head?_cons, Option.some.injEq] at h3
        have hp' : HPInv g (p.append l) :=
          hp_append g hwf p l hp (hmem l (List.mem_cons_self l ls')) h1
        have hch' : Chained ((p.append l).end_v :: tl') ls' := by
          rw [append_end_v, ← h3]
          exact h2
        have hrec := ih tl' (p.append l) hp' hch'
          (fun l' hl' => hmem l' (List.mem_cons_of_mem l hl'))
        rw [List.foldl_cons]
        refine ⟨hrec.1, ?_⟩
        rw [hrec.2]
        unfold HaploPath.append
        dsimp only
        rw [List.append_assoc]
        simp [h3]

/-- Everything the DFS records is a valid vertex, and the long-extension
list is drawn from the visited list. -/
theorem dfsGo_valid (g : Graph) (thr : Nat) (hwf : g.WfIds) :
    ∀ fuel (arg : Vertex ⊕ List Link) (st out : List Vertex × List Vertex),
    dfsGo g thr fuel arg st = some out →
    (∀ x ∈ st.1, x.nodeId < g.nodeCnt) → (∀ x ∈ st.2, x ∈ st.1) →
    (∀ v, arg = .inl v → v.nodeId < g.nodeCnt) →
    (∀ L, arg = .inr L → ∀ l ∈ L, l ∈ g.links) →
    (∀ x ∈ out.1, x.nodeId < g.nodeCnt) ∧ (∀ x ∈ out.2, x ∈ out.1) := by
  intro fuel
  induction fuel with
  | zero => intro arg st out h _ _ _ _; simp [dfsGo] at h
  | succ fuel ih =>
    intro arg st out h hv1 hv2 hinl hinr
    cases arg with
    | inl v =>
      have hvn : v.nodeId < g.nodeCnt := hinl v rfl
      have hvis : ∀ x ∈ st.1 ++ [v], x.nodeId < g.nodeCnt := by
        intro x hx
        rcases List.mem_append.mp hx with h1 | h1
        · exact hv1 x h1
        · simp at h1
          rw [h1]
          exact hvn
      rw [dfsGo] at h
      split at h
      · injection h with h
        subst h
        refine ⟨hvis, ?_⟩
        intro x hx
        rcases List.mem_append.mp hx with h1 | h1
        · exact List.mem_append_left _ (hv2 x h1)
        · simp at h1
          rw [h1]
          exact List.mem_append_right _ (by simp)
      · exact ih (.inr (g.outgoing_edges v)) (st.1 ++ [v], st.2) out h
          hvis (fun x hx => List.mem_append_left _ (hv2 x hx))
          (fun v' hv' => by simp at hv')
          (fun L hL => by
            injection hL with hL
            rw [← hL]
            exact fun l hl => outgoing_mem_links g v l hl)
    | inr L =>
      cases L with
      | nil =>
        rw [dfsGo] at h
        injection h with h
        subst h
        exact ⟨hv1, hv2⟩
      | cons l t =>
        have hLl := hinr (l :: t) rfl
        rw [dfsGo] at h
        split at h
        · exact ih (.inr t) st out h hv1 hv2
            (fun v' hv' => by simp at hv')
            (fun L' hL' => by
              injection hL' with hL'
              rw [← hL']
              exact fun l' hl' => hLl l' (List.mem_cons_of_mem l hl'))
        · cases hres : dfsGo g thr fuel (.inl l.endV) st with
          | none => rw [hres] at h; simp at h
          | some st1 =>
            rw [hres] at h
            dsimp only at h
            have hchild := ih (.inl l.endV) st st1 hres hv1 hv2
              (fun v' hv' => by
                injection hv' with hv'
                rw [← hv']
                exact (hwf l (hLl l (List.mem_cons_self l t))).2)
              (fun L' hL' => by simp at hL')
            exact ih (.inr t) st1 out h hchild.1 hchild.2
              (fun v' hv' => by simp at hv')
              (fun L' hL' => by
                injection hL' with hL'
                rw [← hL']
                exact fun l' hl' => hLl l' (List.mem_cons_of_mem l hl'))

/-- The scan returns its accumulator or a scanned link. -/
theorem groupExtScan_mem (a : AssignmentStorage) (group : TrioGroup) :
    ∀ (L : List Link) (acc : Option Link) (r : Link),
    groupExtScan a group L acc = some r → acc = some r ∨ r ∈ L := by
  intro L
  induction L with
  | nil =>
    intro acc r h
    unfold groupExtScan at h
    exact .inl h
  | cons l t ih =>
    intro acc r h
    unfold groupExtScan at h
    split at h
    · split at h
      · cases acc with
        | none =>
          rcases ih (some l) r h with h1 | h1
          · injection h1 with h1
            exact .inr (h1 ▸ List.mem_cons_self l t)
          · exact .inr (List.mem_cons_of_mem l h1)
        | some x => simp at h
      · rcases ih acc r h with h1 | h1
        · exact .inl h1
        · exact .inr (List.mem_cons_of_mem l h1)
    · simp at h

/-- A group extension is an outgoing edge of the queried vertex. -/
theorem group_extension_mem (g : Graph) (a : AssignmentStorage) (v : Vertex)
    (group : TrioGroup) (l : Link)
    (h : group_extension g a v group = some l) : l ∈ g.outgoing_edges v := by
  unfold group_extension at h
  cases hu : unambiguous_extension g v with
  | some l0 =>
    rw [hu] at h
    dsimp only at h
    split at h
    · injection h with h
      rw [← h]
      unfold unambiguous_extension at hu
      cases ho : g.outgoing_edges v with
      | nil => rw [ho] at hu; simp at hu
      | cons x t =>
        cases t with
        | nil =>
          rw [ho] at hu
          injection hu with hu
          rw [← hu]
          exact List.mem_cons_self x []
        | cons y t2 => rw [ho] at hu; simp at hu
    · rcases groupExtScan_mem a group _ none l h with h1 | h1
      · simp at h1
      · exact h1
  | none =>
    rw [hu] at h
    rcases groupExtScan_mem a group _ none l h with h1 | h1
    · simp at h1
    · exact h1

/-- The growth loop terminates, preserves the path invariant, only
appends, and any positive step count certifies a fresh node id. -/
theorem growForwardAux_main (g : Graph) (a : AssignmentStorage)
    (used : UsedMap) (thr : Nat) (group : TrioGroup) (ca : Bool)
    (hwf : g.WfIds) :
    ∀ fuel (path : HaploPath) (steps : Nat),
    HPInv g path →
    g.nodeCnt + 1 ≤ fuel + (path.v_storage.map Vertex.nodeId).toFinset.card →
    ∃ p s, growForwardAux g a used thr group ca fuel path path.end_v steps
        = some (p, s)
      ∧ HPInv g p
      ∧ (∃ ext, p.v_storage = path.v_storage ++ ext)
      ∧ (steps < s → ∃ i ∈ p.v_storage.map Vertex.nodeId,
          i ∉ path.v_storage.map Vertex.nodeId) := by
  intro fuel
  induction fuel with
  | zero =>
    intro path steps hp hcard
    exfalso
    have hsub : (path.v_storage.map Vertex.nodeId).toFinset
        ⊆ Finset.range g.nodeCnt := by
      intro i hi
      rw [List.mem_toFinset] at hi
      rcases List.mem_map.mp hi with ⟨x, hx, hxe⟩
      exact Finset.mem_range.mpr (hxe ▸ hp.2.2 x hx)
    have := Finset.card_le_card hsub
    rw [Finset.card_range] at this
    omega
  | succ fuel ih =>
    intro path steps hp hcard
    rw [growForwardAux]
    cases hext : group_extension g a path.end_v group with
    | none =>
      exact ⟨path, steps, rfl, hp, ⟨[], by simp⟩,
        fun hlt => absurd hlt (by omega)⟩
    | some l =>
      dsimp only
      by_cases hcond : path.in_path l.endV.nodeId
          ∨ (ca ∧ ¬ check_available used g thr l.endV.nodeId group)
      · rw [if_pos hcond]
        exact ⟨path, steps, rfl, hp, ⟨[], by simp⟩,
          fun hlt => absurd hlt (by omega)⟩
      · rw [if_neg hcond]
        have hlout := group_extension_mem g a path.end_v group l hext
        have hnp : ¬ path.in_path l.endV.nodeId := fun hc' => hcond (.inl hc')
        have hfresh : l.endV.nodeId ∉ path.v_storage.map Vertex.nodeId := by
          intro hm
          apply hnp
          unfold HaploPath.in_path
          rw [List.any_eq_true]
          rcases List.mem_map.mp hm with ⟨x, hx, hxe⟩
          exact ⟨x, hx, by simp [hxe]⟩
        have hp2 : HPInv g (path.append l) :=
          hp_append g hwf path l hp (outgoing_mem_links _ _ _ hlout)
            (outgoing_start _ _ _ hlout)
        have hins : ((path.append l).v_storage.map Vertex.nodeId).toFinset
            = insert l.endV.nodeId
              (path.v_storage.map Vertex.nodeId).toFinset := by
          unfold HaploPath.append
          dsimp only
          rw [List.map_append, List.toFinset_append]
          simp [Finset.union_comm, Finset.insert_eq]
        have hcard2 : g.nodeCnt + 1 ≤ fuel
            + ((path.append l).v_storage.map Vertex.nodeId).toFinset.card := by
          rw [hins, Finset.card_insert_of_not_mem
            (fun hm => hfresh (List.mem_toFinset.mp hm))]
          omega
        obtain ⟨p, s, heq, hp', ⟨ext, hext'⟩, _⟩ :=
          ih (path.append l) (steps + 1) hp2 hcard2
        rw [append_end_v] at heq
        refine ⟨p, s, heq, hp', ⟨[l.endV] ++ ext, ?_⟩, ?_⟩
        · rw [hext']
          unfold HaploPath.append
          dsimp only
          rw [List.append_assoc]
        · intro _
          refine ⟨l.endV.nodeId, ?_, hfresh⟩
          rw [hext']
          unfold HaploPath.append
          dsimp only
          rw [List.map_append, List.map_append]
          exact List.mem_append_left _ (List.mem_append_right _ (by simp))

/-- Distinct sources own disjoint sub-lists of any link list. -/
theorem count_by_start_le (w : Unit) :
    ∀ (L : List Link) (V : List Vertex), V.Nodup →
    (V.map (fun v => (L.filter (fun l => l.startV = v)).length)).sum
      ≤ L.length := by
  intro L
  induction L with
  | nil => intro V _; simp
  | cons l t ih =>
    intro V hV
    have hstep : ∀ u : Vertex,
        ((l :: t).filter (fun l' => l'.startV = u)).length
        = (if l.startV = u then 1 else 0)
          + (t.filter (fun l' => l'.startV = u)).length := by
      intro u
      rw [List.filter_cons]
      by_cases h : l.startV = u
      · simp [h]
        omega
      · simp [h]
    calc (V.map (fun u =>
          ((l :: t).filter (fun l' => l'.startV = u)).length)).sum
        = (V.map (fun u => (if l.startV = u then 1 else 0)
            + (t.filter (fun l' => l'.startV = u)).length)).sum := by
          congr 1
          exact List.map_congr_left (fun u _ => hstep u)
      _ = (V.map (fun u => if l.startV = u then 1 else 0)).sum
          + (V.map (fun u =>
            (t.filter (fun l' => l'.startV = u)).length)).sum :=
          sum_map_add_split V _ _
      _ ≤ 1 + t.length := by
          have h1 := sum_indicator_le_one V l.startV hV
          have h2 := ih V hV
          omega
      _ = (l :: t).length := by
          simp
          omega

/-- There are twice as many vertices as nodes. -/
theorem all_vertices_length (g : Graph) :
    g.all_vertices.length = 2 * g.nodeCnt := by
  unfold Graph.all_vertices
  rw [List.length_flatMap]
  induction g.nodeCnt with
  | zero => simp
  | succ n ihn =>
    rw [List.range_succ, List.map_append, List.sum_append, ihn]
    simp
    omega

/-- The initial DFS potential is bounded by the fuel budget. -/
theorem dfsPot_nil_le (g : Graph) :
    dfsPot g [] ≤ 2 * g.nodeCnt + g.links.length := by
  unfold dfsPot
  have hfilter : g.all_vertices.filter (fun x => ¬ x ∈ ([] : List Vertex))
      = g.all_vertices := by
    simp
  rw [hfilter, sum_map_add_split g.all_vertices (fun _ => 1)
    (fun v => (g.outgoing_edges v).length)]
  have h1 : (g.all_vertices.map (fun _ => 1)).sum = g.all_vertices.length := by
    induction g.all_vertices with
    | nil => simp
    | cons a t iht =>
      simp [iht]
      omega
  have h2 : (g.all_vertices.map
      (fun v => (g.outgoing_edges v).length)).sum ≤ g.links.length := by
    have := count_by_start_le () g.links g.all_vertices (all_vertices_nodup g)
    calc (g.all_vertices.map
          (fun v => (g.outgoing_edges v).length)).sum
        = (g.all_vertices.map (fun v =>
            (g.links.filter (fun l => l.startV = v)).length)).sum := by
          congr 1
      _ ≤ g.links.length := this
  rw [h1, all_vertices_length]
  omega

/-- `bounded_dfs` always returns within its fuel on a valid root. -/
theorem bounded_dfs_total (g : Graph) (thr : Nat) (hwf : g.WfIds)
    (v : Vertex) (hv : v.nodeId < g.nodeCnt) :
    (bounded_dfs g thr v).isSome := by
  have h := dfsGo_total g thr hwf (dfsFuel g) (.inl v) [] []
    (fun v' hv' => by
      injection hv' with hv'
      rw [← hv']
      refine ⟨mem_all_vertices g v hv, by simp, ?_⟩
      have := dfsPot_nil_le g
      unfold dfsFuel
      omega)
    (fun L hL => by simp at hL)
  unfold bounded_dfs inner_dfs
  cases hres : dfsGo g thr (dfsFuel g) (.inl v) ([], []) with
  | none => rw [hres] at h; simp at h
  | some st => simp

/-- Insertion-sort membership. -/
theorem insertByCovDesc_mem (g : Graph) (x : Link) :
    ∀ (L : List Link) (z : Link), z ∈ insertByCovDesc g x L →
    z = x ∨ z ∈ L := by
  intro L
  induction L with
  | nil =>
    intro z hz
    simp [insertByCovDesc] at hz
    exact .inl hz
  | cons y t ih =>
    intro z hz
    unfold insertByCovDesc at hz
    split at hz
    · rcases List.mem_cons.mp hz with h1 | h1
      · exact .inr (h1 ▸ List.mem_cons_self y t)
      · rcases ih z h1 with h2 | h2
        · exact .inl h2
        · exact .inr (List.mem_cons_of_mem y h2)
    · rcases List.mem_cons.mp hz with h1 | h1
      · exact .inl h1
      · exact .inr h1

/-- Sorting by coverage only permutes. -/
theorem sortByCovDesc_mem (g : Graph) :
    ∀ (ls : List Link) (z : Link), z ∈ sortByCovDesc g ls → z ∈ ls := by
  intro ls
  induction ls with
  | nil => intro z hz; simp [sortByCovDesc] at hz
  | cons l t ih =>
    intro z hz
    unfold sortByCovDesc at hz
    rw [List.foldr_cons] at hz
    rcases insertByCovDesc_mem g l _ z hz with h1 | h1
    · exact h1 ▸ List.mem_cons_self l t
    · exact List.mem_cons_of_mem l (ih z h1)

/-- `try_link` preserves the path invariant. -/
theorem hp_try_link (g : Graph) (hwf : g.WfIds) (p : HaploPath) (v : Vertex)
    (hp : HPInv g p) : HPInv g (try_link g p v) := by
  unfold try_link
  cases hf : (g.outgoing_edges p.end_v).find? (fun l => l.endV = v) with
  | none => exact hp
  | some l =>
    have hmem := List.mem_of_find?_eq_some hf
    exact hp_append g hwf p l hp (outgoing_mem_links _ _ _ hmem)
      (outgoing_start _ _ _ hmem)

/-- `try_link_with_vertex` preserves the path invariant. -/
theorem hp_try_link_with_vertex (g : Graph) (hwf : g.WfIds)
    (a : AssignmentStorage) (thr : Nat) (p : HaploPath) (v : Vertex)
    (group : TrioGroup) (hp : HPInv g p) :
    HPInv g (try_link_with_vertex g a thr p v group) := by
  unfold try_link_with_vertex
  dsimp only
  cases hf : (sortByCovDesc g (g.outgoing_edges p.end_v)).find? (fun l =>
      ¬ p.in_path l.endV.nodeId
        ∧ link_vertex_check g a thr l.endV group
        ∧ (g.connector l.endV v).isSome) with
  | none => exact hp
  | some l =>
    dsimp only
    have hmem := sortByCovDesc_mem g _ l (List.mem_of_find?_eq_some hf)
    have hp1 : HPInv g (p.append l) :=
      hp_append g hwf p l hp (outgoing_mem_links _ _ _ hmem)
        (outgoing_start _ _ _ hmem)
    cases hc : g.connector l.endV v with
    | none => exact hp
    | some l2 =>
      have hmem2 : l2 ∈ g.outgoing_edges l.endV :=
        List.mem_of_find?_eq_some hc
      exact hp_append g hwf (p.append l) l2 hp1
        (outgoing_mem_links _ _ _ hmem2)
        (by rw [append_end_v]; exact outgoing_start _ _ _ hmem2)

/-- A fresh path ends at its only vertex. -/
theorem new_end_v (v : Vertex) : (HaploPath.new v).end_v = v := rfl

/-- `find_jump_ahead` terminates on a valid query, and a returned jump is
a well-formed path headed by the query vertex. -/
theorem find_jump_ahead_main (g : Graph) (a : AssignmentStorage)
    (used : UsedMap) (thr : Nat) (v : Vertex) (group : TrioGroup)
    (hwf : g.WfIds) (hrc : g.WfRC) (hv : v.nodeId < g.nodeCnt) :
    ∃ r, find_jump_ahead g a used thr v group = some r
      ∧ ∀ jump, r = some jump →
        HPInv g jump ∧ jump.v_storage.head? = some v := by
  unfold find_jump_ahead
  cases hb : bounded_dfs g thr v with
  | none =>
    have := bounded_dfs_total g thr hwf v hv
    rw [hb] at this
    simp at this
  | some long_ahead =>
    dsimp only
    split
    case isFalse => exact ⟨none, rfl, fun jump hj => by simp at hj⟩
    case isTrue hall =>
      cases hfil : long_ahead.filter (fun x => a.get x.nodeId = some group) with
      | nil => exact ⟨none, rfl, fun jump hj => by simp at hj⟩
      | cons t rest =>
        cases rest with
        | cons t2 rest2 => exact ⟨none, rfl, fun jump hj => by simp at hj⟩
        | nil =>
          have htmem : t ∈ long_ahead := by
            have : t ∈ long_ahead.filter
                (fun x => a.get x.nodeId = some group) := by
              rw [hfil]
              exact List.mem_cons_self t []
            exact List.mem_of_mem_filter this
          have htval : t.nodeId < g.nodeCnt := by
            unfold bounded_dfs at hb
            cases hres : inner_dfs g thr (dfsFuel g) v ([], []) with
            | none => rw [hres] at hb; simp at hb
            | some st =>
              rw [hres] at hb
              simp at hb
              have hvalid := dfsGo_valid g thr hwf (dfsFuel g) (.inl v)
                ([], []) st hres (by simp) (by simp)
                (fun v' hv' => by injection hv' with hv'; rw [← hv']; exact hv)
                (fun L hL => by simp at hL)
              exact hvalid.1 t (hvalid.2 t (by rw [hb]; exact htmem))
          have hpnew : HPInv g (HaploPath.new t.rc) :=
            hp_new g t.rc (by
              show t.rc.nodeId < g.nodeCnt
              unfold Vertex.rc
              exact htval)
          obtain ⟨p1, s1, heq, hp1, _, _⟩ :=
            growForwardAux_main g a used thr group false hwf
              (g.nodeCnt + 1) (HaploPath.new t.rc) 0 hpnew (by omega)
          dsimp only
          unfold grow_forward
          rw [heq]
          dsimp only
          have hp2 : HPInv g (if ¬ p1.in_path v.nodeId then
              try_link_with_vertex g a thr p1 v.rc group else p1) := by
            split
            · exact hp_try_link_with_vertex g hwf a thr p1 v.rc group hp1
            · exact hp1
          set p2 := if ¬ p1.in_path v.nodeId then
              try_link_with_vertex g a thr p1 v.rc group else p1 with hp2def
          have hp3 : HPInv g (if ¬ p2.in_path v.nodeId then
              try_link g p2 v.rc else p2) := by
            split
            · exact hp_try_link g hwf p2 v.rc hp2
            · exact hp2
          set p3 := if ¬ p2.in_path v.nodeId then try_link g p2 v.rc else p2
            with hp3def
          cases htr : p3.trim_to v.rc with
          | none => exact ⟨none, rfl, fun jump hj => by simp at hj⟩
          | some p4 =>
            refine ⟨some p4.reverse_complement, rfl, ?_⟩
            intro jump hj
            injection hj with hj
            rw [← hj]
            refine ⟨hp_rc g hrc p4 (hp_trim g p3 v.rc p4 htr hp3), ?_⟩
            have hlast := (trim_to_facts p3 v.rc p4 htr).2.2
            unfold HaploPath.reverse_complement
            dsimp only
            rw [List.head?_map, List.head?_reverse, hlast]
            simp [Vertex.rc_rc]

/-- Membership reading of `in_path`. -/
theorem in_path_iff (p : HaploPath) (i : Nat) :
    p.in_path i = true ↔ i ∈ p.v_storage.map Vertex.nodeId := by
  unfold HaploPath.in_path
  rw [List.any_eq_true]
  constructor
  · rintro ⟨x, hx, he⟩
    simp at he
    exact List.mem_map.mpr ⟨x, hx, he⟩
  · intro hm
    rcases List.mem_map.mp hm with ⟨x, hx, he⟩
    exact ⟨x, hx, by simp [he]⟩

/-- The end vertex of an invariant path has a valid id. -/
theorem end_v_valid (g : Graph) (p : HaploPath) (hp : HPInv g p) :
    p.end_v.nodeId < g.nodeCnt := by
  have hne := hp.1.ne_nil
  have hl := end_v_getLast? p hne
  have hmem : p.end_v ∈ p.v_storage := by
    obtain ⟨h, he⟩ := List.mem_getLast?_eq_getLast (l := p.v_storage)
      (x := p.end_v) (by rw [Option.mem_def]; exact hl)
    rw [he]
    exact List.getLast_mem h
  exact hp.2.2 _ hmem

/-- A valid path uses at most `node count` distinct ids. -/
theorem idcard_le (g : Graph) (p : HaploPath) (hp : HPInv g p) :
    (p.v_storage.map Vertex.nodeId).toFinset.card ≤ g.nodeCnt := by
  have hsub : (p.v_storage.map Vertex.nodeId).toFinset
      ⊆ Finset.range g.nodeCnt := by
    intro i hi
    rw [List.mem_toFinset] at hi
    rcases List.mem_map.mp hi with ⟨x, hx, hxe⟩
    exact Finset.mem_range.mpr (hxe ▸ hp.2.2 x hx)
  have := Finset.card_le_card hsub
  rwa [Finset.card_range] at this

/-- `grow_forward` terminates and preserves the invariant; positive step
counts certify a fresh node id. -/
theorem grow_forward_main (g : Graph) (a : AssignmentStorage)
    (used : UsedMap) (thr : Nat) (group : TrioGroup) (ca : Bool)
    (hwf : g.WfIds) (path : HaploPath) (hp : HPInv g path) :
    ∃ p s, grow_forward g a used thr path group ca = some (p, s)
      ∧ HPInv g p
      ∧ (∃ ext, p.v_storage = path.v_storage ++ ext)
      ∧ (0 < s → ∃ i ∈ p.v_storage.map Vertex.nodeId,
          i ∉ path.v_storage.map Vertex.nodeId) := by
  unfold grow_forward
  exact growForwardAux_main g a used thr group ca hwf (g.nodeCnt + 1)
    path 0 hp (by omega)

/-- `jump_forward` terminates and preserves the invariant; a positive
step count certifies a fresh node id. -/
theorem jump_forward_main (g : Graph) (a : AssignmentStorage)
    (used : UsedMap) (thr : Nat) (sccs : List Nat) (path : HaploPath)
    (group : TrioGroup) (hwf : g.WfIds) (hrc : g.WfRC)
    (hp : HPInv g path) :
    ∃ p2 s2, jump_forward g a used thr sccs path group = some (p2, s2)
      ∧ HPInv g p2
      ∧ (∃ ext, p2.v_storage = path.v_storage ++ ext)
      ∧ (0 < s2 → ∃ i ∈ p2.v_storage.map Vertex.nodeId,
          i ∉ path.v_storage.map Vertex.nodeId) := by
  unfold jump_forward
  obtain ⟨r, hr, hjp⟩ := find_jump_ahead_main g a used thr path.end_v group
    hwf hrc (end_v_valid g path hp)
  rw [hr]
  cases r with
  | none =>
    exact ⟨path, 0, rfl, hp, ⟨[], by simp⟩, fun h0 => absurd h0 (by omega)⟩
  | some jump =>
    dsimp only
    obtain ⟨hpj, hheadj⟩ := hjp jump rfl
    by_cases hg : path.can_merge_in jump
        ∧ jump.l_storage.all (fun l => l.startV.nodeId ∉ sccs)
        ∧ jump.v_storage.all
          (fun w => check_available used g thr w.nodeId group)
    · rw [if_pos hg]
      cases hjv : jump.v_storage with
      | nil => exact absurd hjv hpj.1.ne_nil
      | cons w tl =>
        have hw : w = path.end_v := by
          rw [hjv] at hheadj
          simp at hheadj
          exact hheadj
        have hch : Chained (path.end_v :: tl) jump.l_storage := by
          rw [← hw, ← hjv]
          exact hpj.1
        have hmg := hp_merge g hwf jump.l_storage tl path hp hch hpj.2.1
        refine ⟨path.merge_in jump, jump.len - 1, rfl, ?_, ⟨tl, ?_⟩, ?_⟩
        · exact hmg.1
        · unfold HaploPath.merge_in
          exact hmg.2
        · intro hpos
          unfold HaploPath.len at hpos
          rw [hjv] at hpos
          simp only [List.length_cons, Nat.add_sub_cancel] at hpos
          cases htl : tl with
          | nil => rw [htl] at hpos; simp at hpos
          | cons x tl2 =>
            have hxtl : x ∈ jump.v_storage.tail := by
              rw [hjv, htl]
              simp
            have hcm : ¬ path.in_path x.nodeId := by
              have h0 := hg.1
              unfold HaploPath.can_merge_in at h0
              simp at h0
              intro hc
              exact absurd hc (by simpa using h0 x hxtl)
            refine ⟨x.nodeId, ?_, ?_⟩
            · unfold HaploPath.merge_in
              rw [hmg.2, htl]
              rw [List.map_append]
              exact List.mem_append_right _ (by simp)
            · intro hm
              exact hcm ((in_path_iff path x.nodeId).mpr hm)
    · rw [if_neg hg]
      exact ⟨path, 0, rfl, hp, ⟨[], by simp⟩, fun h0 => absurd h0 (by omega)⟩

/-- The grow-jump loop cannot exhaust its fuel: every iteration that does
not stop adds a vertex with a fresh node id. -/
theorem growJumpAux_main (g : Graph) (a : AssignmentStorage)
    (used : UsedMap) (thr : Nat) (sccs : List Nat) (group : TrioGroup)
    (hwf : g.WfIds) (hrc : g.WfRC) :
    ∀ fuel (path : HaploPath) (tot : Nat), HPInv g path →
    g.nodeCnt + 1 ≤ fuel + (path.v_storage.map Vertex.nodeId).toFinset.card →
    ∃ r, growJumpAux g a used thr sccs group fuel path tot = some r
      ∧ HPInv g r.1 := by
  intro fuel
  induction fuel with
  | zero =>
    intro path tot hp hcard
    exfalso
    have := idcard_le g path hp
    omega
  | succ fuel ih =>
    intro path tot hp hcard
    rw [growJumpAux]
    obtain ⟨p1, s1, heq1, hp1, ⟨e1, hext1⟩, hfr1⟩ :=
      grow_forward_main g a used thr group true hwf path hp
    rw [heq1]
    dsimp only
    obtain ⟨p2, s2, heq2, hp2, ⟨e2, hext2⟩, hfr2⟩ :=
      jump_forward_main g a used thr sccs p1 group hwf hrc hp1
    rw [heq2]
    dsimp only
    by_cases hz : s1 + s2 = 0
    · rw [if_pos hz]
      exact ⟨(p2, tot), rfl, hp2⟩
    · rw [if_neg hz]
      have hsubs : ∀ i ∈ path.v_storage.map Vertex.nodeId,
          i ∈ p2.v_storage.map Vertex.nodeId := by
        intro i hi
        rw [hext2, hext1, List.map_append, List.map_append]
        exact List.mem_append_left _ (List.mem_append_left _ hi)
      have hfresh : ∃ i ∈ p2.v_storage.map Vertex.nodeId,
          i ∉ path.v_storage.map Vertex.nodeId := by
        by_cases hs1 : 0 < s1
        · obtain ⟨i, hi1, hi2⟩ := hfr1 hs1
          refine ⟨i, ?_, hi2⟩
          rw [hext2, List.map_append]
          exact List.mem_append_left _ hi1
        · obtain ⟨i, hi1, hi2⟩ := hfr2 (by omega)
          refine ⟨i, hi1, ?_⟩
          intro hm
          apply hi2
          rw [hext1, List.map_append]
          exact List.mem_append_left _ hm
      have hcard2 : (path.v_storage.map Vertex.nodeId).toFinset.card
          < (p2.v_storage.map Vertex.nodeId).toFinset.card := by
        apply Finset.card_lt_card
        rw [Finset.ssubset_iff_of_subset]
        · obtain ⟨i, hi1, hi2⟩ := hfresh
          exact ⟨i, List.mem_toFinset.mpr hi1,
            fun hm => hi2 (List.mem_toFinset.mp hm)⟩
        · intro i hi
          exact List.mem_toFinset.mpr (hsubs i (List.mem_toFinset.mp hi))
      exact ih p2 (tot + s1 + s2) hp2 (by omega)

/-- `grow_jump_forward` terminates and preserves the invariant. -/
theorem grow_jump_forward_main (g : Graph) (a : AssignmentStorage)
    (used : UsedMap) (thr : Nat) (sccs : List Nat) (path : HaploPath)
    (group : TrioGroup) (hwf : g.WfIds) (hrc : g.WfRC)
    (hp : HPInv g path) :
    ∃ r, grow_jump_forward g a used thr sccs path group = some r
      ∧ HPInv g r.1 := by
  unfold grow_jump_forward
  exact growJumpAux_main g a used thr sccs group hwf hrc (g.nodeCnt + 2)
    path 0 hp (by omega)

/-- `haplo_path` terminates on a valid anchor node. -/
theorem haplo_path_main (g : Graph) (a : AssignmentStorage)
    (used : UsedMap) (thr : Nat) (sccs : List Nat) (n : Nat)
    (group : TrioGroup) (hwf : g.WfIds) (hrc : g.WfRC)
    (hn : n < g.nodeCnt) :
    ∃ p, haplo_path g a used thr sccs n group = some p := by
  unfold haplo_path
  obtain ⟨r1, hr1, hp1⟩ := grow_jump_forward_main g a used thr sccs
    (HaploPath.new (Vertex.fwd n)) group hwf hrc
    (hp_new g (Vertex.fwd n) hn)
  rw [hr1]
  dsimp only
  obtain ⟨r2, hr2, _⟩ := grow_jump_forward_main g a used thr sccs
    r1.1.reverse_complement group hwf hrc (hp_rc g hrc r1.1 hp1)
  rw [hr2]
  exact ⟨r2.1.reverse_complement, rfl⟩

/-- The node loop of `find_all` terminates. -/
theorem findAllAux_total (g : Graph) (a : AssignmentStorage) (thr : Nat)
    (sccs : List Nat) (hwf : g.WfIds) (hrc : g.WfRC) :
    ∀ (ns : List Nat) (used : UsedMap)
      (answer : List (HaploPath × TrioGroup)),
    (∀ n ∈ ns, n < g.nodeCnt) →
    ∃ r, findAllAux g a thr sccs ns used answer = some r := by
  intro ns
  induction ns with
  | nil => intro used answer _; exact ⟨_, rfl⟩
  | cons n t ih =>
    intro used answer hns
    have hn : n < g.nodeCnt := hns n (List.mem_cons_self n t)
    have hns' : ∀ m ∈ t, m < g.nodeCnt :=
      fun m hm => hns m (List.mem_cons_of_mem n hm)
    rw [findAllAux]
    split
    · exact ih used answer hns'
    · cases ha : a.get n with
      | none => exact ih used answer hns'
      | some group =>
        dsimp only
        split
        · obtain ⟨p, hp⟩ := haplo_path_main g a used thr sccs n group
            hwf hrc hn
          rw [hp]
          exact ih (update_used used p group) (answer ++ [(p, group)]) hns'
        · exact ih used answer hns'

/-- `find_all` terminates. -/
theorem find_all_total (g : Graph) (a : AssignmentStorage) (thr : Nat)
    (sccs : List Nat) (hwf : g.WfIds) (hrc : g.WfRC) :
    ∃ r, find_all g a thr sccs = some r := by
  unfold find_all
  exact findAllAux_total g a thr sccs hwf hrc (List.range g.nodeCnt)
    (fun _ => none) [] (fun n hn => List.mem_range.mp hn)

/-- C9: on a graph with valid link ids that stores both link twins, and
for arbitrary (in particular unrestricted) search parameters, threshold,
oracle and used map, the superbubble search loop, the bounded DFS of
`find_jump_ahead`, the grow-jump loop and hence `find_all` all return
within their proved fuel bounds: no loop of the searcher diverges. -/
theorem c9_termination (g : Graph) (a : AssignmentStorage) (used : UsedMap)
    (thr : Nat) (sccs : List Nat) (hwf : g.WfIds) (hrc : g.WfRC) :
    (∀ (p : SbSearchParams) (v : Vertex),
      (sbLoop g p v (sbFuel g) (sbInit v)).isSome)
    ∧ (∀ v : Vertex, v.nodeId < g.nodeCnt → (bounded_dfs g thr v).isSome)
    ∧ (∀ (path : HaploPath) (group : TrioGroup), HPInv g path →
        (grow_jump_forward g a used thr sccs path group).isSome)
    ∧ (find_all g a thr sccs).isSome := by
  refine ⟨?_, ?_, ?_, ?_⟩
  · intro p v
    apply sbLoop_total g p v hwf (sbFuel g) (sbInit v) (sbInit_inv g v)
    unfold sbFuel sbInit
    simp
    omega
  · intro v hv
    exact bounded_dfs_total g thr hwf v hv
  · intro path group hp
    obtain ⟨r, hr, _⟩ := grow_jump_forward_main g a used thr sccs path
      group hwf hrc hp
    rw [hr]
    rfl
  · obtain ⟨r, hr⟩ := find_all_total g a thr sccs hwf hrc
    rw [hr]
    rfl

/-- C9 witness: the trio example graph is well formed and `find_all`
returns on it. -/
theorem c9_termination_witness :
    exGraphTrio.WfIds ∧ exGraphTrio.WfRC
      ∧ (find_all exGraphTrio exOracleTrio 5 []).isSome :=
  ⟨by unfold Graph.WfIds; decide, by unfold Graph.WfRC; decide,
    (c9_termination exGraphTrio exOracleTrio
      (fun _ => none) 5 [] (by unfold Graph.WfIds; decide)
      (by unfold Graph.WfRC; decide)).2.2.2⟩

/-- A successful search leaves a boundary-invariant state whose stack is
exactly the sink with no vertex pending, at least one vertex processed,
and whose reached map is the returned bubble's. -/
theorem sbLoop_success (g : Graph) (p : SbSearchParams) (s : Vertex)
    (hwf : g.WfIds) :
    ∀ fuel (st : SbSt) (b : Superbubble), SbI g s st →
    sbLoop g p s fuel st = some (some b) →
    ∃ st2 : SbSt, SbI g s st2 ∧ st2.stack = [b.end_vertex] ∧ st2.nr = 0
      ∧ st2.processed ≠ [] ∧ b.start_vertex = s
      ∧ b.reached_vertices = st2.reached := by
  intro fuel
  induction fuel with
  | zero => intro st b _ h; simp [sbLoop] at h
  | succ fuel ih =>
    intro st b hi h
    rw [sbLoop] at h
    cases hstack : st.stack with
    | nil => rw [hstack] at h; simp at h
    | cons v rest =>
      rw [hstack] at h
      dsimp only at h
      split at h
      · simp at h
      · split at h
        · simp at h
        · rename_i hout
          cases hrel : relaxList g s { st with stack := rest }
              (g.outgoing_edges v) with
          | none => rw [hrel] at h; simp at h
          | some st1 =>
            rw [hrel] at h
            dsimp only at h
            have hmid0 := sbPop_inv g s v rest st hi hstack
            have hmid := relaxList_inv g s v hwf (g.outgoing_edges v) [] _
              (by simp) hmid0 st1 hrel
            have hb := sbAppend_inv g s v st1 hmid hout
            cases hs2 : st1.stack with
            | nil =>
              rw [hs2] at h hb
              dsimp only at h
              exact ih _ b hb h
            | cons t rest2 =>
              rw [hs2] at h hb
              cases rest2 with
              | cons t2 rest3 =>
                dsimp only at h
                exact ih _ b hb h
              | nil =>
                cases hnr : st1.nr with
                | succ m =>
                  rw [hnr] at h hb
                  exact ih _ b hb h
                | zero =>
                  rw [hnr] at h hb
                  dsimp only at h
                  split at h
                  · simp at h
                  · split at h
                    · simp at h
                    · injection h with h
                      injection h with h
                      refine ⟨_, hb, ?_, rfl, by simp, ?_, ?_⟩
                      · rw [← h]
                      · rw [← h]
                      · rw [← h]

/-- The per-link path-length contribution used by the walkers. -/
def linkWeight (g : Graph) (l : Link) : Nat :=
  (g.node l.endV.nodeId).length - l.overlap

/-- Reverse complement of a link is an involution. -/
theorem Link.rc_involution (l : Link) : l.rc.rc = l := by
  unfold Link.rc
  simp [Vertex.rc_rc]

/-- The end of an incoming link is the queried vertex. -/
theorem incoming_end (g : Graph) (v : Vertex) :
    ∀ l ∈ g.incoming_edges v, l.endV = v := by
  intro l hl
  have := List.of_mem_filter hl
  simpa using this

/-- An incoming link is a graph link. -/
theorem incoming_mem_links (g : Graph) (v : Vertex) :
    ∀ l ∈ g.incoming_edges v, l ∈ g.links :=
  fun _ hl => List.mem_of_mem_filter hl

/-- Membership in a take is membership at a smaller index. -/
theorem mem_take_get {α : Type} (L : List α) (j : Nat) (x : α)
    (hx : x ∈ L.take j) :
    ∃ j', ∃ hj' : j' < L.length, j' < j ∧ L.get ⟨j', hj'⟩ = x := by
  rcases List.mem_iff_getElem.mp hx with ⟨i, hi, he⟩
  rw [List.length_take] at hi
  have hi1 : i < j := lt_of_lt_of_le hi (min_le_left _ _)
  have hi2 : i < L.length := lt_of_lt_of_le hi (min_le_right _ _)
  refine ⟨i, hi2, hi1, ?_⟩
  rw [List.get_eq_getElem]
  rw [List.getElem_take] at he
  exact he

/-- The merged range attains both of its bounds on the history. -/
theorem mergeFoldOpt_attains (xs : List (Nat × Nat)) (r : Nat × Nat)
    (h : mergeFoldOpt xs = some r) :
    (∃ x ∈ xs, x.1 = r.1) ∧ (∃ x ∈ xs, x.2 = r.2) := by
  match xs with
  | [] => simp [mergeFoldOpt] at h
  | x :: t =>
    unfold mergeFoldOpt at h
    injection h with h
    subst h
    induction t generalizing x with
    | nil => exact ⟨⟨x, by simp⟩, ⟨x, by simp⟩⟩
    | cons z t ih =>
      rw [List.foldl_cons]
      obtain ⟨⟨y1, hy1, he1⟩, ⟨y2, hy2, he2⟩⟩ := ih (merge_range x z)
      constructor
      · rcases List.mem_cons.mp hy1 with hm | hm
        · rcases min_choice x.1 z.1 with hmin | hmin
          · exact ⟨x, List.mem_cons_self _ _, by
              rw [← he1, hm]
              unfold merge_range
              simpa using hmin.symm⟩
          · exact ⟨z, List.mem_cons_of_mem _ (List.mem_cons_self _ _), by
              rw [← he1, hm]
              unfold merge_range
              simpa using hmin.symm⟩
        · exact ⟨y1, List.mem_cons_of_mem _ (List.mem_cons_of_mem _ hm), he1⟩
      · rcases List.mem_cons.mp hy2 with hm | hm
        · rcases max_choice x.2 z.2 with hmax | hmax
          · exact ⟨x, List.mem_cons_self _ _, by
              rw [← he2, hm]
              unfold merge_range
              simpa using hmax.symm⟩
          · exact ⟨z, List.mem_cons_of_mem _ (List.mem_cons_self _ _), by
              rw [← he2, hm]
              unfold merge_range
              simpa using hmax.symm⟩
        · exact ⟨y2, List.mem_cons_of_mem _ (List.mem_cons_of_mem _ hm), he2⟩

/-- The backward walk of `longest_path` succeeds from any finalized
vertex, extends the accumulated reverse path chained, and accounts the
reached maximum exactly. -/
theorem longestWalk_ok (g : Graph) (b : Superbubble) (st2 : SbSt)
    (s : Vertex) (hi : SbI g s st2)
    (hreach : b.reached_vertices = st2.reached)
    (hstart : b.start_vertex = s) :
    ∀ j, ∀ fuel (v : Vertex) (vs : List Vertex) (ls : List Link),
    j + 1 ≤ fuel →
    ((∃ hj : j < st2.processed.length, st2.processed.get ⟨j, hj⟩ = v)
      ∨ (j = st2.processed.length
          ∧ ∀ l ∈ g.links, l.endV = v → l.startV ∈ st2.processed)) →
    v ∈ sbKeys st2 →
    vs.getLast? = some v.rc → vs ≠ [] → Chained vs ls →
    ∃ ext_v ext_l,
      longestWalk g b fuel v (((alookup st2.reached v).getD (0, 0)).2) vs ls
        = some (vs ++ ext_v, ls ++ ext_l)
      ∧ Chained (vs ++ ext_v) (ls ++ ext_l)
      ∧ (vs ++ ext_v).head? = vs.head?
      ∧ (vs ++ ext_v).getLast? = some s.rc
      ∧ ((ls ++ ext_l).map (fun x => linkWeight g x.rc)).sum
        = (ls.map (fun x => linkWeight g x.rc)).sum
          + ((alookup st2.reached v).getD (0, 0)).2
      ∧ ∀ x ∈ ext_l, x.rc ∈ g.links ∧ x.rc.startV ∈ st2.processed := by
  intro j
  induction j using Nat.strong_induction_on with
  | _ j IH =>
    intro fuel v vs ls hfuel hloc hkey hlast hne hch
    cases fuel with
    | zero => omega
    | succ fuel =>
      rw [longestWalk, hstart, hreach]
      by_cases hvs : v = s
      · rw [if_pos hvs]
        refine ⟨[], [], by simp, by simpa, by simp, ?_, ?_, by simp⟩
        · simp only [List.append_nil]
          rw [hlast, hvs]
        · have h0 : alookup st2.reached v = some (0, 0) := by
            rw [hvs]
            exact hi.sVal
          rw [h0]
          simp
      · rw [if_neg hvs]
        have hsrc : ∀ l ∈ g.links, l.endV = v →
            l.startV ∈ st2.processed.take j := by
          rcases hloc with ⟨hj, hget⟩ | ⟨hjeq, hsrcP⟩
          · intro l hl hle
            exact hi.topo j hj (by rw [hget]; exact hvs) l hl
              (by rw [hget]; exact hle)
          · intro l hl hle
            rw [hjeq, List.take_length]
            exact hsrcP l hl hle
        have hvalv := hi.valSpec v hkey hvs
        obtain ⟨r, hr⟩ := Option.isSome_iff_exists.mp
          (alookup_isSome_of_mem st2.reached v hkey)
        have hatt := (mergeFoldOpt_attains _ r (by rw [← hvalv, hr])).2
        obtain ⟨x, hx, hx2⟩ := hatt
        rcases List.mem_map.mp hx with ⟨l0, hl0, hldr⟩
        have hl0in : l0 ∈ g.incoming_edges v :=
          relaxedEdges_sub_incoming g st2.processed v l0 hl0
        have hfindsome : ((g.incoming_edges v).find? (fun l =>
            (link_dist_range g st2.reached l).2
              = ((alookup st2.reached v).getD (0, 0)).2)).isSome := by
          rw [List.find?_isSome]
          refine ⟨l0, hl0in, ?_⟩
          rw [hr]
          simp only [Option.getD_some, decide_eq_true_eq]
          rw [hldr]
          exact hx2
        cases hfind : (g.incoming_edges v).find? (fun l =>
            (link_dist_range g st2.reached l).2
              = ((alookup st2.reached v).getD (0, 0)).2) with
        | none => rw [hfind] at hfindsome; simp at hfindsome
        | some lw =>
          have hpred := List.find?_some hfind
          simp only [decide_eq_true_eq] at hpred
          have hlwin := List.mem_of_find?_eq_some hfind
          have hlwend : lw.endV = v := incoming_end g v lw hlwin
          have hlwlink : lw ∈ g.links := incoming_mem_links g v lw hlwin
          obtain ⟨j', hj'len, hj'lt, hget'⟩ := mem_take_get st2.processed j
            lw.startV (hsrc lw hlwlink hlwend)
          have hstartmem : lw.startV ∈ st2.processed :=
            List.mem_of_mem_take (hsrc lw hlwlink hlwend)
          have hstartkey : lw.startV ∈ sbKeys st2 :=
            hi.procKeys lw.startV hstartmem
          have hch' : Chained (vs ++ [lw.rc.endV]) (ls ++ [lw.rc]) := by
            apply hch.append_link
            rw [hlast]
            show some v.rc = some lw.rc.startV
            unfold Link.rc
            rw [hlwend]
          have hlast' : (vs ++ [lw.rc.endV]).getLast?
              = some lw.startV.rc := by
            rw [List.getLast?_concat]
            rfl
          obtain ⟨ev, el, heq, hch2, hhd, hlst, hsum, hmem⟩ := IH j' hj'lt fuel
            lw.startV (vs ++ [lw.rc.endV]) (ls ++ [lw.rc]) (by omega)
            (.inl ⟨hj'len, hget'⟩) hstartkey hlast' (by simp) hch'
          dsimp only
          refine ⟨[lw.rc.endV] ++ ev, [lw.rc] ++ el, ?_, ?_, ?_, ?_, ?_, ?_⟩
          · rw [← List.append_assoc, ← List.append_assoc]
            exact heq
          · rw [← List.append_assoc, ← List.append_assoc]
            exact hch2
          · rw [← List.append_assoc]
            rw [hhd]
            exact List.head?_append_of_ne_nil _ hne
          · rw [← List.append_assoc]
            exact hlst
          · rw [← List.append_assoc]
            have hw : (link_dist_range g st2.reached lw).2
                = ((alookup st2.reached lw.startV).getD (0, 0)).2
                  + linkWeight g lw := by
              unfold link_dist_range shift_range linkWeight
              dsimp only
            have hls : ((ls ++ [lw.rc]).map
                (fun x => linkWeight g x.rc)).sum
                = (ls.map (fun x => linkWeight g x.rc)).sum
                  + linkWeight g lw := by
              rw [List.map_append, List.sum_append]
              simp [Link.rc_involution]
            rw [hsum]
            rw [hls]
            rw [← hpred]
            rw [hw]
            omega
          · intro x hxm
            rcases List.mem_append.mp hxm with hxe | hxe
            · rw [List.mem_singleton.mp hxe, Link.rc_involution]
              exact ⟨hlwlink, hstartmem⟩
            · exact hmem x hxe

/-- The backward walk of `shortest_path` succeeds from any finalized
vertex, extends the accumulated reverse path chained, and accounts the
reached maximum exactly. -/
theorem shortestWalk_ok (g : Graph) (b : Superbubble) (st2 : SbSt)
    (s : Vertex) (hi : SbI g s st2)
    (hreach : b.reached_vertices = st2.reached)
    (hstart : b.start_vertex = s) :
    ∀ j, ∀ fuel (v : Vertex) (vs : List Vertex) (ls : List Link),
    j + 1 ≤ fuel →
    ((∃ hj : j < st2.processed.length, st2.processed.get ⟨j, hj⟩ = v)
      ∨ (j = st2.processed.length
          ∧ ∀ l ∈ g.links, l.endV = v → l.startV ∈ st2.processed)) →
    v ∈ sbKeys st2 →
    vs.getLast? = some v.rc → vs ≠ [] → Chained vs ls →
    ∃ ext_v ext_l,
      shortestWalk g b fuel v (((alookup st2.reached v).getD (0, 0)).1) vs ls
        = some (vs ++ ext_v, ls ++ ext_l)
      ∧ Chained (vs ++ ext_v) (ls ++ ext_l)
      ∧ (vs ++ ext_v).head? = vs.head?
      ∧ (vs ++ ext_v).getLast? = some s.rc
      ∧ ((ls ++ ext_l).map (fun x => linkWeight g x.rc)).sum
        = (ls.map (fun x => linkWeight g x.rc)).sum
          + ((alookup st2.reached v).getD (0, 0)).1
      ∧ ∀ x ∈ ext_l, x.rc ∈ g.links ∧ x.rc.startV ∈ st2.processed := by
  intro j
  induction j using Nat.strong_induction_on with
  | _ j IH =>
    intro fuel v vs ls hfuel hloc hkey hlast hne hch
    cases fuel with
    | zero => omega
    | succ fuel =>
      rw [shortestWalk, hstart, hreach]
      by_cases hvs : v = s
      · rw [if_pos hvs]
        refine ⟨[], [], by simp, by simpa, by simp, ?_, ?_, by simp⟩
        · simp only [List.append_nil]
          rw [hlast, hvs]
        · have h0 : alookup st2.reached v = some (0, 0) := by
            rw [hvs]
            exact hi.sVal
          rw [h0]
          simp
      · rw [if_neg hvs]
        have hsrc : ∀ l ∈ g.links, l.endV = v →
            l.startV ∈ st2.processed.take j := by
          rcases hloc with ⟨hj, hget⟩ | ⟨hjeq, hsrcP⟩
          · intro l hl hle
            exact hi.topo j hj (by rw [hget]; exact hvs) l hl
              (by rw [hget]; exact hle)
          · intro l hl hle
            rw [hjeq, List.take_length]
            exact hsrcP l hl hle
        have hvalv := hi.valSpec v hkey hvs
        obtain ⟨r, hr⟩ := Option.isSome_iff_exists.mp
          (alookup_isSome_of_mem st2.reached v hkey)
        have hatt := (mergeFoldOpt_attains _ r (by rw [← hvalv, hr])).1
        obtain ⟨x, hx, hx1⟩ := hatt
        rcases List.mem_map.mp hx with ⟨l0, hl0, hldr⟩
        have hl0in : l0 ∈ g.incoming_edges v :=
          relaxedEdges_sub_incoming g st2.processed v l0 hl0
        have hfindsome : ((g.incoming_edges v).find? (fun l =>
            (link_dist_range g st2.reached l).1
              = ((alookup st2.reached v).getD (0, 0)).1)).isSome := by
          rw [List.find?_isSome]
          refine ⟨l0, hl0in, ?_⟩
          rw [hr]
          simp only [Option.getD_some, decide_eq_true_eq]
          rw [hldr]
          exact hx1
        cases hfind : (g.incoming_edges v).find? (fun l =>
            (link_dist_range g st2.reached l).1
              = ((alookup st2.reached v).getD (0, 0)).1) with
        | none => rw [hfind] at hfindsome; simp at hfindsome
        | some lw =>
          have hpred := List.find?_some hfind
          simp only [decide_eq_true_eq] at hpred
          have hlwin := List.mem_of_find?_eq_some hfind
          have hlwend : lw.endV = v := incoming_end g v lw hlwin
          have hlwlink : lw ∈ g.links := incoming_mem_links g v lw hlwin
          obtain ⟨j', hj'len, hj'lt, hget'⟩ := mem_take_get st2.processed j
            lw.startV (hsrc lw hlwlink hlwend)
          have hstartmem : lw.startV ∈ st2.processed :=
            List.mem_of_mem_take (hsrc lw hlwlink hlwend)
          have hstartkey : lw.startV ∈ sbKeys st2 :=
            hi.procKeys lw.startV hstartmem
          have hch' : Chained (vs ++ [lw.rc.endV]) (ls ++ [lw.rc]) := by
            apply hch.append_link
            rw [hlast]
            show some v.rc = some lw.rc.startV
            unfold Link.rc
            rw [hlwend]
          have hlast' : (vs ++ [lw.rc.endV]).getLast?
              = some lw.startV.rc := by
            rw [List.getLast?_concat]
            rfl
          obtain ⟨ev, el, heq, hch2, hhd, hlst, hsum, hmem⟩ := IH j' hj'lt fuel
            lw.startV (vs ++ [lw.rc.endV]) (ls ++ [lw.rc]) (by omega)
            (.inl ⟨hj'len, hget'⟩) hstartkey hlast' (by simp) hch'
          dsimp only
          refine ⟨[lw.rc.endV] ++ ev, [lw.rc] ++ el, ?_, ?_, ?_, ?_, ?_, ?_⟩
          · rw [← List.append_assoc, ← List.append_assoc]
            exact heq
          · rw [← List.append_assoc, ← List.append_assoc]
            exact hch2
          · rw [← List.append_assoc]
            rw [hhd]
            exact List.head?_append_of_ne_nil _ hne
          · rw [← List.append_assoc]
            exact hlst
          · rw [← List.append_assoc]
            have hw : (link_dist_range g st2.reached lw).1
                = ((alookup st2.reached lw.startV).getD (0, 0)).1
                  + linkWeight g lw := by
              unfold link_dist_range shift_range linkWeight
              dsimp only
            have hls : ((ls ++ [lw.rc]).map
                (fun x => linkWeight g x.rc)).sum
                = (ls.map (fun x => linkWeight g x.rc)).sum
                  + linkWeight g lw := by
              rw [List.map_append, List.sum_append]
              simp [Link.rc_involution]
            rw [hsum]
            rw [hls]
            rw [← hpred]
            rw [hw]
            omega
          · intro x hxm
            rcases List.mem_append.mp hxm with hxe | hxe
            · rw [List.mem_singleton.mp hxe, Link.rc_involution]
              exact ⟨hlwlink, hstartmem⟩
            · exact hmem x hxe

/-- C5: for any bubble returned by `find_superbubble` on a graph with
valid link ids, `longest_path` and `shortest_path` return chained paths
from the bubble's start to its end whose summed per-link contributions
(end-node length minus overlap) equal the reached range's maximum and
minimum at the end vertex. -/
theorem c5_path_extremes (g : Graph) (v : Vertex) (p : SbSearchParams)
    (hwf : g.WfIds) (b : Superbubble)
    (h : find_superbubble g v p = some b) :
    ∃ pl ps : GraphPath,
      b.longest_path g = some pl ∧ b.shortest_path g = some ps
      ∧ Chained pl.v_storage pl.l_storage
      ∧ pl.v_storage.head? = some b.start_vertex
      ∧ pl.v_storage.getLast? = some b.end_vertex
      ∧ (pl.l_storage.map (linkWeight g)).sum
        = ((alookup b.reached_vertices b.end_vertex).getD (0, 0)).2
      ∧ Chained ps.v_storage ps.l_storage
      ∧ ps.v_storage.head? = some b.start_vertex
      ∧ ps.v_storage.getLast? = some b.end_vertex
      ∧ (ps.l_storage.map (linkWeight g)).sum
        = ((alookup b.reached_vertices b.end_vertex).getD (0, 0)).1 := by
  unfold find_superbubble at h
  split at h
  · simp at h
  · have hj : sbLoop g p v (sbFuel g) (sbInit v) = some (some b) := by
      cases hl : sbLoop g p v (sbFuel g) (sbInit v) with
      | none => rw [hl] at h; simp [Option.join] at h
      | some o =>
        rw [hl] at h
        cases o with
        | none => simp [Option.join] at h
        | some b' => simp [Option.join] at h; rw [h]
    obtain ⟨st2, hi, hstk, hnr, hpne, hbs, hbr⟩ :=
      sbLoop_success g p v hwf (sbFuel g) (sbInit v) b (sbInit_inv g v) hj
    have htstack : b.end_vertex ∈ st2.stack := by
      rw [hstk]
      simp
    have htkey : b.end_vertex ∈ sbKeys st2 := hi.stackKeys _ htstack
    have htne : b.end_vertex ≠ v := by
      intro he
      have hs : v ∈ st2.stack := he ▸ htstack
      exact hpne (hi.sStack hs).2
    have hsrcT : ∀ l ∈ g.links, l.endV = b.end_vertex →
        l.startV ∈ st2.processed := by
      have h0 : st2.rem b.end_vertex = 0 :=
        (hi.ready _ htkey htne).mpr (.inl htstack)
      have hfull : (relaxedEdges g st2.processed b.end_vertex).length
          = g.incoming_edge_cnt b.end_vertex := by
        have := hi.remSpec _ htkey htne
        omega
      exact ready_sources g st2.processed hi.procND _ hfull
    have hplen : st2.processed.length + 1 ≤ b.reached_vertices.length + 1 := by
      have h1 : st2.processed.length ≤ (sbKeys st2).length :=
        nodup_subset_length_le _ _ hi.procND hi.keysND hi.procKeys
      have h2 : (sbKeys st2).length = b.reached_vertices.length := by
        rw [hbr]
        unfold sbKeys
        rw [List.length_map]
      omega
    obtain ⟨ev, el, heqL, hchL, hhdL, hlstL, hsumL, hmemL⟩ :=
      longestWalk_ok g b st2 v hi hbr hbs st2.processed.length
        (b.reached_vertices.length + 1) b.end_vertex [b.end_vertex.rc] []
        hplen (.inr ⟨rfl, hsrcT⟩) htkey (by simp) (by simp)
        (Chained.single _)
    obtain ⟨ev2, el2, heqS, hchS, hhdS, hlstS, hsumS, hmemS⟩ :=
      shortestWalk_ok g b st2 v hi hbr hbs st2.processed.length
        (b.reached_vertices.length + 1) b.end_vertex [b.end_vertex.rc] []
        hplen (.inr ⟨rfl, hsrcT⟩) htkey (by simp) (by simp)
        (Chained.single _)
    unfold Superbubble.longest_path Superbubble.shortest_path
    rw [hbr] at heqL heqS ⊢
    rw [heqL, heqS]
    dsimp only
    refine ⟨_, _, rfl, rfl, ?_, ?_, ?_, ?_, ?_, ?_, ?_, ?_⟩
    · exact hchL.reverse_rc
    · unfold GraphPath.reverse_complement
      dsimp only
      rw [List.head?_map, List.head?_reverse, hlstL, hbs]
      simp [Vertex.rc_rc]
    · unfold GraphPath.reverse_complement
      dsimp only
      rw [List.getLast?_map, List.getLast?_reverse]
      simp [Vertex.rc_rc]
    · unfold GraphPath.reverse_complement
      dsimp only
      rw [List.map_map]
      have hcomp : (linkWeight g ∘ Link.rc) = fun x => linkWeight g x.rc :=
        rfl
      rw [hcomp]
      rw [show ((([] : List Link) ++ el).reverse.map
          (fun x => linkWeight g x.rc)).sum
          = ((([] : List Link) ++ el).map
            (fun x => linkWeight g x.rc)).sum from by
        rw [List.map_reverse, List.sum_reverse]]
      rw [hsumL]
      simp
    · exact hchS.reverse_rc
    · unfold GraphPath.reverse_complement
      dsimp only
      rw [List.head?_map, List.head?_reverse, hlstS, hbs]
      simp [Vertex.rc_rc]
    · unfold GraphPath.reverse_complement
      dsimp only
      rw [List.getLast?_map, List.getLast?_reverse]
      simp [Vertex.rc_rc]
    · unfold GraphPath.reverse_complement
      dsimp only
      rw [List.map_map]
      have hcomp : (linkWeight g ∘ Link.rc) = fun x => linkWeight g x.rc :=
        rfl
      rw [hcomp]
      rw [show ((([] : List Link) ++ el2).reverse.map
          (fun x => linkWeight g x.rc)).sum
          = ((([] : List Link) ++ el2).map
            (fun x => linkWeight g x.rc)).sum from by
        rw [List.map_reverse, List.sum_reverse]]
      rw [hsumS]
      simp

/-- C5 witness: on the diamond graph the returned bubble's extreme paths
exist and account the reached range at the sink. -/
theorem c5_path_extremes_witness :
    exGraphDia.WfIds
      ∧ ∃ b pl ps, find_superbubble exGraphDia (vf 0) exParams = some b
        ∧ b.longest_path exGraphDia = some pl
        ∧ b.shortest_path exGraphDia = some ps
        ∧ (pl.l_storage.map (linkWeight exGraphDia)).sum
          = ((alookup b.reached_vertices b.end_vertex).getD (0, 0)).2
        ∧ (ps.l_storage.map (linkWeight exGraphDia)).sum
          = ((alookup b.reached_vertices b.end_vertex).getD (0, 0)).1 := by
  refine ⟨by unfold Graph.WfIds; decide, ?_⟩
  obtain ⟨pl, ps, h1, h2, h3, h4, h5, h6, h7, h8, h9, h10⟩ :=
    c5_path_extremes exGraphDia (vf 0) exParams
      (by unfold Graph.WfIds; decide)
      ⟨vf 0, vf 3, [(vf 0, (0, 0)), (vf 1, (10, 10)), (vf 2, (10, 10)),
        (vf 3, (20, 20))]⟩ (by decide)
  exact ⟨_, pl, ps, by decide, h1, h2, h6, h10⟩

/-- First-occurrence index (length when absent). -/
def listIdx {α : Type} [DecidableEq α] : List α → α → Nat
  | [], _ => 0
  | a :: t, x => if a = x then 0 else listIdx t x + 1

/-- The index of a member is within bounds. -/
theorem listIdx_lt_length {α : Type} [DecidableEq α] :
    ∀ (L : List α) (x : α), x ∈ L → listIdx L x < L.length := by
  intro L
  induction L with
  | nil => intro x hx; simp at hx
  | cons a t ih =>
    intro x hx
    unfold listIdx
    by_cases hax : a = x
    · rw [if_pos hax]
      simp
    · rw [if_neg hax]
      rcases List.mem_cons.mp hx with h1 | h1
      · exact absurd h1.symm hax
      · have := ih x h1
        simp only [List.length_cons]
        omega

/-- The index of an absent element is the length. -/
theorem listIdx_eq_length {α : Type} [DecidableEq α] :
    ∀ (L : List α) (x : α), x ∉ L → listIdx L x = L.length := by
  intro L
  induction L with
  | nil => intro x _; rfl
  | cons a t ih =>
    intro x hx
    have hne : ¬ a = x := fun he => hx (List.mem_cons.mpr (.inl he.symm))
    unfold listIdx
    rw [if_neg hne, ih x (fun hm => hx (List.mem_cons_of_mem a hm))]
    rfl

/-- On a duplicate-free list the index inverts `get`. -/
theorem listIdx_get {α : Type} [DecidableEq α] :
    ∀ (L : List α), L.Nodup → ∀ (j : Nat) (hj : j < L.length),
    listIdx L (L.get ⟨j, hj⟩) = j := by
  intro L
  induction L with
  | nil => intro _ j hj; simp at hj
  | cons a t ih =>
    intro hnd j hj
    rcases List.nodup_cons.mp hnd with ⟨hat, hnt⟩
    cases j with
    | zero =>
      show listIdx (a :: t) a = 0
      unfold listIdx
      rw [if_pos rfl]
    | succ j =>
      have hjt : j < t.length := by
        simp only [List.length_cons] at hj
        omega
      show listIdx (a :: t) (t.get ⟨j, hjt⟩) = j + 1
      have hne : ¬ a = t.get ⟨j, hjt⟩ := by
        intro he
        rw [he] at hat
        exact hat (List.get_mem t _ hjt)
      unfold listIdx
      rw [if_neg hne, ih hnt j hjt]

/-- The element at a member's index is the member. -/
theorem listIdx_get_self {α : Type} [DecidableEq α] :
    ∀ (L : List α) (x : α), x ∈ L → ∀ h : listIdx L x < L.length,
    L.get ⟨listIdx L x, h⟩ = x := by
  intro L
  induction L with
  | nil => intro x hx h; simp at hx
  | cons a t ih =>
    intro x hx h
    by_cases hax : a = x
    · simp only [listIdx, if_pos hax]
      exact hax
    · have hxt : x ∈ t := by
        rcases List.mem_cons.mp hx with h1 | h1
        · exact absurd h1.symm hax
        · exact h1
      have hlt : listIdx t x < t.length := listIdx_lt_length t x hxt
      simp only [listIdx, if_neg hax]
      exact ih x hxt hlt

/-- Members of a take have index below the take bound. -/
theorem listIdx_lt_of_mem_take {α : Type} [DecidableEq α] :
    ∀ (L : List α) (j : Nat) (x : α), x ∈ L.take j → listIdx L x < j := by
  intro L
  induction L with
  | nil => intro j x hx; simp at hx
  | cons a t ih =>
    intro j x hx
    cases j with
    | zero => simp at hx
    | succ j =>
      rw [List.take_succ_cons] at hx
      unfold listIdx
      by_cases hax : a = x
      · rw [if_pos hax]
        omega
      · rw [if_neg hax]
        rcases List.mem_cons.mp hx with h1 | h1
        · exact absurd h1.symm hax
        · have := ih j x h1
          omega

/-- Inner membership characterised. -/
theorem mem_inner_iff (b : Superbubble) (x : Vertex) :
    x ∈ b.inner_vertices
      ↔ x ∈ b.vertices ∧ x ≠ b.start_vertex ∧ x ≠ b.end_vertex := by
  unfold Superbubble.inner_vertices
  rw [List.mem_filter]
  simp

/-- The structural facts a discovered superbubble gives its surroundings:
a duplicate-free, rc-free vertex set containing both endpoints, on which
a rank certifies that every non-start member receives all its incoming
links from strictly lower-ranked members that are neither outside nor
the end vertex. -/
def BubbleFacts (g : Graph) (b : Superbubble) : Prop :=
  ∃ rank : Vertex → Nat,
    b.vertices.Nodup
    ∧ (∀ w ∈ b.vertices, w.rc ∉ b.vertices)
    ∧ b.start_vertex ∈ b.vertices
    ∧ b.end_vertex ∈ b.vertices
    ∧ b.end_vertex ≠ b.start_vertex
    ∧ ∀ w ∈ b.vertices, w ≠ b.start_vertex →
        (∃ l ∈ g.links, l.endV = w)
        ∧ ∀ l ∈ g.links, l.endV = w →
            l.startV ∈ b.vertices ∧ l.startV ≠ b.end_vertex
            ∧ rank l.startV < rank w

/-- Every bubble returned by `find_superbubble` carries the structural
facts, and starts at the query vertex. -/
theorem find_superbubble_facts (g : Graph) (v : Vertex) (p : SbSearchParams)
    (hwf : g.WfIds) (b : Superbubble)
    (h : find_superbubble g v p = some b) :
    BubbleFacts g b ∧ b.start_vertex = v := by
  unfold find_superbubble at h
  split at h
  · simp at h
  · have hj : sbLoop g p v (sbFuel g) (sbInit v) = some (some b) := by
      cases hl : sbLoop g p v (sbFuel g) (sbInit v) with
      | none => rw [hl] at h; simp [Option.join] at h
      | some o =>
        rw [hl] at h
        cases o with
        | none => simp [Option.join] at h
        | some b' => simp [Option.join] at h; rw [h]
    obtain ⟨st2, hi, hstk, hnr, hpne, hbs, hbr⟩ :=
      sbLoop_success g p v hwf (sbFuel g) (sbInit v) b (sbInit_inv g v) hj
    have hverts : b.vertices = sbKeys st2 := by
      unfold Superbubble.vertices sbKeys
      rw [hbr]
    have htstack : b.end_vertex ∈ st2.stack := by
      rw [hstk]
      simp
    have htkey : b.end_vertex ∈ sbKeys st2 := hi.stackKeys _ htstack
    have htne : b.end_vertex ≠ v := by
      intro he
      have hs : v ∈ st2.stack := he ▸ htstack
      exact hpne (hi.sStack hs).2
    have htnp : b.end_vertex ∉ st2.processed := hi.disj _ htstack
    have hsplit : ∀ w ∈ sbKeys st2, w ≠ v →
        w = b.end_vertex ∨ w ∈ st2.processed := by
      intro w hw hws
      have h0 := hi.nrSpec
      rw [hnr] at h0
      have hfil : (sbKeys st2).filter
          (fun w => decide (w ≠ v ∧ w ∉ st2.stack ∧ w ∉ st2.processed))
          = [] := List.length_eq_zero.mp h0.symm
      by_contra hc
      push_neg at hc
      have hwmem : w ∈ (sbKeys st2).filter
          (fun w => decide (w ≠ v ∧ w ∉ st2.stack ∧ w ∉ st2.processed)) := by
        apply List.mem_filter.mpr
        refine ⟨hw, ?_⟩
        simp only [decide_eq_true_eq]
        refine ⟨hws, ?_, hc.2⟩
        rw [hstk]
        intro hm
        rcases List.mem_cons.mp hm with h1 | h1
        · exact hc.1 h1
        · simp at h1
      rw [hfil] at hwmem
      simp at hwmem
    have hsrcT : ∀ l ∈ g.links, l.endV = b.end_vertex →
        l.startV ∈ st2.processed := by
      have h0 : st2.rem b.end_vertex = 0 :=
        (hi.ready _ htkey htne).mpr (.inl htstack)
      have hfull : (relaxedEdges g st2.processed b.end_vertex).length
          = g.incoming_edge_cnt b.end_vertex := by
        have := hi.remSpec _ htkey htne
        omega
      exact ready_sources g st2.processed hi.procND _ hfull
    refine ⟨⟨fun w => listIdx st2.processed w, ?_, ?_, ?_, ?_, ?_, ?_⟩, hbs⟩
    · rw [hverts]
      exact hi.keysND
    · rw [hverts]
      exact hi.rcFree
    · rw [hverts, hbs]
      exact hi.sMem
    · rw [hverts]
      exact htkey
    · rw [hbs]
      exact htne
    · intro w hw hws
      rw [hverts] at hw
      rw [hbs] at hws
      have hex : ∃ l ∈ g.links, l.endV = w := by
        have h1 := hi.keysInc w hw hws
        unfold Graph.incoming_edge_cnt at h1
        cases hinc : g.incoming_edges w with
        | nil => rw [hinc] at h1; simp at h1
        | cons l t =>
          have hl : l ∈ g.incoming_edges w := by
            rw [hinc]
            exact List.mem_cons_self l t
          exact ⟨l, incoming_mem_links g w l hl, incoming_end g w l hl⟩
      refine ⟨hex, ?_⟩
      intro l hl hle
      rcases hsplit w hw hws with hwt | hwp
      · subst hwt
        have hsp := hsrcT l hl hle
        refine ⟨?_, ?_, ?_⟩
        · rw [hverts]
          exact hi.procKeys _ hsp
        · intro he
          exact htnp (he ▸ hsp)
        · show listIdx st2.processed l.startV < listIdx st2.processed
            b.end_vertex
          have h1 := listIdx_lt_length st2.processed l.startV hsp
          have h2 := listIdx_eq_length st2.processed b.end_vertex htnp
          omega
      · have hj := listIdx_lt_length st2.processed w hwp
        have hget : st2.processed.get ⟨listIdx st2.processed w, hj⟩ = w :=
          listIdx_get_self st2.processed w hwp hj
        have hsp := hi.topo (listIdx st2.processed w) hj
          (by rw [hget]; exact hws) l hl (by rw [hget]; exact hle)
        refine ⟨?_, ?_, ?_⟩
        · rw [hverts]
          exact hi.procKeys _ (List.mem_of_mem_take hsp)
        · intro he
          exact htnp (he ▸ List.mem_of_mem_take hsp)
        · show listIdx st2.processed l.startV < listIdx st2.processed w
          exact listIdx_lt_of_mem_take st2.processed _ l.startV hsp

/-- Two structurally sound bubbles with distinct starts, neither start
inner to the other, cannot share the other's vertices in their
interiors: chasing any shared vertex backwards along incoming links
stays shared and strictly descends, yet can end nowhere. -/
theorem bubble_chase (g : Graph) (b1 b2 : Superbubble)
    (hb1 : BubbleFacts g b1) (hb2 : BubbleFacts g b2)
    (hne : b1.start_vertex ≠ b2.start_vertex)
    (h1 : b1.start_vertex ∉ b2.inner_vertices)
    (h2 : b2.start_vertex ∉ b1.inner_vertices) :
    ∀ x ∈ b2.inner_vertices, x ∉ b1.vertices := by
  obtain ⟨r1, nd1, rc1, s1m, t1m, t1ne, main1⟩ := hb1
  obtain ⟨r2, nd2, rc2, s2m, t2m, t2ne, main2⟩ := hb2
  intro x hxi hx1
  rw [mem_inner_iff] at hxi
  obtain ⟨hx2, hxs2, hxt2⟩ := hxi
  have main : ∀ n, ∀ y, r2 y < n → y ∈ b1.vertices → y ∈ b2.vertices →
      y ≠ b2.start_vertex → y ≠ b2.end_vertex → False := by
    intro n
    induction n with
    | zero => intro y hr _ _ _ _; omega
    | succ n ihn =>
      intro y hr hy1 hy2 hys2 hyt2
      have hys1 : y ≠ b1.start_vertex := by
        intro he
        apply h1
        rw [mem_inner_iff]
        exact ⟨he ▸ hy2, he ▸ hys2, he ▸ hyt2⟩
      obtain ⟨hex, hall1⟩ := main1 y hy1 hys1
      obtain ⟨_, hall2⟩ := main2 y hy2 hys2
      obtain ⟨l, hl, hle⟩ := hex
      obtain ⟨hy1', hnt1, _⟩ := hall1 l hl hle
      obtain ⟨hy2', hnt2, hrlt⟩ := hall2 l hl hle
      have hzs2 : l.startV ≠ b2.start_vertex := by
        intro he
        apply h2
        rw [mem_inner_iff]
        exact ⟨he ▸ hy1', hne.symm, he ▸ hnt1⟩
      exact ihn l.startV (by omega) hy1' hy2' hzs2 hnt2
  exact main (r2 x + 1) x (by omega) hx1 hx2 hxs2 hxt2

/-- Removal only drops entries. -/
theorem aremove_subset {α β : Type} [DecidableEq α] :
    ∀ (m : List (α × β)) (k : α) (x : α × β), x ∈ aremove m k → x ∈ m := by
  intro m
  induction m with
  | nil => intro k x hx; simp [aremove] at hx
  | cons p t ih =>
    intro k x hx
    obtain ⟨a, b⟩ := p
    unfold aremove at hx
    split at hx
    · exact List.mem_cons_of_mem _ hx
    · rcases List.mem_cons.mp hx with h1 | h1
      · exact h1 ▸ List.mem_cons_self _ _
      · exact List.mem_cons_of_mem _ (ih k x h1)

/-- Removal keeps a sublist of the keys. -/
theorem aremove_keys_sublist {α β : Type} [DecidableEq α] :
    ∀ (m : List (α × β)) (k : α),
    ((aremove m k).map (·.1)).Sublist (m.map (·.1)) := by
  intro m
  induction m with
  | nil => intro k; simp [aremove]
  | cons p t ih =>
    intro k
    obtain ⟨a, b⟩ := p
    unfold aremove
    split
    · exact (List.sublist_cons_self _ _).trans (List.Sublist.refl _)
    · simp only [List.map_cons]
      exact List.Sublist.cons₂ _ (ih k)

/-- An entry with a different key survives removal. -/
theorem mem_aremove_of_ne {α β : Type} [DecidableEq α] :
    ∀ (m : List (α × β)) (k : α) (x : α × β), x ∈ m → x.1 ≠ k →
    x ∈ aremove m k := by
  intro m
  induction m with
  | nil => intro k x hx; simp at hx
  | cons p t ih =>
    intro k x hx hne
    obtain ⟨a, b⟩ := p
    unfold aremove
    by_cases hak : a = k
    · rw [if_pos hak]
      rcases List.mem_cons.mp hx with h1 | h1
      · exact absurd (by rw [h1, hak]) hne
      · exact h1
    · rw [if_neg hak]
      rcases List.mem_cons.mp hx with h1 | h1
      · exact h1 ▸ List.mem_cons_self _ _
      · exact List.mem_cons_of_mem _ (ih k x h1 hne)

/-- After removing a key from a duplicate-free map, no surviving entry
carries it. -/
theorem aremove_key_ne {α β : Type} [DecidableEq α] :
    ∀ (m : List (α × β)) (k : α), (m.map (·.1)).Nodup →
    ∀ x ∈ aremove m k, x.1 ≠ k := by
  intro m
  induction m with
  | nil => intro k _ x hx; simp [aremove] at hx
  | cons p t ih =>
    intro k hnd x hx
    obtain ⟨a, b⟩ := p
    rw [List.map_cons, List.nodup_cons] at hnd
    unfold aremove at hx
    split at hx
    case isTrue hak =>
      intro he
      apply hnd.1
      rw [hak, ← he]
      exact List.mem_map.mpr ⟨x, hx, rfl⟩
    case isFalse hak =>
      rcases List.mem_cons.mp hx with h1 | h1
      · rw [h1]
        exact hak
      · exact ih k hnd.2 x h1

/-- The inserted entry is present. -/
theorem mem_ainsert_self {α β : Type} [DecidableEq α] :
    ∀ (m : List (α × β)) (k : α) (v : β), (k, v) ∈ ainsert m k v := by
  intro m
  induction m with
  | nil => intro k v; simp [ainsert]
  | cons p t ih =>
    intro k v
    obtain ⟨a, b⟩ := p
    unfold ainsert
    split
    · exact List.mem_cons_self _ _
    · exact List.mem_cons_of_mem _ (ih k v)

/-- Entries with other keys survive insertion. -/
theorem mem_ainsert_of_ne {α β : Type} [DecidableEq α] :
    ∀ (m : List (α × β)) (k : α) (v : β) (x : α × β), x ∈ m → x.1 ≠ k →
    x ∈ ainsert m k v := by
  intro m
  induction m with
  | nil => intro k v x hx; simp at hx
  | cons p t ih =>
    intro k v x hx hne
    obtain ⟨a, b⟩ := p
    unfold ainsert
    by_cases hak : a = k
    · rw [if_pos hak]
      rcases List.mem_cons.mp hx with h1 | h1
      · exact absurd (by rw [h1, hak]) hne
      · exact List.mem_cons_of_mem _ h1
    · rw [if_neg hak]
      rcases List.mem_cons.mp hx with h1 | h1
      · exact h1 ▸ List.mem_cons_self _ _
      · exact List.mem_cons_of_mem _ (ih k v x h1 hne)

/-- Entries of an insertion into a duplicate-free map. -/
theorem mem_ainsert_elim {α β : Type} [DecidableEq α] :
    ∀ (m : List (α × β)) (k : α) (v : β), (m.map (·.1)).Nodup →
    ∀ x ∈ ainsert m k v, x = (k, v) ∨ (x ∈ m ∧ x.1 ≠ k) := by
  intro m
  induction m with
  | nil =>
    intro k v _ x hx
    simp [ainsert] at hx
    exact .inl hx
  | cons p t ih =>
    intro k v hnd x hx
    obtain ⟨a, b⟩ := p
    rw [List.map_cons, List.nodup_cons] at hnd
    unfold ainsert at hx
    split at hx
    case isTrue hak =>
      rcases List.mem_cons.mp hx with h1 | h1
      · exact .inl h1
      · refine .inr ⟨List.mem_cons_of_mem _ h1, ?_⟩
        intro he
        apply hnd.1
        rw [hak, ← he]
        exact List.mem_map.mpr ⟨x, h1, rfl⟩
    case isFalse hak =>
      rcases List.mem_cons.mp hx with h1 | h1
      · refine .inr ⟨h1 ▸ List.mem_cons_self _ _, ?_⟩
        rw [h1]
        exact hak
      · rcases ih k v hnd.2 x h1 with h2 | h2
        · exact .inl h2
        · exact .inr ⟨List.mem_cons_of_mem _ h2.1, h2.2⟩

/-- Insertion keeps keys duplicate-free. -/
theorem ainsert_keysND {α β : Type} [DecidableEq α]
    (m : List (α × β)) (k : α) (v : β) (hnd : (m.map (·.1)).Nodup) :
    ((ainsert m k v).map (·.1)).Nodup := by
  rw [ainsert_keys]
  split
  · exact hnd
  · exact nodup_append_single _ _ hnd (by assumption)

/-- The inner-vertex removal loop only drops entries. -/
theorem removeFold_subset :
    ∀ (ws : List Vertex) (m : List (Vertex × Superbubble))
      (x : Vertex × Superbubble),
    x ∈ ws.foldl (fun m w => aremove (aremove m w) w.rc) m → x ∈ m := by
  intro ws
  induction ws with
  | nil => intro m x hx; exact hx
  | cons w t ih =>
    intro m x hx
    rw [List.foldl_cons] at hx
    exact aremove_subset _ _ _ (aremove_subset _ _ _ (ih _ x hx))

/-- The removal loop keeps keys duplicate-free. -/
theorem removeFold_keysND :
    ∀ (ws : List Vertex) (m : List (Vertex × Superbubble)),
    (m.map (·.1)).Nodup →
    (((ws.foldl (fun m w => aremove (aremove m w) w.rc) m)).map
      (·.1)).Nodup := by
  intro ws
  induction ws with
  | nil => intro m h; exact h
  | cons w t ih =>
    intro m h
    rw [List.foldl_cons]
    exact ih _ (((aremove_keys_sublist _ _).trans
      (aremove_keys_sublist _ _)).nodup h)

/-- Entries surviving the removal loop avoid every removed key. -/
theorem removeFold_key_avoid :
    ∀ (ws : List Vertex) (m : List (Vertex × Superbubble)),
    (m.map (·.1)).Nodup →
    ∀ x ∈ ws.foldl (fun m w => aremove (aremove m w) w.rc) m,
    ∀ w ∈ ws, x.1 ≠ w ∧ x.1 ≠ w.rc := by
  intro ws
  induction ws with
  | nil => intro m _ x _ w hw; simp at hw
  | cons w0 t ih =>
    intro m hnd x hx w hw
    rw [List.foldl_cons] at hx
    have hnd1 : ((aremove m w0).map (·.1)).Nodup :=
      (aremove_keys_sublist _ _).nodup hnd
    have hnd2 : ((aremove (aremove m w0) w0.rc).map (·.1)).Nodup :=
      (aremove_keys_sublist _ _).nodup hnd1
    rcases List.mem_cons.mp hw with h1 | h1
    · subst h1
      have hx2 : x ∈ aremove (aremove m w) w.rc :=
        removeFold_subset t _ x hx
      exact ⟨aremove_key_ne _ _ hnd x (aremove_subset _ _ _ hx2),
        aremove_key_ne _ _ hnd1 x hx2⟩
    · exact ih _ hnd2 x hx w h1

/-- The marking loop only adds. -/
theorem markFold_mono :
    ∀ (ws : List Vertex) (u : List Vertex) (x : Vertex),
    x ∈ u → x ∈ ws.foldl (fun u w => w.rc :: w :: u) u := by
  intro ws
  induction ws with
  | nil => intro u x hx; exact hx
  | cons w t ih =>
    intro u x hx
    rw [List.foldl_cons]
    exact ih _ x (List.mem_cons_of_mem _ (List.mem_cons_of_mem _ hx))

/-- The marking loop records every vertex and its rc. -/
theorem markFold_mem :
    ∀ (ws : List Vertex) (u : List Vertex),
    ∀ w ∈ ws, w ∈ ws.foldl (fun u w => w.rc :: w :: u) u
      ∧ w.rc ∈ ws.foldl (fun u w => w.rc :: w :: u) u := by
  intro ws
  induction ws with
  | nil => intro u w hw; simp at hw
  | cons w0 t ih =>
    intro u w hw
    rw [List.foldl_cons]
    rcases List.mem_cons.mp hw with h1 | h1
    · subst h1
      exact ⟨markFold_mono t _ w
          (List.mem_cons_of_mem _ (List.mem_cons_self _ _)),
        markFold_mono t _ w.rc (List.mem_cons_self _ _)⟩
    · exact ih _ w h1

/-- Invariant of the `find_all_outer` accumulator: stored entries are
actual search results keyed by their start, their inner vertices (and
rcs) are all marked used, and any two distinct entries have each other's
interiors outside the other's vertex set. -/
def OuterInv (g : Graph) (p : SbSearchParams)
    (acc : List Vertex × List (Vertex × Superbubble)) : Prop :=
  (acc.2.map (·.1)).Nodup
  ∧ (∀ e ∈ acc.2, find_superbubble g e.1 p = some e.2)
  ∧ (∀ e ∈ acc.2, ∀ w ∈ e.2.inner_vertices, w ∈ acc.1 ∧ w.rc ∈ acc.1)
  ∧ (∀ e1 ∈ acc.2, ∀ e2 ∈ acc.2, e1.1 ≠ e2.1 →
      ∀ x ∈ e1.2.inner_vertices, x ∉ e2.2.vertices)

/-- One iteration of the outer loop preserves the invariant; new entries
are keyed by the iteration vertex. -/
theorem outerStep_inv (g : Graph) (p : SbSearchParams) (hwf : g.WfIds)
    (acc : List Vertex × List (Vertex × Superbubble)) (v : Vertex)
    (hinv : OuterInv g p acc) (hfresh : ∀ e ∈ acc.2, e.1 ≠ v) :
    OuterInv g p (outerStep g p acc v)
      ∧ ∀ e ∈ (outerStep g p acc v).2, e.1 = v ∨ e ∈ acc.2 := by
  obtain ⟨hnd, hres, hmarks, hpair⟩ := hinv
  unfold outerStep
  by_cases hused : v ∈ acc.1
  · rw [if_pos hused]
    exact ⟨⟨hnd, hres, hmarks, hpair⟩, fun e he => .inr he⟩
  · rw [if_neg hused]
    cases hfind : find_superbubble g v p with
    | none => exact ⟨⟨hnd, hres, hmarks, hpair⟩, fun e he => .inr he⟩
    | some bubble =>
      dsimp only
      obtain ⟨hbf, hbsv⟩ := find_superbubble_facts g v p hwf bubble hfind
      set inner := bubble.inner_vertices with hinner
      set s2b1 := inner.foldl (fun m w => aremove (aremove m w) w.rc) acc.2
        with hs2b1
      set used1 := bubble.end_vertex.rc :: acc.1 with hused1
      set used2 := inner.foldl (fun u w => w.rc :: w :: u) used1 with hused2
      have hsub1 : ∀ x ∈ s2b1, x ∈ acc.2 :=
        fun x hx => removeFold_subset inner acc.2 x hx
      have hnd1 : (s2b1.map (·.1)).Nodup := removeFold_keysND inner acc.2 hnd
      have hvkey : ∀ x ∈ s2b1, x.1 ≠ v :=
        fun x hx => hfresh x (hsub1 x hx)
      have hnd2 : ((ainsert s2b1 v bubble).map (·.1)).Nodup :=
        ainsert_keysND s2b1 v bubble hnd1
      have helim : ∀ e ∈ ainsert s2b1 v bubble,
          e = (v, bubble) ∨ (e ∈ s2b1 ∧ e.1 ≠ v) :=
        fun e he => mem_ainsert_elim s2b1 v bubble hnd1 e he
      have hchase12 : ∀ e ∈ s2b1,
          ∀ x ∈ bubble.inner_vertices, x ∉ e.2.vertices := by
        intro e he
        obtain ⟨hef, hesv⟩ := find_superbubble_facts g e.1 p hwf e.2
          (hres e (hsub1 e he))
        apply bubble_chase g e.2 bubble hef hbf
        · rw [hesv, hbsv]
          exact hvkey e he
        · rw [hesv]
          intro hmem
          exact ((removeFold_key_avoid inner acc.2 hnd e he e.1
            hmem).1) rfl
        · rw [hbsv]
          intro hmem
          exact hused (hmarks e (hsub1 e he) v hmem).1
      have hchase21 : ∀ e ∈ s2b1,
          ∀ x ∈ e.2.inner_vertices, x ∉ bubble.vertices := by
        intro e he
        obtain ⟨hef, hesv⟩ := find_superbubble_facts g e.1 p hwf e.2
          (hres e (hsub1 e he))
        apply bubble_chase g bubble e.2 hbf hef
        · rw [hesv, hbsv]
          exact fun hc => hvkey e he hc.symm
        · rw [hbsv]
          intro hmem
          exact hused (hmarks e (hsub1 e he) v hmem).1
        · rw [hesv]
          intro hmem
          exact ((removeFold_key_avoid inner acc.2 hnd e he e.1
            hmem).1) rfl
      refine ⟨⟨hnd2, ?_, ?_, ?_⟩, ?_⟩
      · intro e he
        rcases helim e he with h1 | h1
        · rw [h1]
          exact hfind
        · exact hres e (hsub1 e h1.1)
      · intro e he w hw
        rcases helim e he with h1 | h1
        · rw [h1] at hw
          dsimp only at hw
          exact markFold_mem inner used1 w hw
        · have hold := hmarks e (hsub1 e h1.1) w hw
          exact ⟨markFold_mono inner used1 w
              (List.mem_cons_of_mem _ hold.1),
            markFold_mono inner used1 w.rc
              (List.mem_cons_of_mem _ hold.2)⟩
      · intro e1 he1 e2 he2 hkne x hx
        rcases helim e1 he1 with h1 | h1 <;> rcases helim e2 he2 with h2 | h2
        · rw [h1, h2] at hkne
          exact absurd rfl hkne
        · rw [h1] at hx
          exact hchase12 e2 h2.1 x hx
        · rw [h2]
          exact hchase21 e1 h1.1 x hx
        · exact hpair e1 (hsub1 e1 h1.1) e2 (hsub1 e2 h2.1) hkne x hx
      · intro e he
        rcases helim e he with h1 | h1
        · exact .inl (by rw [h1])
        · exact .inr (hsub1 e h1.1)

/-- The outer loop fold preserves the invariant from fresh vertices. -/
theorem outerFold_inv (g : Graph) (p : SbSearchParams) (hwf : g.WfIds) :
    ∀ (L : List Vertex) (acc : List Vertex × List (Vertex × Superbubble)),
    OuterInv g p acc → (∀ e ∈ acc.2, e.1 ∉ L) → L.Nodup →
    OuterInv g p (L.foldl (outerStep g p) acc) := by
  intro L
  induction L with
  | nil => intro acc hinv _ _; exact hinv
  | cons v t ih =>
    intro acc hinv hkeys hnd
    rcases List.nodup_cons.mp hnd with ⟨hvt, hndt⟩
    rw [List.foldl_cons]
    obtain ⟨hinv', hkeys'⟩ := outerStep_inv g p hwf acc v hinv
      (fun e he hev => hkeys e he (hev ▸ List.mem_cons_self v t))
    refine ih _ hinv' ?_ hndt
    intro e he
    rcases hkeys' e he with h1 | h1
    · rw [h1]
      exact hvt
    · exact fun hm => hkeys e h1 (List.mem_cons_of_mem v hm)

/-- C3: the bubbles returned by `find_all_outer` have pairwise disjoint
inner-vertex sets, and no returned bubble's inner set contains another
returned bubble's start or end vertex. -/
theorem c3_outer_disjoint (g : Graph) (p : SbSearchParams)
    (hwf : g.WfIds) :
    List.Pairwise (fun b1 b2 =>
      (∀ x ∈ b1.inner_vertices, x ∉ b2.inner_vertices)
      ∧ b1.start_vertex ∉ b2.inner_vertices
      ∧ b1.end_vertex ∉ b2.inner_vertices
      ∧ b2.start_vertex ∉ b1.inner_vertices
      ∧ b2.end_vertex ∉ b1.inner_vertices) (find_all_outer g p) := by
  unfold find_all_outer
  have hinv := outerFold_inv g p hwf g.all_vertices ([], [])
    ⟨by simp, by simp, by simp, by simp⟩ (by simp) (all_vertices_nodup g)
  set acc := g.all_vertices.foldl (outerStep g p) ([], []) with hacc
  obtain ⟨hnd, hres, _, hpair⟩ := hinv
  have hkeyspw : List.Pairwise (fun e1 e2 :
      Vertex × Superbubble => e1.1 ≠ e2.1) acc.2 :=
    List.pairwise_map.mp (List.Pairwise.imp (fun h => h) hnd)
  rw [List.pairwise_map]
  have hboth : ∀ e1 ∈ acc.2, ∀ e2 ∈ acc.2, e1.1 ≠ e2.1 →
      (∀ x ∈ e1.2.inner_vertices, x ∉ e2.2.inner_vertices)
      ∧ e1.2.start_vertex ∉ e2.2.inner_vertices
      ∧ e1.2.end_vertex ∉ e2.2.inner_vertices
      ∧ e2.2.start_vertex ∉ e1.2.inner_vertices
      ∧ e2.2.end_vertex ∉ e1.2.inner_vertices := by
    intro e1 he1 e2 he2 hkne
    have hd12 := hpair e1 he1 e2 he2 hkne
    have hd21 := hpair e2 he2 e1 he1 (fun h => hkne h.symm)
    obtain ⟨hf1, _⟩ := find_superbubble_facts g e1.1 p hwf e1.2 (hres e1 he1)
    obtain ⟨hf2, _⟩ := find_superbubble_facts g e2.1 p hwf e2.2 (hres e2 he2)
    obtain ⟨r1, nd1, rc1, s1m, t1m, t1ne, main1⟩ := hf1
    obtain ⟨r2, nd2, rc2, s2m, t2m, t2ne, main2⟩ := hf2
    refine ⟨?_, ?_, ?_, ?_, ?_⟩
    · intro x hx hx2
      exact hd12 x hx ((mem_inner_iff e2.2 x).mp hx2).1
    · intro hmem
      exact hd21 e1.2.start_vertex hmem s1m
    · intro hmem
      exact hd21 e1.2.end_vertex hmem t1m
    · intro hmem
      exact hd12 e2.2.start_vertex hmem s2m
    · intro hmem
      exact hd12 e2.2.end_vertex hmem t2m
  exact List.Pairwise.imp_of_mem
    (fun ha hb h => hboth _ ha _ hb h) hkeyspw

/-- C3 witness: the pairwise disjointness holds on the diamond graph. -/
theorem c3_outer_disjoint_witness :
    exGraphDia.WfIds
      ∧ List.Pairwise (fun b1 b2 =>
        (∀ x ∈ b1.inner_vertices, x ∉ b2.inner_vertices)
        ∧ b1.start_vertex ∉ b2.inner_vertices
        ∧ b1.end_vertex ∉ b2.inner_vertices
        ∧ b2.start_vertex ∉ b1.inner_vertices
        ∧ b2.end_vertex ∉ b1.inner_vertices)
        (find_all_outer exGraphDia exParams) :=
  ⟨by unfold Graph.WfIds; decide,
    c3_outer_disjoint exGraphDia exParams (by unfold Graph.WfIds; decide)⟩

/-! ## Bidirected symmetry of the superbubble search (C4) -/

/-- Indicator sums over a list containing the tested element are at
least 1. -/
theorem sum_indicator_ge_one {α : Type} [DecidableEq α] (P : List α) (x : α)
    (hx : x ∈ P) : 1 ≤ (P.map (fun u => if x = u then 1 else 0)).sum := by
  induction P with
  | nil => simp at hx
  | cons u t ih =>
    simp only [List.map_cons, List.sum_cons]
    rcases List.mem_cons.mp hx with he | hm
    · rw [if_pos he]
      omega
    · have := ih hm
      omega

/-- If every link into `w` starts in `P`, the per-source filters cover
all of them. -/
theorem sources_filter_sum_ge (w : Vertex) :
    ∀ (L : List Link) (P : List Vertex),
      (∀ l ∈ L, l.endV = w → l.startV ∈ P) →
      (L.filter (fun l => l.endV = w)).length
        ≤ (P.map (fun u =>
            (L.filter (fun l => l.startV = u ∧ l.endV = w)).length)).sum := by
  intro L
  induction L with
  | nil => intro P _; simp
  | cons l t ih =>
    intro P hP
    have hstep : ∀ u : Vertex,
        ((l :: t).filter (fun l' => l'.startV = u ∧ l'.endV = w)).length
        = (if l.startV = u ∧ l.endV = w then 1 else 0)
          + (t.filter (fun l' => l'.startV = u ∧ l'.endV = w)).length := by
      intro u
      rw [List.filter_cons]
      by_cases h : l.startV = u ∧ l.endV = w
      · rw [if_pos (by simpa using h), if_pos h, List.length_cons]
        omega
      · rw [if_neg (by simpa using h), if_neg h]
        omega
    have hsplit : (P.map (fun u =>
        ((l :: t).filter (fun l' => l'.startV = u ∧ l'.endV = w)).length)).sum
        = (P.map (fun u => if l.startV = u ∧ l.endV = w then 1 else 0)).sum
          + (P.map (fun u =>
              (t.filter (fun l' => l'.startV = u ∧ l'.endV = w)).length)).sum := by
      rw [← sum_map_add_split]
      congr 1
      exact List.map_congr_left (fun u _ => hstep u)
    rw [hsplit, List.filter_cons]
    have h2 := ih P (fun l' hl' he => hP l' (List.mem_cons_of_mem l hl') he)
    by_cases hw : l.endV = w
    · rw [if_pos (by simpa using hw)]
      have h1 : 1 ≤ (P.map (fun u =>
          if l.startV = u ∧ l.endV = w then 1 else 0)).sum := by
        have hmem := hP l (List.mem_cons_self l t) hw
        calc 1 ≤ (P.map (fun u => if l.startV = u then 1 else 0)).sum :=
              sum_indicator_ge_one P l.startV hmem
          _ = (P.map (fun u =>
              if l.startV = u ∧ l.endV = w then 1 else 0)).sum := by
              congr 1
              apply List.map_congr_left
              intro u _
              by_cases hs : l.startV = u
              · rw [if_pos hs, if_pos ⟨hs, hw⟩]
              · rw [if_neg hs, if_neg (fun hc => hs hc.1)]
      simp only [List.length_cons]
      omega
    · rw [if_neg (by simpa using hw)]
      omega

/-- When every incoming link of `w` has a processed source, the relaxed
count reaches the full incoming count. -/
theorem relaxedEdges_full (g : Graph) (P : List Vertex) (hP : P.Nodup)
    (w : Vertex) (hall : ∀ l ∈ g.links, l.endV = w → l.startV ∈ P) :
    (relaxedEdges g P w).length = g.incoming_edge_cnt w := by
  have h1 := relaxedEdges_length_le g P hP w
  have h2 : g.incoming_edge_cnt w ≤ (relaxedEdges g P w).length := by
    rw [relaxedEdges_length_sum]
    unfold Graph.incoming_edge_cnt Graph.incoming_edges
    calc (g.links.filter (fun l => l.endV = w)).length
        ≤ (P.map (fun u =>
            (g.links.filter (fun l => l.startV = u ∧ l.endV = w)).length)).sum :=
          sources_filter_sum_ge w g.links P hall
      _ = (P.map (fun u =>
            ((g.outgoing_edges u).filter (fun l => l.endV = w)).length)).sum := by
          congr 1
          exact List.map_congr_left (fun u _ => by rw [outgoing_filter_eq])
  omega

/-- Abstract reachability of the search after expanding the vertices of
`Q`: the start itself, or the target of an outgoing link of an expanded
vertex. -/
def absReached (g : Graph) (s : Vertex) (Q : List Vertex) (x : Vertex) : Prop :=
  x = s ∨ ∃ u ∈ Q, ∃ l ∈ g.outgoing_edges u, l.endV = x

/-- Abstract form of the loop's end condition after expanding `Q`:
exactly one reached vertex is unexpanded, and every incoming link of it
comes from `Q`. -/
def AbsFire (g : Graph) (s : Vertex) (Q : List Vertex) : Prop :=
  ∃ x, x ∉ Q ∧ absReached g s Q x
    ∧ (∀ y, y ∉ Q → absReached g s Q y → y = x)
    ∧ ∀ l ∈ g.links, l.endV = x → l.startV ∈ Q

/-- With a non-empty processed list the start is processed. -/
theorem s_mem_processed (g : Graph) (s : Vertex) (st : SbSt)
    (hi : SbI g s st) (hp : st.processed ≠ []) : s ∈ st.processed := by
  rcases hi.sLoc with h | h
  · exact absurd (hi.sStack h).2 hp
  · exact h

/-- Under the boundary invariant the stored keys are exactly the
abstractly reached vertices. -/
theorem keys_absReached (g : Graph) (s : Vertex) (st : SbSt)
    (hi : SbI g s st) :
    ∀ x, x ∈ sbKeys st ↔ absReached g s st.processed x := by
  intro x
  constructor
  · intro hx
    by_cases hxs : x = s
    · exact .inl hxs
    · right
      have hval := hi.valSpec x hx hxs
      have hsome := alookup_isSome_of_mem st.reached x hx
      cases hrel : relaxedEdges g st.processed x with
      | nil =>
        rw [hrel] at hval
        simp only [List.map_nil, mergeFoldOpt] at hval
        rw [hval] at hsome
        simp at hsome
      | cons l t =>
        have hl : l ∈ relaxedEdges g st.processed x := by
          rw [hrel]
          exact List.mem_cons_self _ _
        have hend : l.endV = x := by
          have := List.of_mem_filter hl
          simpa using this
        refine ⟨l.startV, relaxedEdges_sources g _ _ _ hl, l, ?_, hend⟩
        exact List.mem_filter.mpr ⟨relaxedEdges_links g _ _ _ hl, by simp⟩
  · intro hx
    rcases hx with he | ⟨u, hu, l, hlo, hle⟩
    · rw [he]
      exact hi.sMem
    · have := (hi.procEdges u hu l hlo).1
      rwa [hle] at this

/-- The code's end condition implies the abstract one. -/
theorem absFire_of_code (g : Graph) (s : Vertex) (st : SbSt)
    (hi : SbI g s st) (hp : st.processed ≠ []) (x : Vertex)
    (hstk : st.stack = [x]) (hnr : st.nr = 0) :
    AbsFire g s st.processed := by
  have hsmem := s_mem_processed g s st hi hp
  have hxstack : x ∈ st.stack := by
    rw [hstk]
    exact List.mem_cons_self x []
  have hxkey := hi.stackKeys x hxstack
  have hxproc := hi.disj x hxstack
  have hxs : x ≠ s := by
    intro he
    exact hp (hi.sStack (he ▸ hxstack)).2
  refine ⟨x, hxproc, (keys_absReached g s st hi x).mp hxkey, ?_, ?_⟩
  · intro y hyproc hyr
    have hykey := (keys_absReached g s st hi y).mpr hyr
    have hfil : ((sbKeys st).filter
        (fun w => decide (w ≠ s ∧ w ∉ st.stack ∧ w ∉ st.processed))) = [] := by
      have h0 := hi.nrSpec
      rw [hnr] at h0
      exact List.length_eq_zero.mp h0.symm
    by_cases hys : y = s
    · exact absurd (hys ▸ hsmem) hyproc
    · by_cases hystk : y ∈ st.stack
      · rw [hstk] at hystk
        rcases List.mem_cons.mp hystk with he | hm
        · exact he
        · simp at hm
      · exfalso
        have : y ∈ ((sbKeys st).filter
            (fun w => decide (w ≠ s ∧ w ∉ st.stack ∧ w ∉ st.processed))) :=
          List.mem_filter.mpr ⟨hykey, by simp [hys, hystk, hyproc]⟩
        rw [hfil] at this
        simp at this
  · have hrem : st.rem x = 0 := (hi.ready x hxkey hxs).mpr (.inl hxstack)
    have hspec := hi.remSpec x hxkey hxs
    have hfull : (relaxedEdges g st.processed x).length
        = g.incoming_edge_cnt x := by omega
    exact ready_sources g st.processed hi.procND x hfull

/-- The abstract end condition implies the code's. -/
theorem code_of_absFire (g : Graph) (s : Vertex) (st : SbSt)
    (hi : SbI g s st) (hp : st.processed ≠ [])
    (hf : AbsFire g s st.processed) :
    ∃ x, st.stack = [x] ∧ st.nr = 0 := by
  obtain ⟨x, hxq, hxr, huniq, hready⟩ := hf
  have hsmem := s_mem_processed g s st hi hp
  have hxkey : x ∈ sbKeys st := (keys_absReached g s st hi x).mpr hxr
  have hxs : x ≠ s := fun he => hxq (he ▸ hsmem)
  have hfull := relaxedEdges_full g st.processed hi.procND x hready
  have hspec := hi.remSpec x hxkey hxs
  have hrem : st.rem x = 0 := by omega
  have hxstack : x ∈ st.stack := by
    rcases (hi.ready x hxkey hxs).mp hrem with h | h
    · exact h
    · exact absurd h hxq
  have hstacksub : ∀ y ∈ st.stack, y = x := by
    intro y hy
    exact huniq y (hi.disj y hy)
      ((keys_absReached g s st hi y).mp (hi.stackKeys y hy))
  have hstk : st.stack = [x] := by
    cases hs : st.stack with
    | nil =>
      rw [hs] at hxstack
      simp at hxstack
    | cons a t =>
      have ha : a = x := hstacksub a (by rw [hs]; exact List.mem_cons_self a t)
      have hnd := hi.stackND
      rw [hs] at hnd
      cases t with
      | nil => rw [ha]
      | cons b t2 =>
        have hb : b = x := hstacksub b (by rw [hs]; simp)
        exfalso
        rcases List.nodup_cons.mp hnd with ⟨hna, _⟩
        exact hna (by rw [ha, hb]; exact List.mem_cons_self x t2)
  refine ⟨x, hstk, ?_⟩
  rw [hi.nrSpec, List.length_eq_zero, List.eq_nil_iff_forall_not_mem]
  intro y hy
  have hykey := List.mem_of_mem_filter hy
  have hyp := List.of_mem_filter hy
  simp only [decide_eq_true_eq] at hyp
  obtain ⟨hys, hystk, hyproc⟩ := hyp
  have hyx := huniq y hyproc ((keys_absReached g s st hi y).mp hykey)
  rw [hyx] at hystk
  exact hystk hxstack

/-- Both merged bounds dominate every element of the history. -/
theorem foldl_merge_bounds : ∀ (t : List (Nat × Nat)) (acc : Nat × Nat),
    ((t.foldl merge_range acc).1 ≤ acc.1 ∧ acc.2 ≤ (t.foldl merge_range acc).2)
    ∧ ∀ x ∈ t, (t.foldl merge_range acc).1 ≤ x.1
      ∧ x.2 ≤ (t.foldl merge_range acc).2 := by
  intro t
  induction t with
  | nil => exact fun acc => ⟨⟨le_refl _, le_refl _⟩, by simp⟩
  | cons z t ih =>
    intro acc
    simp only [List.foldl_cons]
    have h1 := (ih (merge_range acc z)).1
    have hm1 : (merge_range acc z).1 = min acc.1 z.1 := rfl
    have hm2 : (merge_range acc z).2 = max acc.2 z.2 := rfl
    refine ⟨⟨?_, ?_⟩, ?_⟩
    · calc (List.foldl merge_range (merge_range acc z) t).1
          ≤ (merge_range acc z).1 := h1.1
        _ ≤ acc.1 := by rw [hm1]; exact min_le_left _ _
    · calc acc.2 ≤ (merge_range acc z).2 := by
            rw [hm2]; exact le_max_left _ _
        _ ≤ (List.foldl merge_range (merge_range acc z) t).2 := h1.2
    · intro x hx
      rcases List.mem_cons.mp hx with he | hm
      · subst he
        constructor
        · calc (List.foldl merge_range (merge_range acc x) t).1
              ≤ (merge_range acc x).1 := h1.1
            _ ≤ x.1 := by rw [hm1]; exact min_le_right _ _
        · calc x.2 ≤ (merge_range acc x).2 := by
                rw [hm2]; exact le_max_right _ _
            _ ≤ (List.foldl merge_range (merge_range acc x) t).2 := h1.2
      · exact (ih (merge_range acc z)).2 x hm

/-- The merged range bounds every element of its history. -/
theorem mergeFoldOpt_bounds (xs : List (Nat × Nat)) (r : Nat × Nat)
    (h : mergeFoldOpt xs = some r) :
    ∀ x ∈ xs, r.1 ≤ x.1 ∧ x.2 ≤ r.2 := by
  match xs with
  | [] => simp [mergeFoldOpt] at h
  | y :: t =>
    unfold mergeFoldOpt at h
    injection h with h
    intro x hx
    rcases List.mem_cons.mp hx with he | hm
    · subst he
      rw [← h]
      exact ⟨(foldl_merge_bounds t x).1.1, (foldl_merge_bounds t x).1.2⟩
    · rw [← h]
      exact (foldl_merge_bounds t y).2 x hm

/-- An element whose first-occurrence index is below `k` lies in the
`k`-prefix. -/
theorem mem_take_of_listIdx {α : Type} [DecidableEq α] :
    ∀ (L : List α) (x : α) (k : Nat), x ∈ L → listIdx L x < k →
      x ∈ L.take k := by
  intro L
  induction L with
  | nil => intro x k hx; simp at hx
  | cons a t ih =>
    intro x k hx hlt
    by_cases hax : a = x
    · subst hax
      cases k with
      | zero =>
        unfold listIdx at hlt
        rw [if_pos rfl] at hlt
        omega
      | succ k =>
        rw [List.take_succ_cons]
        exact List.mem_cons_self _ _
    · have hxt : x ∈ t := by
        rcases List.mem_cons.mp hx with he | hm
        · exact absurd he.symm hax
        · exact hm
      unfold listIdx at hlt
      rw [if_neg hax] at hlt
      cases k with
      | zero => omega
      | succ k =>
        rw [List.take_succ_cons]
        exact List.mem_cons_of_mem a (ih x k hxt (by omega))

/-- Every element is at most the folded maximum. -/
theorem foldr_max_ub (ns : List Nat) : ∀ n ∈ ns, n ≤ ns.foldr max 0 := by
  induction ns with
  | nil => simp
  | cons a t ih =>
    intro n hn
    simp only [List.foldr_cons]
    rcases List.mem_cons.mp hn with he | hm
    · rw [he]
      exact le_max_left _ _
    · exact le_trans (ih n hm) (le_max_right _ _)

/-- The folded maximum of a non-empty list is bounded by some element. -/
theorem foldr_max_attained (ns : List Nat) (h : ns ≠ []) :
    ∃ n ∈ ns, ns.foldr max 0 ≤ n := by
  induction ns with
  | nil => exact absurd rfl h
  | cons a t ih =>
    cases t with
    | nil =>
      refine ⟨a, List.mem_cons_self a [], ?_⟩
      simp
    | cons b t2 =>
      rcases ih (by simp) with ⟨n, hn, hle⟩
      rcases max_choice a (List.foldr max 0 (b :: t2)) with he | he
      · refine ⟨a, List.mem_cons_self a _, ?_⟩
        show max a (List.foldr max 0 (b :: t2)) ≤ a
        rw [he]
      · refine ⟨n, List.mem_cons_of_mem a hn, ?_⟩
        show max a (List.foldr max 0 (b :: t2)) ≤ n
        rw [he]
        exact hle

/-- `relaxFin` never drops a key. -/
theorem relaxFin_keys_mono (g : Graph) (l : Link) (st : SbSt) :
    ∀ y ∈ sbKeys st, y ∈ sbKeys (relaxFin g l st) := by
  intro y hy
  unfold relaxFin
  dsimp only
  split
  · simp only [sbKeys]
    exact (mem_ainsert_keys _ _ _ _).mpr (.inl hy)
  · simp only [sbKeys]
    exact (mem_ainsert_keys _ _ _ _).mpr (.inl hy)

/-- `relaxOne` never drops a key. -/
theorem relaxOne_keys_mono (g : Graph) (s : Vertex) (st : SbSt) (l : Link)
    (st' : SbSt) (h : relaxOne g s st l = some st') :
    ∀ y ∈ sbKeys st, y ∈ sbKeys st' := by
  unfold relaxOne at h
  dsimp only at h
  split at h
  · exact absurd h (by simp)
  · split at h
    · split at h
      · exact absurd h (by simp)
      · injection h with h
        intro y hy
        rw [← h]
        apply relaxFin_keys_mono
        simp only [sbKeys]
        exact (mem_ainsert_keys _ _ _ _).mpr (.inl hy)
    · injection h with h
      intro y hy
      rw [← h]
      exact relaxFin_keys_mono g l st y hy

/-- `relaxList` never drops a key. -/
theorem relaxList_keys_mono (g : Graph) (s : Vertex) :
    ∀ (L : List Link) (st st1 : SbSt), relaxList g s st L = some st1 →
    ∀ y ∈ sbKeys st, y ∈ sbKeys st1 := by
  intro L
  induction L with
  | nil =>
    intro st st1 h y hy
    unfold relaxList at h
    injection h with h
    rw [← h]
    exact hy
  | cons l t ih =>
    intro st st1 h y hy
    unfold relaxList at h
    cases ho : relaxOne g s st l with
    | none => rw [ho] at h; simp at h
    | some st' =>
      rw [ho] at h
      exact ih st' st1 h y (relaxOne_keys_mono g s st l st' ho y hy)

/-- At the end condition every key is the sink, the start, or processed. -/
theorem fire_split (g : Graph) (s : Vertex) (st : SbSt) (hi : SbI g s st)
    (x : Vertex) (hstk : st.stack = [x]) (hnr : st.nr = 0) :
    ∀ y ∈ sbKeys st, y ∉ st.processed → y = x ∨ y = s := by
  intro y hy hyp
  by_cases hys : y = s
  · exact .inr hys
  · left
    have hfil : ((sbKeys st).filter
        (fun w => decide (w ≠ s ∧ w ∉ st.stack ∧ w ∉ st.processed))) = [] := by
      have h0 := hi.nrSpec
      rw [hnr] at h0
      exact List.length_eq_zero.mp h0.symm
    by_cases hystk : y ∈ st.stack
    · rw [hstk] at hystk
      rcases List.mem_cons.mp hystk with he | hm
      · exact he
      · simp at hm
    · exfalso
      have : y ∈ ((sbKeys st).filter
          (fun w => decide (w ≠ s ∧ w ∉ st.stack ∧ w ∉ st.processed))) :=
        List.mem_filter.mpr ⟨hy, by simp [hys, hystk, hyp]⟩
      rw [hfil] at this
      simp at this

/-- A successful search, traced: the final state pack, the processed
prefix relation, absence of the end condition at every strictly earlier
boundary, the count accounting, the sink's incoming multiplicity and the
final threshold checks. -/
theorem sbLoop_run (g : Graph) (p : SbSearchParams) (s : Vertex)
    (hwf : g.WfIds) :
    ∀ fuel (st : SbSt) (b : Superbubble), SbI g s st →
    (st.processed = [] ∨ ¬ ∃ x, st.stack = [x] ∧ st.nr = 0) →
    sbLoop g p s fuel st = some (some b) →
    ∃ st2 : SbSt, SbI g s st2 ∧ st2.stack = [b.end_vertex] ∧ st2.nr = 0
      ∧ st2.processed ≠ [] ∧ b.start_vertex = s
      ∧ b.reached_vertices = st2.reached
      ∧ st.processed <+: st2.processed
      ∧ (∀ k, st.processed.length < k → k < st2.processed.length →
          ¬ AbsFire g s (st2.processed.take k))
      ∧ (st2.reached.length ≤ p.max_count ∨ st2.processed = [s])
      ∧ (2 ≤ g.incoming_edge_cnt b.end_vertex ∨ st2.processed = [s])
      ∧ ¬(((alookup st2.reached b.end_vertex).getD (0, 0)).1
            > (g.node b.end_vertex.nodeId).length
          ∧ ((alookup st2.reached b.end_vertex).getD (0, 0)).1
            - (g.node b.end_vertex.nodeId).length > p.max_length)
      ∧ ¬(((alookup st2.reached b.end_vertex).getD (0, 0)).2
            - ((alookup st2.reached b.end_vertex).getD (0, 0)).1
          > p.max_diff) := by
  intro fuel
  induction fuel with
  | zero => intro st b _ _ h; simp [sbLoop] at h
  | succ fuel ih =>
    intro st b hi hnf h
    rw [sbLoop] at h
    cases hstack : st.stack with
    | nil => rw [hstack] at h; simp at h
    | cons v rest =>
      rw [hstack] at h
      dsimp only at h
      by_cases hmc : st.reached.length > p.max_count
      · rw [if_pos hmc] at h
        simp at h
      · rw [if_neg hmc] at h
        by_cases hout : g.outgoing_edge_cnt v = 0
        · rw [if_pos hout] at h
          simp at h
        · rw [if_neg hout] at h
          cases hrel : relaxList g s { st with stack := rest }
              (g.outgoing_edges v) with
          | none => rw [hrel] at h; simp at h
          | some st1 =>
            rw [hrel] at h
            dsimp only at h
            have hmid0 := sbPop_inv g s v rest st hi hstack
            have hmid := relaxList_inv g s v hwf (g.outgoing_edges v) [] _
              (by simp) hmid0 st1 hrel
            have hb := sbAppend_inv g s v st1 hmid hout
            have hproc : st1.processed = st.processed := by
              have := relaxList_processed g s _ _ _ hrel
              simpa using this
            have hvstack : v ∈ st.stack := by
              rw [hstack]
              exact List.mem_cons_self v rest
            have hmono : ∀ y ∈ sbKeys st, y ∈ sbKeys st1 := by
              intro y hy
              exact relaxList_keys_mono g s _ _ _ hrel y hy
            have hstep : ∀ (stk : List Vertex) (nrv : Nat),
                (¬ ∃ x, stk = [x] ∧ nrv = 0) →
                SbI g s { reached := st1.reached, stack := stk, nr := nrv, rem := st1.rem, processed := st1.processed ++ [v] } →
                sbLoop g p s fuel { reached := st1.reached, stack := stk, nr := nrv, rem := st1.rem, processed := st1.processed ++ [v] } = some (some b) →
                ∃ st2 : SbSt, SbI g s st2 ∧ st2.stack = [b.end_vertex]
                  ∧ st2.nr = 0
                  ∧ st2.processed ≠ [] ∧ b.start_vertex = s
                  ∧ b.reached_vertices = st2.reached
                  ∧ st.processed <+: st2.processed
                  ∧ (∀ k, st.processed.length < k → k < st2.processed.length →
                      ¬ AbsFire g s (st2.processed.take k))
                  ∧ (st2.reached.length ≤ p.max_count ∨ st2.processed = [s])
                  ∧ (2 ≤ g.incoming_edge_cnt b.end_vertex
                      ∨ st2.processed = [s])
                  ∧ ¬(((alookup st2.reached b.end_vertex).getD (0, 0)).1
                        > (g.node b.end_vertex.nodeId).length
                      ∧ ((alookup st2.reached b.end_vertex).getD (0, 0)).1
                        - (g.node b.end_vertex.nodeId).length > p.max_length)
                  ∧ ¬(((alookup st2.reached b.end_vertex).getD (0, 0)).2
                        - ((alookup st2.reached b.end_vertex).getD (0, 0)).1
                      > p.max_diff) := by
              intro stk nrv hnof hb2 hrec
              have hpne2 : ({ reached := st1.reached, stack := stk, nr := nrv, rem := st1.rem, processed := st1.processed ++ [v] }
                  : SbSt).processed ≠ [] := by simp
              obtain ⟨st2, hI, hstk2, hnr2, hpn2, hbs2, hbr2, hpre2, hnf2,
                hcnt2, hinc2, hchk1, hchk2⟩ := ih _ b hb2 (.inr hnof) hrec
              have hpre0 : st.processed <+:
                  ({ reached := st1.reached, stack := stk, nr := nrv, rem := st1.rem, processed := st1.processed ++ [v] }
                    : SbSt).processed := by
                dsimp only
                rw [hproc]
                exact List.prefix_append _ _
              have hlen1 : ({ reached := st1.reached, stack := stk, nr := nrv, rem := st1.rem, processed := st1.processed ++ [v] }
                  : SbSt).processed.length = st.processed.length + 1 := by
                dsimp only
                rw [List.length_append, hproc]
                simp
              refine ⟨st2, hI, hstk2, hnr2, hpn2, hbs2, hbr2,
                hpre0.trans hpre2, ?_, hcnt2, hinc2, hchk1, hchk2⟩
              intro k hk1 hk2
              by_cases hke : k = st.processed.length + 1
              · subst hke
                have htake : st2.processed.take (st.processed.length + 1)
                    = st1.processed ++ [v] := by
                  have h0 := List.prefix_iff_eq_take.mp hpre2
                  rw [hlen1] at h0
                  exact h0.symm
                rw [htake]
                intro hfire
                have hfire2 : AbsFire g s
                    ({ reached := st1.reached, stack := stk, nr := nrv, rem := st1.rem, processed := st1.processed ++ [v] }
                      : SbSt).processed := hfire
                rcases code_of_absFire g s _ hb2 hpne2 hfire2 with ⟨x, hx1, hx2⟩
                exact hnof ⟨x, hx1, hx2⟩
              · refine hnf2 k ?_ hk2
                rw [hlen1]
                omega
            cases hs2 : st1.stack with
            | nil =>
              rw [hs2] at h hb
              dsimp only at h
              refine hstep [] st1.nr ?_ hb h
              rintro ⟨x, hx, -⟩
              simp at hx
            | cons t1 rest2 =>
              rw [hs2] at h hb
              cases rest2 with
              | cons t2 rest3 =>
                dsimp only at h
                refine hstep (t1 :: t2 :: rest3) st1.nr ?_ hb h
                rintro ⟨x, hx, -⟩
                simp at hx
              | nil =>
                cases hnr : st1.nr with
                | succ m =>
                  rw [hnr] at h hb
                  refine hstep [t1] (m + 1) ?_ hb h
                  rintro ⟨x, -, hx0⟩
                  simp at hx0
                | zero =>
                  rw [hnr] at h hb
                  dsimp only at h
                  split at h
                  · simp at h
                  · split at h
                    · simp at h
                    · rename_i hc1 hc2
                      injection h with h
                      injection h with h
                      have hstk2 : ({ reached := st1.reached, stack := [t1], nr := 0, rem := st1.rem, processed := st1.processed ++ [v] } : SbSt).stack
                          = [t1] := rfl
                      have hnr2 : ({ reached := st1.reached, stack := [t1], nr := 0, rem := st1.rem, processed := st1.processed ++ [v] } : SbSt).nr
                          = 0 := rfl
                      have hpne : ({ reached := st1.reached, stack := [t1], nr := 0, rem := st1.rem, processed := st1.processed ++ [v] } : SbSt).processed
                          ≠ [] := by simp
                      have ht1stack : t1 ∈ ({ reached := st1.reached, stack := [t1], nr := 0, rem := st1.rem, processed := st1.processed ++ [v] } : SbSt).stack := by
                        rw [hstk2]
                        exact List.mem_cons_self t1 []
                      have ht1key := hb.stackKeys t1 ht1stack
                      have ht1np := hb.disj t1 ht1stack
                      have ht1s : t1 ≠ s := by
                        intro he
                        exact hpne (hb.sStack (he ▸ ht1stack)).2
                      have hsplit2 := fire_split g s _ hb t1 hstk2 hnr2
                      have hvkey : v ∈ sbKeys st := hi.stackKeys v hvstack
                      have hvnp : v ∉ st.processed := hi.disj v hvstack
                      have hvproc2 : v ∈ ({ reached := st1.reached, stack := [t1], nr := 0, rem := st1.rem, processed := st1.processed ++ [v] } : SbSt).processed := by
                        dsimp only
                        exact List.mem_append_right _ (List.mem_cons_self v [])
                      have hexp : (({ reached := st1.reached, stack := [t1], nr := 0, rem := st1.rem, processed := st1.processed ++ [v] }
                            : SbSt).reached.length ≤ p.max_count
                          ∧ 2 ≤ g.incoming_edge_cnt t1)
                          ∨ ({ reached := st1.reached, stack := [t1], nr := 0, rem := st1.rem, processed := st1.processed ++ [v] }
                            : SbSt).processed = [s] := by
                        by_cases ht1old : t1 ∈ sbKeys st
                        · left
                          constructor
                          · have hsub : ∀ y ∈ sbKeys { reached := st1.reached, stack := [t1], nr := 0, rem := st1.rem, processed := st1.processed ++ [v] },
                                y ∈ sbKeys st := by
                              intro y hy
                              by_cases hyp : y ∈ ({ reached := st1.reached, stack := [t1], nr := 0, rem := st1.rem, processed := st1.processed ++ [v] }
                                  : SbSt).processed
                              · dsimp only at hyp
                                rcases List.mem_append.mp hyp with h1 | h1
                                · rw [hproc] at h1
                                  exact hi.procKeys y h1
                                · simp at h1
                                  rw [h1]
                                  exact hvkey
                              · rcases hsplit2 y hy hyp with h1 | h1
                                · rw [h1]
                                  exact ht1old
                                · rw [h1]
                                  exact hi.sMem
                            have h0 := nodup_subset_length_le _ _
                              hb.keysND hi.keysND hsub
                            simp only [sbKeys, List.length_map] at h0
                            show st1.reached.length ≤ p.max_count
                            omega
                          · have hold : ∃ l0, l0 ∈
                                relaxedEdges g st.processed t1 := by
                              have habs :=
                                (keys_absReached g s st hi t1).mp ht1old
                              rcases habs with he | ⟨u, hu, l0, hlo, hle⟩
                              · exact absurd he ht1s
                              · refine ⟨l0, ?_⟩
                                unfold relaxedEdges
                                exact List.mem_filter.mpr
                                  ⟨List.mem_flatMap.mpr ⟨u, hu, hlo⟩,
                                    by simp [hle]⟩
                            have hvnew : ∃ l0 ∈ g.outgoing_edges v,
                                l0.endV = t1 := by
                              cases hov : g.outgoing_edges v with
                              | nil =>
                                exact absurd (by
                                  unfold Graph.outgoing_edge_cnt
                                  rw [hov]
                                  rfl) hout
                              | cons l0 tl =>
                                have hl0 : l0 ∈ g.outgoing_edges v := by
                                  rw [hov]
                                  exact List.mem_cons_self _ _
                                have hy := hb.procEdges v hvproc2 l0 hl0
                                have hynp : l0.endV ∉ ({ reached := st1.reached, stack := [t1], nr := 0, rem := st1.rem, processed := st1.processed ++ [v] }
                                    : SbSt).processed := by
                                  intro hc
                                  dsimp only at hc
                                  rcases List.mem_append.mp hc with h1 | h1
                                  · rw [hproc] at h1
                                    have hekey := hi.procKeys _ h1
                                    have hes : l0.endV ≠ s := hy.2
                                    have hrem0e : st.rem l0.endV = 0 :=
                                      (hi.ready _ hekey hes).mpr (.inr h1)
                                    have hspec := hi.remSpec _ hekey hes
                                    have hfull :
                                        (relaxedEdges g st.processed
                                          l0.endV).length
                                        = g.incoming_edge_cnt l0.endV := by
                                      omega
                                    have hsrc := ready_sources g st.processed
                                      hi.procND _ hfull l0
                                      (outgoing_mem_links g v l0 hl0) rfl
                                    rw [outgoing_start g v l0 hl0] at hsrc
                                    exact hvnp hsrc
                                  · simp at h1
                                    have hvs : v ≠ s := by
                                      intro he
                                      exact hy.2 (by rw [h1, he])
                                    have hrem0v : st.rem v = 0 :=
                                      (hi.ready v hvkey hvs).mpr
                                        (.inl hvstack)
                                    have hspec := hi.remSpec v hvkey hvs
                                    have hfull :
                                        (relaxedEdges g st.processed v).length
                                        = g.incoming_edge_cnt v := by omega
                                    have hsrc := ready_sources g st.processed
                                      hi.procND v hfull l0
                                      (outgoing_mem_links g v l0 hl0) h1
                                    rw [outgoing_start g v l0 hl0] at hsrc
                                    exact hvnp hsrc
                                rcases hsplit2 _ hy.1 hynp with h1 | h1
                                · exact ⟨l0, List.mem_cons_self l0 tl, h1⟩
                                · exact absurd h1 hy.2
                            obtain ⟨la, hla⟩ := hold
                            obtain ⟨lb, hlb, hlbe⟩ := hvnew
                            have hrem0 : ({ reached := st1.reached, stack := [t1], nr := 0, rem := st1.rem, processed := st1.processed ++ [v] }
                                : SbSt).rem t1 = 0 :=
                              (hb.ready t1 ht1key ht1s).mpr (.inl ht1stack)
                            have hspec := hb.remSpec t1 ht1key ht1s
                            dsimp only at hspec hrem0
                            rw [hproc] at hspec
                            have hfull2 : (relaxedEdges g
                                (st.processed ++ [v]) t1).length
                                = g.incoming_edge_cnt t1 := by omega
                            have hlb2 : lb ∈ relaxedEdges g [v] t1 := by
                              rw [relaxedEdges_singleton]
                              exact List.mem_filter.mpr ⟨hlb, by simp [hlbe]⟩
                            have hla3 := List.length_pos_of_mem hla
                            have hlb3 := List.length_pos_of_mem hlb2
                            rw [← hfull2, relaxedEdges_append,
                              List.length_append]
                            omega
                        · right
                          have hnr0 : st.nr = 0 := by
                            rw [hi.nrSpec, List.length_eq_zero,
                              List.eq_nil_iff_forall_not_mem]
                            intro y hy
                            have hykey := List.mem_of_mem_filter hy
                            have hyp0 := List.of_mem_filter hy
                            simp only [decide_eq_true_eq] at hyp0
                            obtain ⟨hys, hystk, hyproc⟩ := hyp0
                            have hykey2 := hmono y hykey
                            have hynp2 : y ∉ ({ reached := st1.reached, stack := [t1], nr := 0, rem := st1.rem, processed := st1.processed ++ [v] }
                                : SbSt).processed := by
                              intro hc
                              dsimp only at hc
                              rcases List.mem_append.mp hc with h1 | h1
                              · rw [hproc] at h1
                                exact hyproc h1
                              · simp at h1
                                rw [h1] at hystk
                                exact hystk hvstack
                            rcases hsplit2 y hykey2 hynp2 with h1 | h1
                            · rw [h1] at hykey
                              exact ht1old hykey
                            · exact hys h1
                          have hrest : rest = [] := by
                            cases hr : rest with
                            | nil => rfl
                            | cons y rest2b =>
                              exfalso
                              have hymem : y ∈ st.stack := by
                                rw [hstack, hr]
                                exact List.mem_cons_of_mem v
                                  (List.mem_cons_self y rest2b)
                              have hykey := hi.stackKeys y hymem
                              have hyproc := hi.disj y hymem
                              have hyv : y ≠ v := by
                                intro he
                                have hnd := hi.stackND
                                rw [hstack, hr] at hnd
                                refine (List.nodup_cons.mp hnd).1 ?_
                                rw [← he]
                                exact List.mem_cons_self y rest2b
                              have hynp2 : y ∉ ({ reached := st1.reached, stack := [t1], nr := 0, rem := st1.rem, processed := st1.processed ++ [v] }
                                  : SbSt).processed := by
                                intro hc
                                dsimp only at hc
                                rcases List.mem_append.mp hc with h1 | h1
                                · rw [hproc] at h1
                                  exact hyproc h1
                                · simp at h1
                                  exact hyv h1
                              rcases hsplit2 y (hmono y hykey) hynp2
                                  with h1 | h1
                              · rw [h1] at hykey
                                exact ht1old hykey
                              · rw [h1] at hymem
                                have hss := (hi.sStack hymem).1
                                rw [hstack, hr] at hss
                                injection hss with h2 h3
                                simp at h3
                          have hvstk1 : st.stack = [v] := by
                            rw [hstack, hrest]
                          have hpe : st.processed = [] := by
                            rcases hnf with h1 | h1
                            · exact h1
                            · exact absurd ⟨v, hvstk1, hnr0⟩ h1
                          have hvs : v = s := by
                            rcases hi.sLoc with h1 | h1
                            · rw [hvstk1] at h1
                              rcases List.mem_cons.mp h1 with he | hm
                              · exact he.symm
                              · simp at hm
                            · rw [hpe] at h1
                              simp at h1
                          dsimp only
                          rw [hproc, hpe, hvs]
                          rfl
                      refine ⟨{ reached := st1.reached, stack := [t1], nr := 0, rem := st1.rem, processed := st1.processed ++ [v] },
                        hb, ?_, hnr2, hpne, ?_, ?_, ?_, ?_, ?_, ?_, ?_, ?_⟩
                      · rw [← h]
                      · rw [← h]
                      · rw [← h]
                      · dsimp only
                        rw [hproc]
                        exact List.prefix_append _ _
                      · intro k hk1 hk2
                        exfalso
                        have hll : ({ reached := st1.reached, stack := [t1], nr := 0, rem := st1.rem, processed := st1.processed ++ [v] }
                            : SbSt).processed.length
                            = st.processed.length + 1 := by
                          dsimp only
                          rw [List.length_append, hproc]
                          simp
                        omega
                      · rcases hexp with ⟨h1, -⟩ | h1
                        · exact .inl h1
                        · exact .inr h1
                      · rcases hexp with ⟨-, h1⟩ | h1
                        · rw [← h]
                          exact .inl h1
                        · exact .inr h1
                      · rw [← h]
                        exact hc1
                      · rw [← h]
                        exact hc2

/-- A vertex with at least one incoming link has an incoming graph link. -/
theorem in_edge_exists (g : Graph) (w : Vertex)
    (h : 1 ≤ g.incoming_edge_cnt w) : ∃ l ∈ g.links, l.endV = w := by
  unfold Graph.incoming_edge_cnt at h
  cases hinc : g.incoming_edges w with
  | nil => rw [hinc] at h; simp at h
  | cons l t =>
    have hl : l ∈ g.incoming_edges w := by
      rw [hinc]
      exact List.mem_cons_self l t
    exact ⟨l, incoming_mem_links g w l hl, incoming_end g w l hl⟩

/-- The first processed vertex is the start. -/
theorem proc_head_s (g : Graph) (s : Vertex) (st : SbSt) (hi : SbI g s st)
    (hp : st.processed ≠ []) : st.processed.head? = some s := by
  cases hpr : st.processed with
  | nil => exact absurd hpr hp
  | cons a t0 =>
    have hamem : a ∈ st.processed := by
      rw [hpr]
      exact List.mem_cons_self a t0
    have ha : a = s := by
      by_contra has
      have hakey := hi.procKeys a hamem
      obtain ⟨l, hl, hle⟩ := in_edge_exists g a (hi.keysInc a hakey has)
      have hj := listIdx_lt_length st.processed a hamem
      have hget := listIdx_get_self st.processed a hamem hj
      have hidx : listIdx st.processed a = 0 := by
        rw [hpr]
        unfold listIdx
        rw [if_pos rfl]
      have htopo := hi.topo _ hj (by rw [hget]; exact has) l hl
        (by rw [hget]; exact hle)
      rw [hidx] at htopo
      simp at htopo
    rw [ha]
    rfl

/-- At the end condition the keys are exactly the processed list plus the
sink. -/
theorem final_keys (g : Graph) (s t : Vertex) (st2 : SbSt)
    (hi : SbI g s st2) (hstk : st2.stack = [t]) (hnr : st2.nr = 0)
    (hpn : st2.processed ≠ []) :
    ∀ y, y ∈ sbKeys st2 ↔ y ∈ st2.processed ++ [t] := by
  intro y
  constructor
  · intro hy
    by_cases hyp : y ∈ st2.processed
    · exact List.mem_append_left _ hyp
    · rcases fire_split g s st2 hi t hstk hnr y hy hyp with h1 | h1
      · rw [h1]
        exact List.mem_append_right _ (List.mem_cons_self t [])
      · exact absurd (h1 ▸ s_mem_processed g s st2 hi hpn) hyp
  · intro hy
    rcases List.mem_append.mp hy with h1 | h1
    · exact hi.procKeys y h1
    · simp at h1
      rw [h1]
      exact hi.stackKeys t (by rw [hstk]; exact List.mem_cons_self t [])

/-- At the end condition every key other than the start has all its
incoming links sourced in the processed list. -/
theorem final_all_full (g : Graph) (s t : Vertex) (st2 : SbSt)
    (hi : SbI g s st2) (hstk : st2.stack = [t]) (hnr : st2.nr = 0) :
    ∀ w ∈ sbKeys st2, w ≠ s →
    ∀ l ∈ g.links, l.endV = w → l.startV ∈ st2.processed := by
  intro w hw hws l hl hle
  by_cases hwp : w ∈ st2.processed
  · have hj := listIdx_lt_length st2.processed w hwp
    have hget : st2.processed.get ⟨listIdx st2.processed w, hj⟩ = w :=
      listIdx_get_self st2.processed w hwp hj
    have := hi.topo (listIdx st2.processed w) hj
      (by rw [hget]; exact hws) l hl (by rw [hget]; exact hle)
    exact List.mem_of_mem_take this
  · rcases fire_split g s st2 hi t hstk hnr w hw hwp with h1 | h1
    · subst h1
      have hts : w ≠ s := hws
      have htstack : w ∈ st2.stack := by
        rw [hstk]
        exact List.mem_cons_self w []
      have hrem : st2.rem w = 0 := (hi.ready w hw hws).mpr (.inl htstack)
      have hspec := hi.remSpec w hw hws
      have hfull : (relaxedEdges g st2.processed w).length
          = g.incoming_edge_cnt w := by omega
      exact ready_sources g st2.processed hi.procND w hfull l hl hle
    · exact absurd h1 hws

/-- The structural skeleton of a successful search: the processed order
followed by the sink, carrying the incidence, ordering and no-early-end
facts of the run. -/
structure SbShape (g : Graph) (s t : Vertex) (P : List Vertex) : Prop where
  nd : P.Nodup
  hd : P.head? = some s
  tl : P.getLast? = some t
  hlen : 2 ≤ P.length
  rcF : ∀ w ∈ P, w.rc ∉ P
  inEx : ∀ w ∈ P, w ≠ s → ∃ l ∈ g.links, l.endV = w
  topoT : ∀ j, (hj : j < P.length) → P.get ⟨j, hj⟩ ≠ s →
    ∀ l ∈ g.links, l.endV = P.get ⟨j, hj⟩ → l.startV ∈ P.take j
  outEx : ∀ u ∈ P, u ≠ t → g.outgoing_edges u ≠ []
  outIn : ∀ u ∈ P, u ≠ t → ∀ l ∈ g.outgoing_edges u, l.endV ∈ P ∧ l.endV ≠ s
  noFire : ∀ k, 0 < k → k + 1 < P.length → ¬ AbsFire g s (P.take k)

/-- A finished run yields the structural skeleton over its processed
order extended by the sink. -/
theorem shape_of_run (g : Graph) (s t : Vertex) (st2 : SbSt)
    (hi : SbI g s st2) (hstk : st2.stack = [t]) (hnr : st2.nr = 0)
    (hpn : st2.processed ≠ [])
    (hnofire : ∀ k, 0 < k → k < st2.processed.length →
      ¬ AbsFire g s (st2.processed.take k)) :
    SbShape g s t (st2.processed ++ [t]) := by
  have htstack : t ∈ st2.stack := by
    rw [hstk]
    exact List.mem_cons_self t []
  have htkey := hi.stackKeys t htstack
  have htnp := hi.disj t htstack
  have hkeysP := final_keys g s t st2 hi hstk hnr hpn
  have hPkeys : ∀ w ∈ st2.processed ++ [t], w ∈ sbKeys st2 :=
    fun w hw => (hkeysP w).mpr hw
  refine {
    nd := nodup_append_single _ _ hi.procND htnp
    hd := ?_
    tl := List.getLast?_concat _
    hlen := ?_
    rcF := ?_
    inEx := ?_
    topoT := ?_
    outEx := ?_
    outIn := ?_
    noFire := ?_ }
  · rw [List.head?_append_of_ne_nil _ hpn]
    exact proc_head_s g s st2 hi hpn
  · rw [List.length_append, List.length_singleton]
    cases hpr : st2.processed with
    | nil => exact absurd hpr hpn
    | cons a t0 => simp
  · intro w hw hc
    exact hi.rcFree w (hPkeys w hw) (hPkeys w.rc hc)
  · intro w hw hws
    exact in_edge_exists g w (hi.keysInc w (hPkeys w hw) hws)
  · intro j hj hgs l hl hle
    have hjlen : j < st2.processed.length + 1 := by
      rw [List.length_append, List.length_singleton] at hj
      exact hj
    by_cases hjp : j < st2.processed.length
    · have hget : (st2.processed ++ [t]).get ⟨j, hj⟩
          = st2.processed.get ⟨j, hjp⟩ := by
        rw [List.get_eq_getElem, List.get_eq_getElem]
        exact List.getElem_append_left hjp
      rw [hget] at hgs hle
      have := hi.topo j hjp hgs l hl hle
      rw [List.take_append_of_le_length (le_of_lt hjp)]
      exact this
    · have hje : j = st2.processed.length := by omega
      have hget : (st2.processed ++ [t]).get ⟨j, hj⟩ = t := by
        rw [List.get_eq_getElem]
        subst hje
        rw [List.getElem_append_right (le_refl _)]
        simp
      rw [hget] at hle
      have hsrc := final_all_full g s t st2 hi hstk hnr t htkey
        (by rw [← hget]; exact hgs) l hl hle
      subst hje
      rw [List.take_append_of_le_length (le_refl _), List.take_length]
      exact hsrc
  · intro u hu hut
    have hup : u ∈ st2.processed := by
      rcases List.mem_append.mp hu with h1 | h1
      · exact h1
      · simp at h1
        exact absurd h1 hut
    have := hi.procOut u hup
    unfold Graph.outgoing_edge_cnt at this
    intro hc
    rw [hc] at this
    simp at this
  · intro u hu hut l hl
    have hup : u ∈ st2.processed := by
      rcases List.mem_append.mp hu with h1 | h1
      · exact h1
      · simp at h1
        exact absurd h1 hut
    have := hi.procEdges u hup l hl
    exact ⟨(hkeysP l.endV).mp this.1, this.2⟩
  · intro k hk1 hk2 hfire
    rw [List.length_append, List.length_singleton] at hk2
    rw [List.take_append_of_le_length (by omega)] at hfire
    exact hnofire k hk1 (by omega) hfire

/-- A successful `find_superbubble` call, traced to its final state and
run facts. -/
theorem find_superbubble_run (g : Graph) (v : Vertex) (p : SbSearchParams)
    (hwf : g.WfIds) (b : Superbubble)
    (h : find_superbubble g v p = some b) :
    ∃ st2 : SbSt, SbI g v st2 ∧ st2.stack = [b.end_vertex] ∧ st2.nr = 0
      ∧ st2.processed ≠ [] ∧ b.start_vertex = v
      ∧ b.reached_vertices = st2.reached
      ∧ (∀ k, 0 < k → k < st2.processed.length →
          ¬ AbsFire g v (st2.processed.take k))
      ∧ (st2.reached.length ≤ p.max_count ∨ st2.processed = [v])
      ∧ (2 ≤ g.incoming_edge_cnt b.end_vertex ∨ st2.processed = [v])
      ∧ ¬(((alookup st2.reached b.end_vertex).getD (0, 0)).1
            > (g.node b.end_vertex.nodeId).length
          ∧ ((alookup st2.reached b.end_vertex).getD (0, 0)).1
            - (g.node b.end_vertex.nodeId).length > p.max_length)
      ∧ ¬(((alookup st2.reached b.end_vertex).getD (0, 0)).2
            - ((alookup st2.reached b.end_vertex).getD (0, 0)).1
          > p.max_diff)
      ∧ ¬ g.outgoing_edge_cnt v < 2
      ∧ ¬ ((g.outgoing_edges v).filter
            (fun l => ¬ l.startV = l.endV)).length < 2
      ∧ 1 ≤ p.max_count := by
  unfold find_superbubble at h
  split at h
  · simp at h
  · rename_i hguard
    push_neg at hguard
    have hj : sbLoop g p v (sbFuel g) (sbInit v) = some (some b) := by
      cases hl : sbLoop g p v (sbFuel g) (sbInit v) with
      | none => rw [hl] at h; simp [Option.join] at h
      | some o =>
        rw [hl] at h
        cases o with
        | none => simp [Option.join] at h
        | some b2 => simp [Option.join] at h; rw [h]
    have hcnt1 : 1 ≤ p.max_count := by
      have hfuel : sbFuel g = (2 * g.nodeCnt + 1) + 1 := by
        unfold sbFuel
        omega
      rw [hfuel, sbLoop] at hj
      dsimp only [sbInit] at hj
      by_cases hmc : ((sbInit v).reached.length > p.max_count)
      · dsimp only [sbInit] at hmc
        rw [if_pos hmc] at hj
        simp at hj
      · dsimp only [sbInit] at hmc
        simp only [List.length_singleton] at hmc
        omega
    obtain ⟨st2, hI, hstk, hnr, hpn, hbs, hbr, hpre, hnf, hcnt, hinc,
      hchk1, hchk2⟩ := sbLoop_run g p v hwf (sbFuel g) (sbInit v) b
      (sbInit_inv g v) (.inl rfl) hj
    refine ⟨st2, hI, hstk, hnr, hpn, hbs, hbr, ?_, hcnt, hinc, hchk1, hchk2,
      (not_lt.mpr hguard.1 : ¬ _), (not_lt.mpr hguard.2 : ¬ _), hcnt1⟩
    intro k hk1 hk2
    exact hnf k (by simpa [sbInit] using hk1) hk2

/-- The skeleton list starts with the start vertex. -/
theorem shape_cons (g : Graph) (s t : Vertex) (P : List Vertex)
    (hsh : SbShape g s t P) : ∃ tl0, P = s :: tl0 := by
  cases hP : P with
  | nil =>
    have := hsh.hd
    rw [hP] at this
    simp at this
  | cons a tl0 =>
    have := hsh.hd
    rw [hP] at this
    injection this with h0
    rw [h0]
    exact ⟨tl0, rfl⟩

/-- The start has index 0 in the skeleton. -/
theorem shape_idx_s (g : Graph) (s t : Vertex) (P : List Vertex)
    (hsh : SbShape g s t P) : listIdx P s = 0 := by
  obtain ⟨tl0, hP⟩ := shape_cons g s t P hsh
  rw [hP]
  unfold listIdx
  rw [if_pos rfl]

/-- The last skeleton entry is the sink. -/
theorem shape_last_get (g : Graph) (s t : Vertex) (P : List Vertex)
    (hsh : SbShape g s t P) (h1 : P.length - 1 < P.length) :
    P.get ⟨P.length - 1, h1⟩ = t := by
  have h0 := hsh.tl
  rw [List.getLast?_eq_getElem?] at h0
  rw [List.getElem?_eq_getElem h1] at h0
  injection h0 with h0

/-- A member of the skeleton other than the sink has index below the
last position. -/
theorem shape_idx_lt (g : Graph) (s t : Vertex) (P : List Vertex)
    (hsh : SbShape g s t P) (w : Vertex) (hw : w ∈ P) (hwt : w ≠ t) :
    listIdx P w + 1 < P.length := by
  have hj := listIdx_lt_length P w hw
  have h1 : P.length - 1 < P.length := by
    have := hsh.hlen
    omega
  by_cases he : listIdx P w = P.length - 1
  · exfalso
    have hget := listIdx_get_self P w hw hj
    have hlast := shape_last_get g s t P hsh h1
    apply hwt
    rw [← hget, ← hlast]
    congr 1
    exact Fin.ext he
  · omega

/-- No region of the skeleton containing the sink can have all of its
incoming links sourced inside itself or at a single interior gate whose
own links all enter the region: the gate would have been the sink. -/
theorem no_closed_region (g : Graph) (s t : Vertex) (P : List Vertex)
    (hsh : SbShape g s t P) (w : Vertex) (W : List Vertex)
    (htW : t ∈ W) (hWP : ∀ u ∈ W, u ∈ P) (hWs : ∀ u ∈ W, u ≠ s)
    (hwW : w ∉ W) (hwP : w ∈ P) (hws : w ≠ s) (hwt : w ≠ t)
    (hclose : ∀ u ∈ W, ∀ l ∈ g.links, l.endV = u →
      l.startV ∈ W ∨ l.startV = w)
    (hwOut : ∀ l ∈ g.outgoing_edges w, l.endV ∈ W) : False := by
  have hsP : s ∈ P := by
    obtain ⟨tl0, hP⟩ := shape_cons g s t P hsh
    rw [hP]
    exact List.mem_cons_self s tl0
  have hidxs := shape_idx_s g s t P hsh
  have hwj := listIdx_lt_length P w hwP
  have hwget := listIdx_get_self P w hwP hwj
  have hwsrc : ∀ l ∈ g.links, l.endV = w →
      l.startV ∈ P.take (listIdx P w) :=
    fun l hl hle => hsh.topoT (listIdx P w) hwj (by rw [hwget]; exact hws)
      l hl (by rw [hwget]; exact hle)
  -- the gate's incoming-source indices and their successor bound
  have hsrcidx : ∀ l ∈ g.links, l.endV = w →
      listIdx P l.startV < listIdx P w :=
    fun l hl hle => listIdx_lt_of_mem_take P _ l.startV (hwsrc l hl hle)
  obtain ⟨l0, hl0, hl0e⟩ := hsh.inEx w hwP hws
  have hl0inc : l0 ∈ g.incoming_edges w :=
    List.mem_filter.mpr ⟨hl0, by simp [hl0e]⟩
  have hnsne : (g.incoming_edges w).map
      (fun l => listIdx P l.startV) ≠ [] := by
    intro hc
    rw [List.map_eq_nil_iff] at hc
    rw [hc] at hl0inc
    simp at hl0inc
  set k := ((g.incoming_edges w).map
    (fun l => listIdx P l.startV)).foldr max 0 + 1 with hkdef
  have hallk : ∀ l ∈ g.links, l.endV = w → listIdx P l.startV < k := by
    intro l hl hle
    have hmem : listIdx P l.startV ∈ (g.incoming_edges w).map
        (fun l => listIdx P l.startV) :=
      List.mem_map.mpr ⟨l, List.mem_filter.mpr ⟨hl, by simp [hle]⟩, rfl⟩
    have := foldr_max_ub _ _ hmem
    omega
  have hkw : k ≤ listIdx P w := by
    obtain ⟨n, hn, hnle⟩ := foldr_max_attained _ hnsne
    rcases List.mem_map.mp hn with ⟨l, hl, hlid⟩
    have := hsrcidx l (incoming_mem_links g w l hl) (incoming_end g w l hl)
    omega
  have hkpos : 0 < k := by omega
  have hkbound : k + 1 < P.length := by
    have := shape_idx_lt g s t P hsh w hwP hwt
    omega
  -- the region is untouched by the prefix
  have ha1 : ∀ n, ∀ u ∈ W, listIdx P u ≤ n → u ∉ P.take k := by
    intro n
    induction n using Nat.strong_induction_on with
    | _ n IH =>
      intro u hu hun hutake
      have huP := hWP u hu
      have hus := hWs u hu
      have hujlt : listIdx P u < k := listIdx_lt_of_mem_take P k u hutake
      have huj := listIdx_lt_length P u huP
      have huget := listIdx_get_self P u huP huj
      obtain ⟨l, hl, hle⟩ := hsh.inEx u huP hus
      have hsrc := hsh.topoT (listIdx P u) huj (by rw [huget]; exact hus)
        l hl (by rw [huget]; exact hle)
      have hslt : listIdx P l.startV < listIdx P u :=
        listIdx_lt_of_mem_take P _ l.startV hsrc
      rcases hclose u hu l hl hle with h1 | h1
      · have hsrcP : l.startV ∈ P := List.mem_of_mem_take hsrc
        have hsrctake : l.startV ∈ P.take k :=
          mem_take_of_listIdx P l.startV k hsrcP (by omega)
        exact IH (listIdx P l.startV) (by omega) l.startV h1 (le_refl _)
          hsrctake
      · rw [h1] at hslt
        omega
  -- every skeleton vertex outside the region and gate has index below k
  have hB : ∀ n, ∀ u ∈ P, u ∉ W → u ≠ w → P.length - listIdx P u ≤ n →
      listIdx P u < k := by
    intro n
    induction n using Nat.strong_induction_on with
    | _ n IH =>
      intro u huP huW huw hmeas
      have hut : u ≠ t := fun he => huW (he ▸ htW)
      have hoe := hsh.outEx u huP hut
      cases hov : g.outgoing_edges u with
      | nil => exact absurd hov hoe
      | cons l tl =>
        have hl : l ∈ g.outgoing_edges u := by
          rw [hov]
          exact List.mem_cons_self l tl
        have hcP := hsh.outIn u huP hut l hl
        have hstart := outgoing_start g u l hl
        have hcW : l.endV ∉ W := by
          intro hc
          rcases hclose l.endV hc l (outgoing_mem_links g u l hl) rfl
              with h1 | h1
          · rw [hstart] at h1
            exact huW h1
          · rw [hstart] at h1
            exact huw h1
        by_cases hcw : l.endV = w
        · have := hallk l (outgoing_mem_links g u l hl) hcw
          rw [hstart] at this
          exact this
        · have hct : l.endV ≠ t := fun he => hcW (he ▸ htW)
          have hcj := listIdx_lt_length P l.endV hcP.1
          have hcget := listIdx_get_self P l.endV hcP.1 hcj
          have hsrc := hsh.topoT (listIdx P l.endV) hcj
            (by rw [hcget]; exact hcP.2) l (outgoing_mem_links g u l hl)
            (by rw [hcget])
          rw [hstart] at hsrc
          have hult : listIdx P u < listIdx P l.endV :=
            listIdx_lt_of_mem_take P _ u hsrc
          have := IH (P.length - listIdx P l.endV) (by omega) l.endV hcP.1
            hcW hcw (le_refl _)
          omega
  -- the abstract end condition would hold at the prefix of length k
  apply hsh.noFire k hkpos hkbound
  obtain ⟨n0, hn0, hn0le⟩ := foldr_max_attained _ hnsne
  rcases List.mem_map.mp hn0 with ⟨lmax, hlmax, hlmaxid⟩
  have hlmaxlinks := incoming_mem_links g w lmax hlmax
  have hlmaxend := incoming_end g w lmax hlmax
  have hmaxsrcP : lmax.startV ∈ P :=
    List.mem_of_mem_take (hwsrc lmax hlmaxlinks hlmaxend)
  have hmaxsrctake : lmax.startV ∈ P.take k :=
    mem_take_of_listIdx P lmax.startV k hmaxsrcP
      (hallk lmax hlmaxlinks hlmaxend)
  refine ⟨w, ?_, ?_, ?_, ?_⟩
  · intro hc
    have := listIdx_lt_of_mem_take P k w hc
    omega
  · right
    exact ⟨lmax.startV, hmaxsrctake, lmax,
      List.mem_filter.mpr ⟨hlmaxlinks, by simp⟩, hlmaxend⟩
  · intro y hyq hyr
    rcases hyr with he | ⟨u, hu, l, hlo, hle⟩
    · exfalso
      apply hyq
      rw [he]
      exact mem_take_of_listIdx P s k hsP (by omega)
    · have huP : u ∈ P := List.mem_of_mem_take hu
      have hut : u ≠ t := by
        intro he
        exact ha1 (listIdx P t) t htW (le_refl _) (he ▸ hu)
      have hy := hsh.outIn u huP hut l hlo
      rw [hle] at hy
      have hyW : y ∉ W := by
        intro hc
        rcases hclose y hc l (outgoing_mem_links g u l hlo) hle with h1 | h1
        · rw [outgoing_start g u l hlo] at h1
          exact ha1 (listIdx P u) u h1 (le_refl _) hu
        · rw [outgoing_start g u l hlo] at h1
          rw [h1] at hu
          have := listIdx_lt_of_mem_take P k w hu
          omega
      by_contra hyw
      have := hB (P.length - listIdx P y) y hy.1 hyW hyw (le_refl _)
      exact hyq (mem_take_of_listIdx P y k hy.1 this)
  · intro l hl hle
    exact mem_take_of_listIdx P l.startV k
      (List.mem_of_mem_take (hwsrc l hl hle)) (hallk l hl hle)

/-- The start of the `i`-th link of a chain is the `i`-th vertex. -/
theorem Chained.start_get {vs : List Vertex} {ls : List Link}
    (h : Chained vs ls) :
    ∀ i (hi : i < ls.length) (hv : i < vs.length),
    (ls.get ⟨i, hi⟩).startV = vs.get ⟨i, hv⟩ := by
  induction h with
  | single v => intro i hi; simp at hi
  | cons v l vs0 ls0 h1 h2 h3 ih =>
    intro i hi hv
    cases i with
    | zero => exact h1
    | succ i =>
      simp only [List.length_cons, Nat.succ_lt_succ_iff] at hi hv
      exact ih i hi hv

/-- The end of the `i`-th link of a chain is the `i+1`-st vertex. -/
theorem Chained.end_get {vs : List Vertex} {ls : List Link}
    (h : Chained vs ls) :
    ∀ i (hi : i < ls.length) (hv : i + 1 < vs.length),
    (ls.get ⟨i, hi⟩).endV = vs.get ⟨i + 1, hv⟩ := by
  induction h with
  | single v => intro i hi _; simp at hi
  | cons v l vs0 ls0 h1 h2 h3 ih =>
    intro i hi hv
    cases i with
    | zero =>
      have hv0 : 0 < vs0.length := by simpa using hv
      have h4 : some (vs0.get ⟨0, hv0⟩) = some l.endV := by
        rw [← h3, List.head?_eq_getElem?, List.getElem?_eq_getElem hv0]
        rfl
      injection h4 with h4
      exact h4.symm
    | succ i =>
      simp only [List.length_cons, Nat.succ_lt_succ_iff] at hi hv
      exact ih i hi hv

/-- Telescoping the per-link weights of a chain against those of its
reverse complement: the difference is the two boundary node lengths. -/
theorem chain_rc_weight (g : Graph) (hov : g.WfOverlap) (hrc : g.WfRC) :
    ∀ (vs : List Vertex) (ls : List Link), Chained vs ls →
    (∀ l ∈ ls, l ∈ g.links) →
    ∀ a z, vs.head? = some a → vs.getLast? = some z →
    (ls.map (linkWeight g)).sum + (g.node a.nodeId).length
      = (ls.map (fun x => linkWeight g x.rc)).sum
        + (g.node z.nodeId).length := by
  intro vs ls hch
  induction hch with
  | single v =>
    intro hl a z ha hz
    simp only [List.head?_cons, List.getLast?_singleton] at ha hz
    injection ha with ha
    injection hz with hz
    rw [← ha, ← hz]
    simp
  | cons v l vs0 ls0 h1 h2 h3 ih =>
    intro hlinks a z ha hz
    have hlmem : l ∈ g.links := hlinks l (List.mem_cons_self l ls0)
    have ha2 : a = v := by
      simp only [List.head?_cons] at ha
      injection ha with ha
      exact ha.symm
    have hz2 : vs0.getLast? = some z := by
      rwa [getLast?_cons_ne v vs0 h2.ne_nil] at hz
    have hih := ih (fun l2 hl2 => hlinks l2 (List.mem_cons_of_mem l hl2))
      l.endV z h3 hz2
    have hper : linkWeight g l + (g.node a.nodeId).length
        = linkWeight g l.rc + (g.node l.endV.nodeId).length := by
      have hov1 : l.overlap ≤ (g.node l.endV.nodeId).length := hov l hlmem
      have hov2 : l.overlap ≤ (g.node a.nodeId).length := by
        have := hov l.rc (hrc l hlmem)
        unfold Link.rc at this
        dsimp only at this
        unfold Vertex.rc at this
        dsimp only at this
        rw [h1, ← ha2] at this
        exact this
      have hwl : linkWeight g l
          = (g.node l.endV.nodeId).length - l.overlap := rfl
      have hwlrc : linkWeight g l.rc
          = (g.node a.nodeId).length - l.overlap := by
        unfold linkWeight Link.rc Vertex.rc
        dsimp only
        rw [h1, ← ha2]
      rw [hwl, hwlrc]
      omega
    simp only [List.map_cons, List.sum_cons]
    omega

/-- Any chain from the start that never re-enters it, drawn from the
graph's links, has its total weight within the stored range of its last
vertex. -/
theorem chain_bounds (g : Graph) (s : Vertex) (st2 : SbSt) (hi : SbI g s st2)
    (hfull : ∀ w ∈ sbKeys st2, w ≠ s →
      ∀ l ∈ g.links, l.endV = w → l.startV ∈ st2.processed) :
    ∀ n (vs : List Vertex) (ls : List Link), ls.length ≤ n →
    Chained vs ls → vs.head? = some s →
    (∀ l ∈ ls, l ∈ g.links) → (∀ l ∈ ls, l.endV ≠ s) →
    ∀ u, vs.getLast? = some u → u ∈ sbKeys st2 →
    ((alookup st2.reached u).getD (0, 0)).1 ≤ (ls.map (linkWeight g)).sum
    ∧ (ls.map (linkWeight g)).sum
      ≤ ((alookup st2.reached u).getD (0, 0)).2 := by
  intro n
  induction n with
  | zero =>
    intro vs ls hn hch hhd hlinks hne u hlast hukey
    have hls : ls = [] := List.length_eq_zero.mp (by omega)
    subst hls
    cases hch with
    | single v =>
      simp only [List.head?_cons, List.getLast?_singleton] at hhd hlast
      injection hhd with hhd
      injection hlast with hlast
      rw [← hlast, hhd, hi.sVal]
      simp
  | succ n IH =>
    intro vs ls hn hch hhd hlinks hne u hlast hukey
    by_cases hlsnil : ls = []
    · subst hlsnil
      cases hch with
      | single v =>
        simp only [List.head?_cons, List.getLast?_singleton] at hhd hlast
        injection hhd with hhd
        injection hlast with hlast
        rw [← hlast, hhd, hi.sVal]
        simp
    · have hlpos : 0 < ls.length := List.length_pos_of_ne_nil hlsnil
      have hvslen := hch.length_eq
      have hllt : ls.length - 1 < ls.length := by omega
      have hvlt : ls.length < vs.length := by omega
      have hlmem : ls.get ⟨ls.length - 1, hllt⟩ ∈ ls := List.get_mem ls _ hllt
      have hllink : ls.get ⟨ls.length - 1, hllt⟩ ∈ g.links := hlinks _ hlmem
      have hgl : vs.getLast?
          = some (vs.get ⟨vs.length - 1, by omega⟩) := by
        rw [List.getLast?_eq_getElem?, List.getElem?_eq_getElem (by omega)]
        rfl
      rw [hgl] at hlast
      injection hlast with hlast
      have huend : (ls.get ⟨ls.length - 1, hllt⟩).endV = u := by
        have hend := hch.end_get (ls.length - 1) hllt (by omega)
        rw [hend, ← hlast]
        congr 1
        exact Fin.ext (by dsimp only; omega)
      have hues : u ≠ s := by
        have := hne _ hlmem
        rwa [huend] at this
      have hsrc := hfull u hukey hues _ hllink huend
      have hsrckey := hi.procKeys _ hsrc
      have hpre : Chained (vs.take ls.length)
          (ls.take (ls.length - 1)) := by
        have h0 := hch.take_chain (ls.length - 1)
        rw [show ls.length - 1 + 1 = ls.length from by omega] at h0
        exact h0
      have hprehd : (vs.take ls.length).head? = some s := by
        rw [show ls.length = (ls.length - 1) + 1 from by omega,
          head?_take_succ]
        exact hhd
      have hprelast : (vs.take ls.length).getLast?
          = some (ls.get ⟨ls.length - 1, hllt⟩).startV := by
        have hlen2 : (vs.take ls.length).length = ls.length := by
          rw [List.length_take]
          omega
        have h1 : (vs.take ls.length).length - 1
            < (vs.take ls.length).length := by omega
        rw [List.getLast?_eq_getElem?, List.getElem?_eq_getElem h1]
        have hstart := hch.start_get (ls.length - 1) hllt (by omega)
        rw [hstart]
        congr 1
        rw [List.getElem_take]
        congr 1
        omega
      have hlsdec : ls = ls.take (ls.length - 1)
          ++ [ls.get ⟨ls.length - 1, hllt⟩] := by
        have h0 := List.take_concat_get ls (ls.length - 1) hllt
        rw [show ls.length - 1 + 1 = ls.length from by omega,
          List.take_length, List.concat_eq_append] at h0
        exact h0.symm
      have hsum : (ls.map (linkWeight g)).sum
          = ((ls.take (ls.length - 1)).map (linkWeight g)).sum
            + linkWeight g (ls.get ⟨ls.length - 1, hllt⟩) := by
        conv_lhs => rw [hlsdec]
        rw [List.map_append, List.sum_append]
        simp
      have hlen3 : (ls.take (ls.length - 1)).length ≤ n := by
        rw [List.length_take]
        omega
      have hIH := IH (vs.take ls.length) (ls.take (ls.length - 1)) hlen3
        hpre hprehd
        (fun l2 hl2 => hlinks l2 (List.mem_of_mem_take hl2))
        (fun l2 hl2 => hne l2 (List.mem_of_mem_take hl2))
        (ls.get ⟨ls.length - 1, hllt⟩).startV hprelast hsrckey
      have hval := hi.valSpec u hukey hues
      obtain ⟨r, hr⟩ := Option.isSome_iff_exists.mp
        (alookup_isSome_of_mem st2.reached u hukey)
      have hlrelax : ls.get ⟨ls.length - 1, hllt⟩
          ∈ relaxedEdges g st2.processed u := by
        unfold relaxedEdges
        refine List.mem_filter.mpr
          ⟨List.mem_flatMap.mpr
            ⟨(ls.get ⟨ls.length - 1, hllt⟩).startV, hsrc, ?_⟩,
           by simpa using huend⟩
        exact List.mem_filter.mpr ⟨hllink, by simp⟩
      have hbnd := mergeFoldOpt_bounds _ r (by rw [← hval, hr]) _
        (List.mem_map.mpr ⟨ls.get ⟨ls.length - 1, hllt⟩, hlrelax, rfl⟩)
      have hldr : link_dist_range g st2.reached
          (ls.get ⟨ls.length - 1, hllt⟩)
          = (((alookup st2.reached
                (ls.get ⟨ls.length - 1, hllt⟩).startV).getD (0, 0)).1
              + linkWeight g (ls.get ⟨ls.length - 1, hllt⟩),
             ((alookup st2.reached
                (ls.get ⟨ls.length - 1, hllt⟩).startV).getD (0, 0)).2
              + linkWeight g (ls.get ⟨ls.length - 1, hllt⟩)) := rfl
      rw [hldr] at hbnd
      rw [hr]
      simp only [Option.getD_some]
      rw [hsum]
      obtain ⟨hb1, hb2⟩ := hbnd
      dsimp only at hb1 hb2
      obtain ⟨hi1, hi2⟩ := hIH
      constructor
      · omega
      · omega

/-- `Link.rc` is injective. -/
theorem Link.rc_injective {l m : Link} (h : l.rc = m.rc) : l = m := by
  have h2 := congrArg Link.rc h
  rwa [Link.rc_involution, Link.rc_involution] at h2

/-- The twin of an outgoing link of a vertex is an incoming link of the
vertex's twin. -/
theorem rc_out_in (g : Graph) (hrc : g.WfRC) (v : Vertex) :
    ∀ l ∈ g.outgoing_edges v, l.rc ∈ g.incoming_edges v.rc := by
  intro l hl
  have hs := outgoing_start g v l hl
  have hm := outgoing_mem_links g v l hl
  unfold Graph.incoming_edges
  refine List.mem_filter.mpr ⟨hrc l hm, ?_⟩
  have h2 : l.rc.endV = v.rc := by
    show l.startV.rc = v.rc
    rw [hs]
  rw [h2]
  simp

/-- The twin of an incoming link of a vertex is an outgoing link of the
vertex's twin. -/
theorem rc_in_out (g : Graph) (hrc : g.WfRC) (v : Vertex) :
    ∀ l ∈ g.incoming_edges v, l.rc ∈ g.outgoing_edges v.rc := by
  intro l hl
  have he := incoming_end g v l hl
  have hm := incoming_mem_links g v l hl
  unfold Graph.outgoing_edges
  refine List.mem_filter.mpr ⟨hrc l hm, ?_⟩
  have h2 : l.rc.startV = v.rc := by
    show l.endV.rc = v.rc
    rw [he]
  rw [h2]
  simp

/-- On a duplicate-free, rc-closed link list, outgoing multiplicity at a
vertex equals incoming multiplicity at its twin. -/
theorem out_cnt_rc (g : Graph) (hrc : g.WfRC) (hnd : g.links.Nodup)
    (v : Vertex) : g.outgoing_edge_cnt v = g.incoming_edge_cnt v.rc := by
  have hout : (g.outgoing_edges v).Nodup := hnd.filter _
  have hin : (g.incoming_edges v.rc).Nodup := hnd.filter _
  have h1 : ((g.outgoing_edges v).map Link.rc).Nodup :=
    hout.map (fun a b h => Link.rc_injective h)
  have h2 : ((g.incoming_edges v.rc).map Link.rc).Nodup :=
    hin.map (fun a b h => Link.rc_injective h)
  have hle1 : (g.outgoing_edges v).length ≤ (g.incoming_edges v.rc).length := by
    rw [← List.length_map (g.outgoing_edges v) Link.rc]
    refine nodup_subset_length_le _ _ h1 hin ?_
    intro x hx
    rcases List.mem_map.mp hx with ⟨l, hl, he⟩
    rw [← he]
    exact rc_out_in g hrc v l hl
  have hle2 : (g.incoming_edges v.rc).length ≤ (g.outgoing_edges v).length := by
    rw [← List.length_map (g.incoming_edges v.rc) Link.rc]
    refine nodup_subset_length_le _ _ h2 hout ?_
    intro x hx
    rcases List.mem_map.mp hx with ⟨l, hl, he⟩
    have h3 := rc_in_out g hrc v.rc l hl
    rw [Vertex.rc_rc] at h3
    rw [← he]
    exact h3
  unfold Graph.outgoing_edge_cnt Graph.incoming_edge_cnt
  omega

/-- Every processed vertex other than the start has all of its incoming
links sourced in the processed list. -/
theorem proc_full (g : Graph) (s : Vertex) (st : SbSt) (hi : SbI g s st) :
    ∀ y ∈ st.processed, y ≠ s → ∀ l ∈ g.links, l.endV = y →
    l.startV ∈ st.processed := by
  intro y hy hys l hl hle
  have hj := listIdx_lt_length st.processed y hy
  have hget := listIdx_get_self st.processed y hy hj
  have h2 := hi.topo _ hj (by rw [hget]; exact hys) l hl
    (by rw [hget]; exact hle)
  exact List.mem_of_mem_take h2

/-- `relaxFin` adds at most the relaxed target to the keys. -/
theorem relaxFin_keys_sub (g : Graph) (l : Link) (st : SbSt) :
    ∀ y ∈ sbKeys (relaxFin g l st), y ∈ sbKeys st ∨ y = l.endV := by
  intro y hy
  unfold relaxFin at hy
  dsimp only at hy
  split at hy
  · simp only [sbKeys] at hy
    exact (mem_ainsert_keys _ _ _ _).mp hy
  · simp only [sbKeys] at hy
    exact (mem_ainsert_keys _ _ _ _).mp hy

/-- `relaxOne` adds at most the relaxed target to the keys. -/
theorem relaxOne_keys_sub (g : Graph) (s : Vertex) (st : SbSt) (l : Link)
    (st' : SbSt) (h : relaxOne g s st l = some st') :
    ∀ y ∈ sbKeys st', y ∈ sbKeys st ∨ y = l.endV := by
  unfold relaxOne at h
  dsimp only at h
  split at h
  · exact absurd h (by simp)
  · split at h
    · split at h
      · exact absurd h (by simp)
      · injection h with h
        intro y hy
        rw [← h] at hy
        rcases relaxFin_keys_sub g l _ y hy with h1 | h1
        · simp only [sbKeys] at h1
          rcases (mem_ainsert_keys _ _ _ _).mp h1 with h2 | h2
          · exact .inl h2
          · exact .inr h2
        · exact .inr h1
    · injection h with h
      intro y hy
      rw [← h] at hy
      exact relaxFin_keys_sub g l st y hy

/-- Under the skeleton's topology, once every target of the start's
outgoing links has its twin in a back-closed set, the twins of all
non-start skeleton members are in the set. -/
theorem rev_chase (g : Graph) (s t : Vertex) (P : List Vertex)
    (hsh : SbShape g s t P) (hrc : g.WfRC) (Q : List Vertex)
    (hprop : ∀ y ∈ Q, y ≠ t.rc → ∀ m ∈ g.links, m.endV = y → m.startV ∈ Q)
    (hyp0 : ∀ l ∈ g.outgoing_edges s, l.endV.rc ∈ Q) :
    ∀ u ∈ P, u ≠ s → u.rc ∈ Q := by
  have hsP : s ∈ P := by
    obtain ⟨tl0, hP⟩ := shape_cons g s t P hsh
    rw [hP]
    exact List.mem_cons_self _ _
  have hmain : ∀ n u, u ∈ P → u ≠ s → listIdx P u ≤ n → u.rc ∈ Q := by
    intro n
    induction n with
    | zero =>
      intro u hu hus hle
      exfalso
      have hj := listIdx_lt_length P u hu
      have hget := listIdx_get_self P u hu hj
      have hjs := listIdx_lt_length P s hsP
      have hgs := listIdx_get_self P s hsP hjs
      have hs0 := shape_idx_s g s t P hsh
      apply hus
      rw [← hget, ← hgs]
      congr 1
      exact Fin.ext (by dsimp only; omega)
    | succ n ihn =>
      intro u hu hus hle
      have hj := listIdx_lt_length P u hu
      have hget := listIdx_get_self P u hu hj
      obtain ⟨l, hl, hle2⟩ := hsh.inEx u hu hus
      have hsrc : l.startV ∈ P.take (listIdx P u) :=
        hsh.topoT _ hj (by rw [hget]; exact hus) l hl
          (by rw [hget]; exact hle2)
      have hvP : l.startV ∈ P := List.mem_of_mem_take hsrc
      have hvidx : listIdx P l.startV < listIdx P u :=
        listIdx_lt_of_mem_take P _ _ hsrc
      by_cases hvs : l.startV = s
      · have hlout : l ∈ g.outgoing_edges s := by
          unfold Graph.outgoing_edges
          exact List.mem_filter.mpr ⟨hl, by simp [hvs]⟩
        have h9 := hyp0 l hlout
        rw [hle2] at h9
        exact h9
      · have hvQ : l.startV.rc ∈ Q := ihn l.startV hvP hvs (by omega)
        have hvt : l.startV ≠ t := by
          intro he
          have hidxt : listIdx P t = P.length - 1 := by
            have h1 : P.length - 1 < P.length := by
              have := hsh.hlen
              omega
            have hlast := shape_last_get g s t P hsh h1
            rw [← hlast]
            exact listIdx_get P hsh.nd _ h1
          rw [he, hidxt] at hvidx
          omega
        have hvrt : l.startV.rc ≠ t.rc := fun he => hvt (Vertex.rc_inj he)
        have hmQ := hprop _ hvQ hvrt l.rc (hrc l hl) rfl
        have h9 : l.endV.rc ∈ Q := hmQ
        rw [hle2] at h9
        exact h9
  intro u hu hus
  exact hmain (listIdx P u) u hu hus (le_refl _)

/-- During the twin-rooted run, a non-sink skeleton member whose forward
out-neighbours all have processed twins has a ready twin. -/
theorem rev_ready_vertex (g : Graph) (s t : Vertex) (P : List Vertex)
    (hsh : SbShape g s t P) (hrc : g.WfRC)
    (st' : SbSt) (hi' : SbI g t.rc st')
    (u : Vertex) (huP : u ∈ P) (hut : u ≠ t)
    (hnbr : ∀ l ∈ g.outgoing_edges u, l.endV.rc ∈ st'.processed) :
    u.rc ∈ st'.stack ∨ u.rc ∈ st'.processed := by
  obtain ⟨l0, hl0⟩ : ∃ l0, l0 ∈ g.outgoing_edges u := by
    cases ho : g.outgoing_edges u with
    | nil => exact absurd ho (hsh.outEx u huP hut)
    | cons a tl => exact ⟨a, List.mem_cons_self a tl⟩
  have hz0 : l0.endV.rc ∈ st'.processed := hnbr l0 hl0
  have hl0rc : l0.rc ∈ g.outgoing_edges l0.endV.rc := by
    unfold Graph.outgoing_edges
    refine List.mem_filter.mpr
      ⟨hrc l0 (outgoing_mem_links g u l0 hl0), by simp [Link.rc]⟩
  have hukey : u.rc ∈ sbKeys st' := by
    have h1 := hi'.procEdges _ hz0 l0.rc hl0rc
    have h2 : l0.rc.endV = u.rc := by
      show l0.startV.rc = u.rc
      rw [outgoing_start g u l0 hl0]
    rw [h2] at h1
    exact h1.1
  have hurt : u.rc ≠ t.rc := fun he => hut (Vertex.rc_inj he)
  have hall : ∀ m ∈ g.links, m.endV = u.rc → m.startV ∈ st'.processed := by
    intro m hm hme
    have hms : m.rc.startV = u := by
      show m.endV.rc = u
      rw [hme, Vertex.rc_rc]
    have hmrc : m.rc ∈ g.outgoing_edges u := by
      unfold Graph.outgoing_edges
      refine List.mem_filter.mpr ⟨hrc m hm, ?_⟩
      rw [hms]
      simp
    have h9 := hnbr m.rc hmrc
    have h3 : m.rc.endV.rc = m.startV := by
      show m.startV.rc.rc = m.startV
      rw [Vertex.rc_rc]
    rwa [h3] at h9
  have hfull : (relaxedEdges g st'.processed u.rc).length
      = g.incoming_edge_cnt u.rc :=
    relaxedEdges_full g st'.processed hi'.procND u.rc hall
  have hrem : st'.rem u.rc = 0 := by
    have := hi'.remSpec _ hukey hurt
    omega
  exact (hi'.ready _ hukey hurt).mp hrem

/-- Once the twin of the forward start enters the stack of the twin-rooted
run, the end condition holds immediately. -/
theorem rev_src_stack_fire (g : Graph) (s t : Vertex) (P : List Vertex)
    (hsh : SbShape g s t P) (hrc : g.WfRC)
    (st' : SbSt) (hi' : SbI g t.rc st')
    (r1 : ∀ x ∈ sbKeys st', x.rc ∈ P)
    (r2 : s.rc ∉ st'.processed)
    (hstk : s.rc ∈ st'.stack) (hst : s ≠ t) :
    st'.stack = [s.rc] ∧ st'.nr = 0 := by
  have hsrckey : s.rc ∈ sbKeys st' := hi'.stackKeys _ hstk
  have hsrt : s.rc ≠ t.rc := fun he => hst (Vertex.rc_inj he)
  have hrem0 : st'.rem s.rc = 0 := (hi'.ready _ hsrckey hsrt).mpr (.inl hstk)
  have hrlen : (relaxedEdges g st'.processed s.rc).length
      = g.incoming_edge_cnt s.rc := by
    have := hi'.remSpec _ hsrckey hsrt
    omega
  have hallsrc := ready_sources g st'.processed hi'.procND s.rc hrlen
  have hyp0 : ∀ l ∈ g.outgoing_edges s, l.endV.rc ∈ st'.processed := by
    intro l hl
    have hlm := outgoing_mem_links g s l hl
    have h1 : l.rc.endV = s.rc := by
      show l.startV.rc = s.rc
      rw [outgoing_start g s l hl]
    exact hallsrc l.rc (hrc l hlm) h1
  have hchase := rev_chase g s t P hsh hrc st'.processed
    (fun y hy hyt => proc_full g t.rc st' hi' y hy hyt) hyp0
  have hcover : ∀ x ∈ sbKeys st', x ≠ s.rc → x ∈ st'.processed := by
    intro x hx hxs
    have hxP := r1 x hx
    have hxs2 : x.rc ≠ s := fun he => hxs (by rw [← he, Vertex.rc_rc])
    have h9 := hchase x.rc hxP hxs2
    rwa [Vertex.rc_rc] at h9
  constructor
  · cases hs : st'.stack with
    | nil =>
      rw [hs] at hstk
      simp at hstk
    | cons a rest =>
      have hall : ∀ w ∈ st'.stack, w = s.rc := by
        intro w hw
        by_contra hne
        exact (hi'.disj w hw) (hcover w (hi'.stackKeys w hw) hne)
      have ha : a = s.rc := hall a (by rw [hs]; exact List.mem_cons_self _ _)
      have hrest : rest = [] := by
        cases hr : rest with
        | nil => rfl
        | cons b rr =>
          exfalso
          have hb : b = s.rc := hall b (by
            rw [hs, hr]
            exact List.mem_cons_of_mem _ (List.mem_cons_self _ _))
          have hnd2 := hi'.stackND
          rw [hs, hr] at hnd2
          rcases List.nodup_cons.mp hnd2 with ⟨hna, _⟩
          exact hna (by rw [ha, ← hb]; exact List.mem_cons_self _ _)
      rw [ha, hrest]
  · have h0 := hi'.nrSpec
    have hfil : ((sbKeys st').filter
        (fun w => decide (w ≠ t.rc ∧ w ∉ st'.stack ∧ w ∉ st'.processed)))
        = [] := by
      rw [List.filter_eq_nil_iff]
      intro w hw
      simp only [decide_eq_true_eq]
      rintro ⟨hwt, hwstk, hwproc⟩
      by_cases hws : w = s.rc
      · exact hwstk (hws ▸ hstk)
      · exact hwproc (hcover w hw hws)
    rw [hfil] at h0
    simpa using h0

/-- Relaxation of links whose sources' twins are non-start skeleton
members never aborts in the twin-rooted run, and keeps every key's twin
in the skeleton. -/
theorem rev_relaxList (g : Graph) (s t : Vertex) (P : List Vertex)
    (st2 : SbSt) (hrc : g.WfRC)
    (hrcF : ∀ w ∈ P, w.rc ∉ P)
    (hfullF : ∀ w ∈ P, w ≠ s →
      ∀ l ∈ g.links, l.endV = w → l.startV ∈ st2.processed)
    (hprocP : ∀ y ∈ st2.processed, y ∈ P)
    (htnp : t ∉ st2.processed) :
    ∀ (D : List Link) (st : SbSt),
    (∀ l ∈ D, l ∈ g.links ∧ l.startV.rc ∈ P ∧ l.startV.rc ≠ s) →
    (∀ x ∈ sbKeys st, x.rc ∈ P) →
    ∃ st1, relaxList g t.rc st D = some st1
      ∧ (∀ x ∈ sbKeys st1, x.rc ∈ P) := by
  intro D
  induction D with
  | nil =>
    intro st _ hk
    exact ⟨st, rfl, hk⟩
  | cons l D' ih =>
    intro st hD hk
    obtain ⟨hll, hlsP, hlss⟩ := hD l (List.mem_cons_self l D')
    have hrcl : l.rc ∈ g.links := hrc l hll
    have hrcl_end : l.rc.endV = l.startV.rc := rfl
    have hsrcP : l.endV.rc ∈ st2.processed :=
      hfullF l.startV.rc hlsP hlss l.rc hrcl hrcl_end
    have hendP : l.endV.rc ∈ P := hprocP _ hsrcP
    have hne_t : l.endV ≠ t.rc := by
      intro he
      apply htnp
      have h2 := hsrcP
      rw [he, Vertex.rc_rc] at h2
      exact h2
    have hone : ∃ st', relaxOne g t.rc st l = some st' := by
      unfold relaxOne
      dsimp only
      rw [if_neg hne_t]
      by_cases hfresh : (alookup st.reached l.endV).isNone
      · rw [if_pos hfresh]
        have hconf : ¬ (alookup st.reached l.endV.rc).isSome = true := by
          intro hs2
          have hmem := (alookup_isSome_mem _ _).mp hs2
          have h4 : l.endV ∈ P := by
            have h5 := hk _ hmem
            rwa [Vertex.rc_rc] at h5
          have h3 := hrcF _ hendP
          rw [Vertex.rc_rc] at h3
          exact h3 h4
        rw [if_neg hconf]
        exact ⟨_, rfl⟩
      · rw [if_neg hfresh]
        exact ⟨_, rfl⟩
    obtain ⟨st', ho⟩ := hone
    have hk' : ∀ x ∈ sbKeys st', x.rc ∈ P := by
      intro x hx
      rcases relaxOne_keys_sub g t.rc st l st' ho x hx with h1 | h1
      · exact hk x h1
      · rw [h1]
        exact hendP
    obtain ⟨st1, hrel, hk1⟩ := ih st'
      (fun m hm => hD m (List.mem_cons_of_mem l hm)) hk'
    refine ⟨st1, ?_, hk1⟩
    unfold relaxList
    rw [ho]
    exact hrel

/-- At the end condition of the twin-rooted run, the lone stacked vertex
is the twin of the forward start, and the keys are exactly the twins of
the skeleton. -/
theorem rev_fire (g : Graph) (s t : Vertex) (P : List Vertex)
    (hsh : SbShape g s t P) (hrc : g.WfRC)
    (st2 : SbSt)
    (hprocP : ∀ y ∈ st2.processed, y ∈ P)
    (htnp : t ∉ st2.processed)
    (st' : SbSt) (hi' : SbI g t.rc st')
    (r1 : ∀ x ∈ sbKeys st', x.rc ∈ P)
    (r2 : s.rc ∉ st'.processed)
    (x : Vertex) (hstk : st'.stack = [x]) (hnr : st'.nr = 0)
    (hpn : st'.processed ≠ []) :
    x = s.rc ∧ (∀ z, z ∈ sbKeys st' ↔ z.rc ∈ P) := by
  have htrcp : t.rc ∈ st'.processed := s_mem_processed g t.rc st' hi' hpn
  have hxstk : x ∈ st'.stack := by
    rw [hstk]
    exact List.mem_cons_self _ _
  have hxkey : x ∈ sbKeys st' := hi'.stackKeys x hxstk
  have hxnp : x ∉ st'.processed := hi'.disj x hxstk
  have hxt : x ≠ t.rc := fun he => hxnp (he ▸ htrcp)
  have hrem0 : st'.rem x = 0 := (hi'.ready _ hxkey hxt).mpr (.inl hxstk)
  have hrlen : (relaxedEdges g st'.processed x).length
      = g.incoming_edge_cnt x := by
    have := hi'.remSpec _ hxkey hxt
    omega
  have hfullx := ready_sources g st'.processed hi'.procND x hrlen
  have hxs : x = s.rc := by
    by_contra hxs
    apply no_closed_region g s t P hsh x.rc (st'.processed.map Vertex.rc)
    · exact List.mem_map.mpr ⟨t.rc, htrcp, Vertex.rc_rc t⟩
    · intro u hu
      rcases List.mem_map.mp hu with ⟨y, hy, hye⟩
      rw [← hye]
      exact r1 y (hi'.procKeys y hy)
    · intro u hu hus
      rcases List.mem_map.mp hu with ⟨y, hy, hye⟩
      apply r2
      have : y = s.rc := by
        rw [← Vertex.rc_rc y, hye, hus]
      rwa [this] at hy
    · intro hm
      rcases List.mem_map.mp hm with ⟨y, hy, hye⟩
      exact hxnp (by rw [← Vertex.rc_inj hye]; exact hy)
    · exact r1 x hxkey
    · intro he
      exact hxs (by rw [← Vertex.rc_rc x, he])
    · intro he
      exact hxnp (by rw [← Vertex.rc_rc x, he]; exact htrcp)
    · intro u hu l hl hle
      rcases List.mem_map.mp hu with ⟨y, hy, hye⟩
      have hlrc_start : l.rc.startV = y := by
        show l.endV.rc = y
        rw [hle, ← hye, Vertex.rc_rc]
      have hlrc_out : l.rc ∈ g.outgoing_edges y := by
        unfold Graph.outgoing_edges
        refine List.mem_filter.mpr ⟨hrc l hl, ?_⟩
        rw [hlrc_start]
        simp
      have hpe := hi'.procEdges y hy l.rc hlrc_out
      have hzkey : l.startV.rc ∈ sbKeys st' := hpe.1
      by_cases hzp : l.startV.rc ∈ st'.processed
      · exact .inl (List.mem_map.mpr ⟨l.startV.rc, hzp, Vertex.rc_rc _⟩)
      · rcases fire_split g t.rc st' hi' x hstk hnr _ hzkey hzp with h1 | h1
        · right
          rw [← h1, Vertex.rc_rc]
        · left
          have h2 : l.startV = t := Vertex.rc_inj h1
          rw [h2]
          exact List.mem_map.mpr ⟨t.rc, htrcp, Vertex.rc_rc t⟩
    · intro l hl
      have hlm := outgoing_mem_links g x.rc l hl
      have hrc_end : l.rc.endV = x := by
        show l.startV.rc = x
        rw [outgoing_start g x.rc l hl, Vertex.rc_rc]
      have h9 : l.endV.rc ∈ st'.processed := hfullx l.rc (hrc l hlm) hrc_end
      exact List.mem_map.mpr ⟨l.endV.rc, h9, Vertex.rc_rc _⟩
  refine ⟨hxs, ?_⟩
  have hst : s ≠ t := by
    intro he
    apply hxnp
    rw [hxs, he]
    exact htrcp
  have hyp0 : ∀ l ∈ g.outgoing_edges s, l.endV.rc ∈ st'.processed := by
    intro l hl
    have hlm := outgoing_mem_links g s l hl
    have h1 : l.rc.endV = x := by
      show l.startV.rc = x
      rw [outgoing_start g s l hl, hxs]
    exact hfullx l.rc (hrc l hlm) h1
  have hchase := rev_chase g s t P hsh hrc st'.processed
    (fun y hy hyt => proc_full g t.rc st' hi' y hy hyt) hyp0
  intro z
  constructor
  · exact r1 z
  · intro hz
    by_cases hzs : z.rc = s
    · have : z = s.rc := by rw [← Vertex.rc_rc z, hzs]
      rw [this, ← hxs]
      exact hxkey
    · have h9 := hchase z.rc hz hzs
      rw [Vertex.rc_rc] at h9
      exact hi'.procKeys z h9

/-- The twin-rooted run finishes with the twin of the forward start
holding the forward sink's range shifted by the difference of the two
boundary node lengths. -/
theorem rev_value (g : Graph) (s t : Vertex)
    (hov : g.WfOverlap) (hrc : g.WfRC)
    (st2 : SbSt) (hi : SbI g s st2)
    (hstkF : st2.stack = [t]) (hnrF : st2.nr = 0) (hpnF : st2.processed ≠ [])
    (st' : SbSt) (hi' : SbI g t.rc st')
    (hstk' : st'.stack = [s.rc]) (hnr' : st'.nr = 0)
    (hpn' : st'.processed ≠ [])
    (r2 : s.rc ∉ st'.processed) :
    ((alookup st'.reached s.rc).getD (0, 0)).1 + (g.node t.nodeId).length
      = ((alookup st2.reached t).getD (0, 0)).1 + (g.node s.nodeId).length
    ∧ ((alookup st'.reached s.rc).getD (0, 0)).2 + (g.node t.nodeId).length
      = ((alookup st2.reached t).getD (0, 0)).2 + (g.node s.nodeId).length := by
  have htne : t ≠ s := by
    intro he
    have h1 : s ∈ st2.stack := by
      rw [hstkF, he]
      exact List.mem_cons_self _ _
    exact hpnF (hi.sStack h1).2
  have hsrcne : s.rc ≠ t.rc := fun he => htne (Vertex.rc_inj he).symm
  have htkey : t ∈ sbKeys st2 := hi.stackKeys t
    (by rw [hstkF]; exact List.mem_cons_self _ _)
  have htnp : t ∉ st2.processed := hi.disj t
    (by rw [hstkF]; exact List.mem_cons_self _ _)
  have hfullF := final_all_full g s t st2 hi hstkF hnrF
  have hsrcT : ∀ l ∈ g.links, l.endV = t → l.startV ∈ st2.processed :=
    fun l hl hle => hfullF t htkey htne l hl hle
  have hskey' : s.rc ∈ sbKeys st' := hi'.stackKeys _
    (by rw [hstk']; exact List.mem_cons_self _ _)
  have hfullR := final_all_full g (t.rc) (s.rc) st' hi' hstk' hnr'
  have hsrcS : ∀ l ∈ g.links, l.endV = s.rc → l.startV ∈ st'.processed :=
    fun l hl hle => hfullR (s.rc) hskey' hsrcne l hl hle
  have hplenF : st2.processed.length + 1 ≤ st2.reached.length + 1 := by
    have h1 : st2.processed.length ≤ (sbKeys st2).length :=
      nodup_subset_length_le _ _ hi.procND hi.keysND hi.procKeys
    have h2 : (sbKeys st2).length = st2.reached.length := by
      unfold sbKeys
      rw [List.length_map]
    omega
  have hplenR : st'.processed.length + 1 ≤ st'.reached.length + 1 := by
    have h1 : st'.processed.length ≤ (sbKeys st').length :=
      nodup_subset_length_le _ _ hi'.procND hi'.keysND hi'.procKeys
    have h2 : (sbKeys st').length = st'.reached.length := by
      unfold sbKeys
      rw [List.length_map]
    omega
  obtain ⟨ev, el, heq1, hchL, hhdL, hlstL, hsumL, hmemL⟩ :=
    longestWalk_ok g ⟨s, t, st2.reached⟩ st2 s hi rfl rfl
      st2.processed.length (st2.reached.length + 1) t [t.rc] []
      hplenF (.inr ⟨rfl, hsrcT⟩) htkey (by simp) (by simp) (Chained.single _)
  obtain ⟨ev2, el2, heq2, hchS, hhdS, hlstS, hsumS, hmemS⟩ :=
    shortestWalk_ok g ⟨s, t, st2.reached⟩ st2 s hi rfl rfl
      st2.processed.length (st2.reached.length + 1) t [t.rc] []
      hplenF (.inr ⟨rfl, hsrcT⟩) htkey (by simp) (by simp) (Chained.single _)
  obtain ⟨ev3, el3, heq3, hchL', hhdL', hlstL', hsumL', hmemL'⟩ :=
    longestWalk_ok g ⟨t.rc, s.rc, st'.reached⟩ st' (t.rc) hi' rfl rfl
      st'.processed.length (st'.reached.length + 1) (s.rc) [s.rc.rc] []
      hplenR (.inr ⟨rfl, hsrcS⟩) hskey' (by simp) (by simp) (Chained.single _)
  obtain ⟨ev4, el4, heq4, hchS', hhdS', hlstS', hsumS', hmemS'⟩ :=
    shortestWalk_ok g ⟨t.rc, s.rc, st'.reached⟩ st' (t.rc) hi' rfl rfl
      st'.processed.length (st'.reached.length + 1) (s.rc) [s.rc.rc] []
      hplenR (.inr ⟨rfl, hsrcS⟩) hskey' (by simp) (by simp) (Chained.single _)
  have hlinks1 : ∀ m ∈ ([] : List Link) ++ el, m ∈ g.links := by
    intro m hm
    rw [List.nil_append] at hm
    have h2 := hrc _ (hmemL m hm).1
    rwa [Link.rc_involution] at h2
  have hne1 : ∀ m ∈ ([] : List Link) ++ el, m.endV ≠ t.rc := by
    intro m hm he
    rw [List.nil_append] at hm
    have h2 := (hmemL m hm).2
    have h3 : m.rc.startV = t := by
      show m.endV.rc = t
      rw [he, Vertex.rc_rc]
    rw [h3] at h2
    exact htnp h2
  have hhd1 : ([t.rc] ++ ev).head? = some t.rc := by
    rw [hhdL]
    rfl
  have hcb1 := chain_bounds g (t.rc) st' hi' hfullR
    (([] : List Link) ++ el).length ([t.rc] ++ ev) (([] : List Link) ++ el)
    (le_refl _) hchL hhd1 hlinks1 hne1 (s.rc) hlstL hskey'
  have htel1 := chain_rc_weight g hov hrc ([t.rc] ++ ev)
    (([] : List Link) ++ el) hchL hlinks1 (t.rc) (s.rc) hhd1 hlstL
  have hlinks2 : ∀ m ∈ ([] : List Link) ++ el2, m ∈ g.links := by
    intro m hm
    rw [List.nil_append] at hm
    have h2 := hrc _ (hmemS m hm).1
    rwa [Link.rc_involution] at h2
  have hne2 : ∀ m ∈ ([] : List Link) ++ el2, m.endV ≠ t.rc := by
    intro m hm he
    rw [List.nil_append] at hm
    have h2 := (hmemS m hm).2
    have h3 : m.rc.startV = t := by
      show m.endV.rc = t
      rw [he, Vertex.rc_rc]
    rw [h3] at h2
    exact htnp h2
  have hhd2 : ([t.rc] ++ ev2).head? = some t.rc := by
    rw [hhdS]
    rfl
  have hcb2 := chain_bounds g (t.rc) st' hi' hfullR
    (([] : List Link) ++ el2).length ([t.rc] ++ ev2) (([] : List Link) ++ el2)
    (le_refl _) hchS hhd2 hlinks2 hne2 (s.rc) hlstS hskey'
  have htel2 := chain_rc_weight g hov hrc ([t.rc] ++ ev2)
    (([] : List Link) ++ el2) hchS hlinks2 (t.rc) (s.rc) hhd2 hlstS
  have hlinks3 : ∀ m ∈ ([] : List Link) ++ el3, m ∈ g.links := by
    intro m hm
    rw [List.nil_append] at hm
    have h2 := hrc _ (hmemL' m hm).1
    rwa [Link.rc_involution] at h2
  have hne3 : ∀ m ∈ ([] : List Link) ++ el3, m.endV ≠ s := by
    intro m hm he
    rw [List.nil_append] at hm
    have h2 := (hmemL' m hm).2
    have h3 : m.rc.startV = s.rc := by
      show m.endV.rc = s.rc
      rw [he]
    rw [h3] at h2
    exact r2 h2
  have hhd3 : ([s.rc.rc] ++ ev3).head? = some s := by
    rw [hhdL']
    show some s.rc.rc = some s
    rw [Vertex.rc_rc]
  have hlst3 : ([s.rc.rc] ++ ev3).getLast? = some t := by
    have h9 := hlstL'
    rw [show Vertex.rc (Vertex.rc t) = t from Vertex.rc_rc t] at h9
    exact h9
  have hcb3 := chain_bounds g s st2 hi hfullF
    (([] : List Link) ++ el3).length ([s.rc.rc] ++ ev3)
    (([] : List Link) ++ el3)
    (le_refl _) hchL' hhd3 hlinks3 hne3 t hlst3 htkey
  have htel3 := chain_rc_weight g hov hrc ([s.rc.rc] ++ ev3)
    (([] : List Link) ++ el3) hchL' hlinks3 s t hhd3 hlst3
  have hlinks4 : ∀ m ∈ ([] : List Link) ++ el4, m ∈ g.links := by
    intro m hm
    rw [List.nil_append] at hm
    have h2 := hrc _ (hmemS' m hm).1
    rwa [Link.rc_involution] at h2
  have hne4 : ∀ m ∈ ([] : List Link) ++ el4, m.endV ≠ s := by
    intro m hm he
    rw [List.nil_append] at hm
    have h2 := (hmemS' m hm).2
    have h3 : m.rc.startV = s.rc := by
      show m.endV.rc = s.rc
      rw [he]
    rw [h3] at h2
    exact r2 h2
  have hhd4 : ([s.rc.rc] ++ ev4).head? = some s := by
    rw [hhdS']
    show some s.rc.rc = some s
    rw [Vertex.rc_rc]
  have hlst4 : ([s.rc.rc] ++ ev4).getLast? = some t := by
    have h9 := hlstS'
    rw [show Vertex.rc (Vertex.rc t) = t from Vertex.rc_rc t] at h9
    exact h9
  have hcb4 := chain_bounds g s st2 hi hfullF
    (([] : List Link) ++ el4).length ([s.rc.rc] ++ ev4)
    (([] : List Link) ++ el4)
    (le_refl _) hchS' hhd4 hlinks4 hne4 t hlst4 htkey
  have htel4 := chain_rc_weight g hov hrc ([s.rc.rc] ++ ev4)
    (([] : List Link) ++ el4) hchS' hlinks4 s t hhd4 hlst4
  have hnodeT : (g.node (Vertex.rc t).nodeId).length
      = (g.node t.nodeId).length := rfl
  have hnodeS : (g.node (Vertex.rc s).nodeId).length
      = (g.node s.nodeId).length := rfl
  rw [hnodeT, hnodeS] at htel1
  rw [hnodeT, hnodeS] at htel2
  obtain ⟨hcb1a, hcb1b⟩ := hcb1
  obtain ⟨hcb2a, hcb2b⟩ := hcb2
  obtain ⟨hcb3a, hcb3b⟩ := hcb3
  obtain ⟨hcb4a, hcb4b⟩ := hcb4
  simp only [List.map_nil, List.sum_nil] at hsumL hsumS hsumL' hsumS'
  constructor
  · omega
  · omega

/-- The twin-rooted search loop, started anywhere below the end condition
with keys drawn from the finished forward skeleton's twins, never aborts
and returns the bubble from the sink's twin to the start's twin. -/
theorem rev_loop (g : Graph) (p : SbSearchParams) (s t : Vertex)
    (P : List Vertex) (hsh : SbShape g s t P)
    (hwf : g.WfIds) (hov : g.WfOverlap) (hrc : g.WfRC) (hnd : g.links.Nodup)
    (st2 : SbSt) (hi : SbI g s st2)
    (hstkF : st2.stack = [t]) (hnrF : st2.nr = 0) (hpnF : st2.processed ≠ [])
    (hPproc : P = st2.processed ++ [t])
    (hKeysP : ∀ y, y ∈ sbKeys st2 ↔ y ∈ P)
    (hcntF : st2.reached.length ≤ p.max_count ∨ st2.processed = [s])
    (hchk1F : ¬(((alookup st2.reached t).getD (0, 0)).1
          > (g.node t.nodeId).length
        ∧ ((alookup st2.reached t).getD (0, 0)).1
          - (g.node t.nodeId).length > p.max_length))
    (hchk2F : ¬(((alookup st2.reached t).getD (0, 0)).2
          - ((alookup st2.reached t).getD (0, 0)).1 > p.max_diff))
    (hmc1 : 1 ≤ p.max_count) :
    ∀ fuel (st' : SbSt), SbI g t.rc st' →
    (∀ x ∈ sbKeys st', x.rc ∈ P) →
    s.rc ∉ st'.processed →
    (st'.processed = [] ∨ ¬ ∃ x, st'.stack = [x] ∧ st'.nr = 0) →
    (st'.processed = [] → st'.reached = [(t.rc, (0, 0))]) →
    P.length + 1 ≤ fuel + st'.processed.length →
    ∃ st3 : SbSt, sbLoop g p (t.rc) fuel st'
        = some (some ⟨t.rc, s.rc, st3.reached⟩)
      ∧ (∀ z, z ∈ sbKeys st3 ↔ z.rc ∈ P) := by
  have htnpF : t ∉ st2.processed := hi.disj t
    (by rw [hstkF]; exact List.mem_cons_self _ _)
  have hfaf := final_all_full g s t st2 hi hstkF hnrF
  have hfullP : ∀ w ∈ P, w ≠ s →
      ∀ l ∈ g.links, l.endV = w → l.startV ∈ st2.processed :=
    fun w hw => hfaf w ((hKeysP w).mpr hw)
  have hprocP : ∀ y ∈ st2.processed, y ∈ P := by
    intro y hy
    rw [hPproc]
    exact List.mem_append_left _ hy
  have hsP : s ∈ P := by
    obtain ⟨tl0, hP⟩ := shape_cons g s t P hsh
    rw [hP]
    exact List.mem_cons_self _ _
  have hPlen : P.length = st2.reached.length := by
    have h1 : (sbKeys st2).length = st2.reached.length := by
      unfold sbKeys
      rw [List.length_map]
    have h2 := nodup_subset_length_le _ _ hsh.nd hi.keysND
      (fun y hy => (hKeysP y).mpr hy)
    have h3 := nodup_subset_length_le _ _ hi.keysND hsh.nd
      (fun y hy => (hKeysP y).mp hy)
    omega
  have hidxt : listIdx P t = P.length - 1 := by
    have h1 : P.length - 1 < P.length := by
      have := hsh.hlen
      omega
    have hlast := shape_last_get g s t P hsh h1
    rw [← hlast]
    exact listIdx_get P hsh.nd _ h1
  have hst : s ≠ t := by
    intro he
    have h0 := shape_idx_s g s t P hsh
    rw [he, hidxt] at h0
    have := hsh.hlen
    omega
  intro fuel
  induction fuel with
  | zero =>
    intro st' hi' r1 r2 hnf hinit hfuel
    exfalso
    have h2 : (st'.processed.map Vertex.rc).Nodup :=
      hi'.procND.map (fun a b h => Vertex.rc_inj h)
    have h3 : ∀ z ∈ st'.processed.map Vertex.rc, z ∈ P := by
      intro z hz
      rcases List.mem_map.mp hz with ⟨y, hy, he⟩
      rw [← he]
      exact r1 y (hi'.procKeys y hy)
    have h4 := nodup_subset_length_le _ _ h2 hsh.nd h3
    rw [List.length_map] at h4
    omega
  | succ fuel ih =>
    intro st' hi' r1 r2 hnf hinit hfuel
    have hstkne : st'.stack ≠ [] := by
      intro hse
      have htrcp : t.rc ∈ st'.processed := by
        rcases hi'.sLoc with h1 | h1
        · rw [hse] at h1
          simp at h1
        · exact h1
      cases hCe : P.filter (fun u => decide (u ≠ s ∧ u.rc ∉ st'.processed)) with
      | nil =>
        have hallp : ∀ u ∈ P, u ≠ s → u.rc ∈ st'.processed := by
          intro u hu hus
          by_contra hup
          have h5 : u ∈ P.filter
              (fun u => decide (u ≠ s ∧ u.rc ∉ st'.processed)) :=
            List.mem_filter.mpr ⟨hu, by simp [hus, hup]⟩
          rw [hCe] at h5
          simp at h5
        have hnbrS : ∀ l ∈ g.outgoing_edges s, l.endV.rc ∈ st'.processed := by
          intro l hl
          have h6 := hsh.outIn s hsP hst l hl
          exact hallp _ h6.1 h6.2
        rcases rev_ready_vertex g s t P hsh hrc st' hi' s hsP hst hnbrS
            with h | h
        · rw [hse] at h
          simp at h
        · exact r2 h
      | cons c0 crest =>
        obtain ⟨nmax, hnmem, hmax⟩ := foldr_max_attained
          ((P.filter (fun u => decide (u ≠ s ∧ u.rc ∉ st'.processed))).map
            (listIdx P)) (by rw [hCe]; simp)
        rcases List.mem_map.mp hnmem with ⟨u, huC, hue⟩
        have huP : u ∈ P := List.mem_of_mem_filter huC
        have hups : u ≠ s ∧ u.rc ∉ st'.processed := by
          have := List.of_mem_filter huC
          simpa using this
        have hut : u ≠ t := by
          intro he
          exact hups.2 (by rw [he]; exact htrcp)
        have hnbrU : ∀ l ∈ g.outgoing_edges u, l.endV.rc ∈ st'.processed := by
          intro l hl
          have hzP := hsh.outIn u huP hut l hl
          have hjz := listIdx_lt_length P l.endV hzP.1
          have hgz := listIdx_get_self P l.endV hzP.1 hjz
          have hil : l.startV ∈ P.take (listIdx P l.endV) :=
            hsh.topoT _ hjz (by rw [hgz]; exact hzP.2) l
              (outgoing_mem_links g u l hl) (by rw [hgz])
          have hlt : listIdx P u < listIdx P l.endV := by
            have h7 := listIdx_lt_of_mem_take P _ _ hil
            rwa [outgoing_start g u l hl] at h7
          by_contra hzp
          have hzC : l.endV ∈ P.filter
              (fun u => decide (u ≠ s ∧ u.rc ∉ st'.processed)) :=
            List.mem_filter.mpr ⟨hzP.1, by simp [hzP.2, hzp]⟩
          have hub := foldr_max_ub
            ((P.filter (fun u => decide (u ≠ s ∧ u.rc ∉ st'.processed))).map
              (listIdx P)) (listIdx P l.endV)
            (List.mem_map.mpr ⟨l.endV, hzC, rfl⟩)
          rw [← hue] at hmax
          omega
        rcases rev_ready_vertex g s t P hsh hrc st' hi' u huP hut hnbrU
            with h | h
        · rw [hse] at h
          simp at h
        · exact hups.2 h
    cases hstack : st'.stack with
    | nil => exact absurd hstack hstkne
    | cons v rest =>
      have hvstk : v ∈ st'.stack := by
        rw [hstack]
        exact List.mem_cons_self _ _
      have hvkey : v ∈ sbKeys st' := hi'.stackKeys v hvstk
      have hvP : v.rc ∈ P := r1 v hvkey
      have hvns : v ≠ s.rc := by
        intro he
        rcases hnf with h1 | h1
        · have h2 : t.rc ∈ st'.stack := by
            rcases hi'.sLoc with h3 | h3
            · exact h3
            · rw [h1] at h3
              simp at h3
          have h4 := hi'.sStack h2
          rw [h4.1] at hstack
          injection hstack with h5 h6
          exact hst (Vertex.rc_inj (h5.trans he).symm)
        · have h2 := rev_src_stack_fire g s t P hsh hrc st' hi' r1 r2
            (by rw [← he]; exact hvstk) hst
          exact h1 ⟨s.rc, h2.1, h2.2⟩
      have hvrs : v.rc ≠ s := fun he => hvns (by rw [← he, Vertex.rc_rc])
      have hout : ¬ g.outgoing_edge_cnt v = 0 := by
        obtain ⟨l, hl, hle⟩ := hsh.inEx v.rc hvP hvrs
        have hmem : l ∈ g.incoming_edges v.rc :=
          List.mem_filter.mpr ⟨hl, by simp [hle]⟩
        have h1 : 0 < g.incoming_edge_cnt v.rc := by
          unfold Graph.incoming_edge_cnt
          exact List.length_pos_of_mem hmem
        rw [out_cnt_rc g hrc hnd v]
        omega
      have hcnt : ¬ st'.reached.length > p.max_count := by
        cases hpe : st'.processed with
        | nil =>
          rw [hinit hpe]
          simp only [List.length_singleton]
          omega
        | cons a pr =>
          rcases hcntF with hgen | hm1
          · have h2 : ((sbKeys st').map Vertex.rc).Nodup :=
              hi'.keysND.map (fun a b h => Vertex.rc_inj h)
            have h3 : ∀ z ∈ (sbKeys st').map Vertex.rc, z ∈ P := by
              intro z hz
              rcases List.mem_map.mp hz with ⟨y, hy, he⟩
              rw [← he]
              exact r1 y hy
            have h4 := nodup_subset_length_le _ _ h2 hsh.nd h3
            rw [List.length_map] at h4
            have h5 : (sbKeys st').length = st'.reached.length := by
              unfold sbKeys
              rw [List.length_map]
            omega
          · exfalso
            have hpne : st'.processed ≠ [] := by
              rw [hpe]
              simp
            have hnff : ¬ ∃ x, st'.stack = [x] ∧ st'.nr = 0 := by
              rcases hnf with h1 | h1
              · exact absurd h1 hpne
              · exact h1
            have htrcp : t.rc ∈ st'.processed := by
              rcases hi'.sLoc with h1 | h1
              · exact absurd (hi'.sStack h1).2 hpne
              · exact h1
            have hP2 : P = [s, t] := by
              rw [hPproc, hm1]
              rfl
            have hnbrS : ∀ l ∈ g.outgoing_edges s,
                l.endV.rc ∈ st'.processed := by
              intro l hl
              have hz := hsh.outIn s hsP hst l hl
              have hzt : l.endV = t := by
                have h6 := hz.1
                rw [hP2] at h6
                rcases List.mem_cons.mp h6 with h7 | h7
                · exact absurd h7 hz.2
                · simpa using h7
              rw [hzt]
              exact htrcp
            rcases rev_ready_vertex g s t P hsh hrc st' hi' s hsP hst hnbrS
                with h | h
            · have h2 := rev_src_stack_fire g s t P hsh hrc st' hi' r1 r2
                h hst
              exact hnff ⟨s.rc, h2.1, h2.2⟩
            · exact r2 h
      have hD : ∀ l ∈ g.outgoing_edges v,
          l ∈ g.links ∧ l.startV.rc ∈ P ∧ l.startV.rc ≠ s := by
        intro l hl
        refine ⟨outgoing_mem_links g v l hl, ?_, ?_⟩
        · rw [outgoing_start g v l hl]
          exact hvP
        · rw [outgoing_start g v l hl]
          exact hvrs
      obtain ⟨st1, hrel, hk1⟩ := rev_relaxList g s t P st2 hrc hsh.rcF
        hfullP hprocP htnpF (g.outgoing_edges v) { st' with stack := rest }
        hD (fun x hx => r1 x hx)
      have hmid0 := sbPop_inv g (t.rc) v rest st' hi' hstack
      have hmid := relaxList_inv g (t.rc) v hwf (g.outgoing_edges v) [] _
        (by simp) hmid0 st1 hrel
      have hb := sbAppend_inv g (t.rc) v st1 hmid hout
      have hproc1 : st1.processed = st'.processed := by
        have := relaxList_processed g (t.rc) _ _ _ hrel
        simpa using this
      have r2' : s.rc ∉ st1.processed ++ [v] := by
        intro hm
        rcases List.mem_append.mp hm with h1 | h1
        · rw [hproc1] at h1
          exact r2 h1
        · simp at h1
          exact hvns h1.symm
      have hpn'' : st1.processed ++ [v] ≠ [] := by simp
      have hfuel' : P.length + 1 ≤ fuel + (st1.processed ++ [v]).length := by
        rw [List.length_append, List.length_singleton, hproc1]
        omega
      rw [sbLoop, hstack]
      dsimp only
      rw [if_neg hcnt, if_neg hout, hrel]
      dsimp only
      cases hs2 : st1.stack with
      | nil =>
        rw [hs2] at hb
        have hnf' : ¬ ∃ x, ([] : List Vertex) = [x] ∧ st1.nr = 0 := by
          rintro ⟨x, hx, _⟩
          simp at hx
        exact ih { reached := st1.reached, stack := [], nr := st1.nr, rem := st1.rem, processed := st1.processed ++ [v] }
          hb hk1 r2' (.inr hnf') (fun h => absurd h hpn'') hfuel'
      | cons t1 rest2 =>
        cases rest2 with
        | cons t2 rest3 =>
          rw [hs2] at hb
          have hnf' : ¬ ∃ x, t1 :: t2 :: rest3 = [x] ∧ st1.nr = 0 := by
            rintro ⟨x, hx, _⟩
            simp at hx
          exact ih { reached := st1.reached, stack := t1 :: t2 :: rest3, nr := st1.nr, rem := st1.rem, processed := st1.processed ++ [v] }
            hb hk1 r2' (.inr hnf') (fun h => absurd h hpn'') hfuel'
        | nil =>
          cases hnr1 : st1.nr with
          | succ m =>
            rw [hs2, hnr1] at hb
            have hnf' : ¬ ∃ x, [t1] = [x] ∧ m + 1 = 0 := by
              rintro ⟨x, _, hx2⟩
              simp at hx2
            exact ih { reached := st1.reached, stack := [t1], nr := m + 1, rem := st1.rem, processed := st1.processed ++ [v] }
              hb hk1 r2' (.inr hnf') (fun h => absurd h hpn'') hfuel'
          | zero =>
            rw [hs2, hnr1] at hb
            obtain ⟨ht1, hcov⟩ := rev_fire g s t P hsh hrc st2 hprocP htnpF
              { reached := st1.reached, stack := [t1], nr := 0, rem := st1.rem, processed := st1.processed ++ [v] }
              hb hk1 r2' t1 rfl rfl hpn''
            subst ht1
            have hval := rev_value g s t hov hrc st2 hi hstkF hnrF hpnF
              { reached := st1.reached, stack := [Vertex.rc s], nr := 0, rem := st1.rem, processed := st1.processed ++ [v] }
              hb rfl rfl hpn'' r2'
            obtain ⟨hval1, hval2⟩ := hval
            dsimp only at hval1 hval2
            have hlenrc : (g.node (Vertex.rc s).nodeId).length
                = (g.node s.nodeId).length := rfl
            have hc1 : ¬ (((alookup st1.reached (Vertex.rc s)).getD (0, 0)).1
                  > (g.node (Vertex.rc s).nodeId).length
                ∧ ((alookup st1.reached (Vertex.rc s)).getD (0, 0)).1
                  - (g.node (Vertex.rc s).nodeId).length > p.max_length) := by
              rw [hlenrc]
              rintro ⟨ha, hb2⟩
              apply hchk1F
              constructor
              · omega
              · omega
            have hc2 : ¬ (((alookup st1.reached (Vertex.rc s)).getD (0, 0)).2
                  - ((alookup st1.reached (Vertex.rc s)).getD (0, 0)).1
                > p.max_diff) := by
              intro ha
              apply hchk2F
              omega
            dsimp only
            rw [if_neg hc1, if_neg hc2]
            exact ⟨{ reached := st1.reached, stack := [Vertex.rc s], nr := 0, rem := st1.rem, processed := st1.processed ++ [v] },
              rfl, hcov⟩

/-- C4 (algebraic_relational): for every graph whose links mention valid
node ids, respect overlaps, are rc-closed and duplicate-free: if
`find_superbubble(G, s, params)` returns a bubble with end `t`, then
`find_superbubble(G, rc(t), params)` returns a bubble whose start is
`rc(t)`, whose end vertex is `rc(s)`, and whose reached-vertex set is
exactly the image under rc of the first bubble's reached-vertex set. -/
theorem c4_bidirected_symmetry (g : Graph) (v : Vertex) (p : SbSearchParams)
    (hwf : g.WfIds) (hov : g.WfOverlap) (hrc : g.WfRC) (hnd : g.links.Nodup)
    (b : Superbubble) (h : find_superbubble g v p = some b) :
    ∃ b', find_superbubble g b.end_vertex.rc p = some b'
      ∧ b'.start_vertex = b.end_vertex.rc
      ∧ b'.end_vertex = b.start_vertex.rc
      ∧ ∀ x, x ∈ b'.vertices ↔ x.rc ∈ b.vertices := by
  obtain ⟨st2, hI, hstk, hnr, hpn, hbs, hbr, hnf, hcnt, hinc, hchk1, hchk2,
    hg1, hg2, hmc1⟩ := find_superbubble_run g v p hwf b h
  have hsh := shape_of_run g v b.end_vertex st2 hI hstk hnr hpn hnf
  have hKeysP := final_keys g v b.end_vertex st2 hI hstk hnr hpn
  have htkey : b.end_vertex ∈ sbKeys st2 := hI.stackKeys _
    (by rw [hstk]; exact List.mem_cons_self _ _)
  have htnp : b.end_vertex ∉ st2.processed := hI.disj _
    (by rw [hstk]; exact List.mem_cons_self _ _)
  have htne : b.end_vertex ≠ v := by
    intro he
    have h1 : v ∈ st2.stack := by
      rw [hstk, he]
      exact List.mem_cons_self _ _
    exact hpn (hI.sStack h1).2
  have hfaf := final_all_full g v b.end_vertex st2 hI hstk hnr
  have hinc2 : 2 ≤ g.incoming_edge_cnt b.end_vertex := by
    rcases hinc with h1 | h1
    · exact h1
    · have hsub : ∀ l ∈ g.links, l.startV = v → l.endV = b.end_vertex := by
        intro l hl hls
        have hlo : l ∈ g.outgoing_edges v :=
          List.mem_filter.mpr ⟨hl, by simp [hls]⟩
        have h2 := hI.procEdges v
          (by rw [h1]; exact List.mem_cons_self _ _) l hlo
        have h3 := (hKeysP l.endV).mp h2.1
        rw [h1] at h3
        rcases List.mem_append.mp h3 with h4 | h4
        · simp at h4
          exact absurd h4 h2.2
        · simpa using h4
      have hcc : g.outgoing_edge_cnt v
          ≤ g.incoming_edge_cnt b.end_vertex := by
        unfold Graph.outgoing_edge_cnt Graph.incoming_edge_cnt
          Graph.outgoing_edges Graph.incoming_edges
        rw [← List.countP_eq_length_filter, ← List.countP_eq_length_filter]
        apply List.countP_mono_left
        intro l hl hsl
        simp only [decide_eq_true_eq] at hsl ⊢
        exact hsub l hl hsl
      omega
  have hocc : g.outgoing_edge_cnt b.end_vertex.rc
      = g.incoming_edge_cnt b.end_vertex := by
    rw [out_cnt_rc g hrc hnd, Vertex.rc_rc]
  have hnoloop : ∀ l ∈ g.outgoing_edges b.end_vertex.rc,
      ¬ l.startV = l.endV := by
    intro l hl he
    have hlm := outgoing_mem_links g _ l hl
    have hrcend : l.rc.endV = b.end_vertex := by
      show l.startV.rc = b.end_vertex
      rw [outgoing_start g _ l hl, Vertex.rc_rc]
    have h9 := hfaf b.end_vertex htkey htne l.rc (hrc l hlm) hrcend
    have hsrc : l.rc.startV = b.end_vertex := by
      show l.endV.rc = b.end_vertex
      rw [← he, outgoing_start g _ l hl, Vertex.rc_rc]
    rw [hsrc] at h9
    exact htnp h9
  have hfeq : (g.outgoing_edges b.end_vertex.rc).filter
      (fun l => ¬ l.startV = l.endV) = g.outgoing_edges b.end_vertex.rc := by
    rw [List.filter_eq_self]
    intro l hl
    simpa using hnoloop l hl
  have hguardR : ¬ (g.outgoing_edge_cnt b.end_vertex.rc < 2 ∨
      ((g.outgoing_edges b.end_vertex.rc).filter
        (fun l => ¬ l.startV = l.endV)).length < 2) := by
    push_neg
    constructor
    · omega
    · rw [hfeq]
      show 2 ≤ (g.outgoing_edges b.end_vertex.rc).length
      unfold Graph.outgoing_edge_cnt at hocc
      omega
  have hfuel0 : (st2.processed ++ [b.end_vertex]).length + 1
      ≤ sbFuel g + (sbInit b.end_vertex.rc).processed.length := by
    have hb1 := keys_length_le v g.nodeCnt (st2.processed ++ [b.end_vertex])
      hsh.nd hsh.rcF (fun w hw => hI.keysWf w ((hKeysP w).mpr hw))
    have h0 : (sbInit b.end_vertex.rc).processed.length = 0 := rfl
    rw [h0]
    unfold sbFuel
    omega
  have hr1_0 : ∀ x ∈ sbKeys (sbInit b.end_vertex.rc),
      x.rc ∈ st2.processed ++ [b.end_vertex] := by
    intro x hx
    have h1 : x = b.end_vertex.rc := by
      simp [sbInit, sbKeys] at hx
      exact hx
    rw [h1, Vertex.rc_rc]
    exact List.mem_append_right _ (List.mem_cons_self _ _)
  obtain ⟨st3, hloop, hcov⟩ := rev_loop g p v b.end_vertex
    (st2.processed ++ [b.end_vertex]) hsh hwf hov hrc hnd st2 hI hstk hnr hpn
    rfl hKeysP hcnt hchk1 hchk2 hmc1 (sbFuel g) (sbInit b.end_vertex.rc)
    (sbInit_inv g _) hr1_0 (by simp [sbInit]) (.inl rfl) (fun _ => rfl)
    hfuel0
  refine ⟨⟨b.end_vertex.rc, v.rc, st3.reached⟩, ?_, rfl, ?_, ?_⟩
  · unfold find_superbubble
    rw [if_neg hguardR, hloop]
    rfl
  · show v.rc = b.start_vertex.rc
    rw [hbs]
  · intro x
    have hbv : b.vertices = sbKeys st2 := by
      unfold Superbubble.vertices sbKeys
      rw [hbr]
    have hbv' : (⟨b.end_vertex.rc, v.rc, st3.reached⟩ : Superbubble).vertices
        = sbKeys st3 := rfl
    rw [hbv', hbv, hcov x]
    exact (hKeysP x.rc).symm

/-- C4 witness: on the diamond graph the bubble from A+ ends at D+, the
search restarted from D- returns the twin bubble ending at A- over the
twin vertex set. -/
theorem c4_bidirected_symmetry_witness :
    exGraphDia.WfIds ∧ exGraphDia.WfOverlap ∧ exGraphDia.WfRC
      ∧ exGraphDia.links.Nodup
      ∧ ∃ b, find_superbubble exGraphDia (vf 0) exParams = some b
        ∧ ∃ b', find_superbubble exGraphDia b.end_vertex.rc exParams
              = some b'
          ∧ b'.start_vertex = b.end_vertex.rc
          ∧ b'.end_vertex = b.start_vertex.rc
          ∧ ∀ x, x ∈ b'.vertices ↔ x.rc ∈ b.vertices :=
  ⟨by unfold Graph.WfIds; decide, by unfold Graph.WfOverlap; decide,
    by unfold Graph.WfRC; decide, by decide,
    ⟨vf 0, vf 3, [(vf 0, (0, 0)), (vf 1, (10, 10)), (vf 2, (10, 10)),
      (vf 3, (20, 20))]⟩, by decide,
    c4_bidirected_symmetry exGraphDia (vf 0) exParams
      (by unfold Graph.WfIds; decide) (by unfold Graph.WfOverlap; decide)
      (by unfold Graph.WfRC; decide) (by decide) _ (by decide)⟩
